import Mathlib

/-!
# Oasis learned range filter: CDF model, block list, queries and persistence

A shallow embedding of `src/Oasis/oasis/cdf_model.hpp` and `src/Oasis/oasis/oasis.hpp`.

Conventions of the embedding.

* `uint64_t` / `size_t` values are natural numbers; every subtraction and addition of the
  source is taken modulo `2^64` (`sub64`, `add64`), `uint16_t` fields modulo `2^16`, the
  `uint32_t` counter of `build_indices` modulo `2^32`.
* `std::vector` is `List`; an index outside the vector, `top()` / `front()` / `back()` of an
  empty container, a division by zero and a read past the end of a byte buffer make the
  embedded function return `none`.
* The floating-point expressions of the source (`double`, `long double`, `std::pow`,
  `std::ceil`) are not evaluated: each one is a field of `FloatOps`, so every theorem holds
  for whatever values these expressions take.
* `bitset.hpp` is not part of the sources; the `BitSet` class is the parameter `BitSetOps`.
* The `assert` at the head of the CDF range query is the separate definition
  `CDFModel.rangeAssertion`; the query functions themselves are the release build.
-/

namespace oasis

/-! ## Machine arithmetic -/

/-- The modulus of `uint64_t` arithmetic. -/
def two64 : Nat := 2 ^ 64

/-- Subtraction of two `uint64_t` values. -/
def sub64 (a b : Nat) : Nat := (a + two64 - b % two64) % two64

/-- Addition of two `uint64_t` values. -/
def add64 (a b : Nat) : Nat := (a + b) % two64

/-- The constant `kCost = 3 * sizeof(uint64_t) * 8` of `CDFModel`. -/
def kCost : Nat := 3 * 8 * 8

/-- Modelled from the spec: `sizeAlign` (declared in the absent `bitset.hpp`) rounds a size
up to the next multiple of 8, "pad to 8-byte alignment". -/
def sizeAlign (n : Nat) : Nat := (n + 7) / 8 * 8

/-! ## External collaborators -/

/-- The floating-point expressions of the source, one field per expression.
`Dbl` stands for `double`, `LDbl` for `long double`. -/
structure FloatOps where
  /-- The type of `double` values. -/
  Dbl : Type
  /-- The type of `long double` values. -/
  LDbl : Type
  /-- `static_cast<size_t>(bpk * nkeys / kCost)`, cdf_model.hpp:77-78. -/
  heapBound : Dbl → Nat → Nat
  /-- `bpk - 2 - 64.0L / elem_per_block`, cdf_model.hpp:109. -/
  remainBpk : Dbl → Nat → Dbl
  /-- `std::ceil(std::pow(2, bpk - param * (m + 1)) * nkeys)` with
  `param = kCost * 1.0L / nkeys`, cdf_model.hpp:324,329; arguments `bpk nkeys m`. -/
  mpSz : Dbl → Nat → Nat → Nat
  /-- `static_cast<double>(delta_sum) * delta_sum / mp_sz`, cdf_model.hpp:330. -/
  rho : Nat → Nat → Dbl
  /-- `std::numeric_limits<double>::max()`. -/
  dblMax : Dbl
  /-- The comparison `rho <= min_rho` on doubles. -/
  le : Dbl → Dbl → Bool
  /-- `pow(2, bpk - kCost * 1.0L / nkeys * ends_.size()) * nkeys` converted to `uint64_t`,
  cdf_model.hpp:288-289; arguments `bpk nkeys S`. -/
  bitArrayRange : Dbl → Nat → Nat → Nat
  /-- `std::ceil(static_cast<double>(end - begin) / avg_range * bit_array_range)` converted
  to `uint64_t`, cdf_model.hpp:295-296; arguments `width avg_range bit_array_range`. -/
  alphaOf : Nat → Nat → Nat → Nat
  /-- `(end * 1.0L) * low_location - (begin * 1.0L) * high_location`, cdf_model.hpp:311;
  arguments `begin end low high`. -/
  intercept : Nat → Nat → Nat → Nat → LDbl
  /-- `static_cast<uint64_t>((static_cast<double>(alpha) * key + c) / width)`,
  cdf_model.hpp:317-319; arguments `key width alpha c`. -/
  location : Nat → Nat → Nat → LDbl → Nat
  /-- The retune test of the `Oasis` constructor, oasis.hpp:63-68: with
  `d = bit_per_key - size() * 8.0 / keys.size()`, `none` when `d < 0.2` and otherwise
  `bit_per_key + d`; arguments `bit_per_key size nkeys`. -/
  retune : Dbl → Nat → Nat → Option Dbl

/-- The `BitSet` class of the absent `bitset.hpp`, as used by `oasis.hpp`. -/
structure BitSetOps where
  /-- `BitSet::build(values, range)`: the encoded block. -/
  build : List Nat → Nat → List Nat
  /-- `BitSet::size()` of a block mounted with `(m, range)` on the given bytes. -/
  size : Nat → Nat → List Nat → Nat
  /-- `BitSet::query(uint32_t)` of a block mounted with `(m, range)` on the given bytes. -/
  query : Nat → Nat → List Nat → Nat → Bool
  /-- `BitSet::query(lo, hi)` of a block mounted with `(m, range)` on the given bytes. -/
  queryRange : Nat → Nat → List Nat → Nat → Nat → Bool

/-- A mounted block: the constructor arguments `BitSet(m, range, pos)`, the pointer being
the bytes of the payload from `pos` on. -/
structure BitSet where
  m : Nat
  range : Nat
  data : List Nat
deriving DecidableEq, Repr

/-! ## The CDF model -/

/-- The members of `CDFModel`. -/
structure CDFModel where
  begins_ : List Nat
  ends_ : List Nat
  accumulate_nkeys_ : List Nat
deriving DecidableEq, Repr

/-- The enumeration `CDFModel::QueryPosStatus`. -/
inductive QueryPosStatus where
  | OUT_OF_SCOPE
  | EXIST
  | NO_IDEA
deriving DecidableEq, Repr

/-- The algorithm `std::upper_bound` on a sorted vector: the index of the first element
greater than `key`, the length when there is none. -/
def upper_bound : List Nat → Nat → Nat
  | [], _ => 0
  | x :: xs, key => if key < x then 0 else upper_bound xs key + 1

/-- Insertion into the min-heap, kept as an ascending list: `top` is the head and `pop`
drops it. -/
def heapPush (x : Nat) : List Nat → List Nat
  | [] => [x]
  | y :: ys => if x ≤ y then x :: y :: ys else y :: heapPush x ys

/-- The adjacent differences `keys[i + 1] - keys[i]`, for `i` from `0` to `nkeys - 2`. -/
def gaps : List Nat → List Nat
  | a :: b :: rest => sub64 b a :: gaps (b :: rest)
  | _ => []

/-- One iteration of the bounded min-heap loop, cdf_model.hpp:82-91. -/
def heapStep (M : Nat) (heap : List Nat) (diff : Nat) : Option (List Nat) :=
  if heap.length ≥ M then
    match heap with
    | [] => none
    | top :: rest => if top > diff then some heap else some (heapPush diff rest)
  else some (heapPush diff heap)

/-- The bounded min-heap loop over all adjacent differences. -/
def heapLoop (M : Nat) : List Nat → List Nat → Option (List Nat)
  | heap, [] => some heap
  | heap, d :: ds =>
    match heapStep M heap d with
    | none => none
    | some h => heapLoop M h ds

/-- The loop of `CDFModel::get_threshold`, cdf_model.hpp:328-343; the fuel bounds the
number of iterations, each of which pops at least one entry. -/
def thresholdLoop (fo : FloatOps) (bpk : fo.Dbl) (nkeys : Nat) :
    Nat → List Nat → Nat → Nat → fo.Dbl → Nat → Nat
  | 0, _, _, _, _, best => best
  | _ + 1, [], _, _, _, best => best
  | fuel + 1, front :: q, m, delta_sum, min_rho, best =>
    let mp_sz := fo.mpSz bpk nkeys m
    let rho := fo.rho delta_sum mp_sz
    let upd := fo.le rho min_rho
    let cnt := (front :: q).length
    let q1 := q.dropWhile (fun x => x == front)
    let m1 := q1.length
    thresholdLoop fo bpk nkeys fuel q1 m1 (add64 delta_sum ((cnt - m1) * front))
      (if upd then rho else min_rho) (if upd then front else best)

/-- The function `CDFModel::get_threshold`, cdf_model.hpp:322-345. -/
def get_threshold (fo : FloatOps) (bpk : fo.Dbl) (delta_sum nkeys : Nat)
    (threshold_set : List Nat) : Option Nat :=
  match threshold_set with
  | [] => none
  | front :: _ =>
    some (thresholdLoop fo bpk nkeys threshold_set.length threshold_set threshold_set.length
      delta_sum fo.dblMax front)

/-- The state of the interval loop of `build_indices`. -/
structure IndexState where
  begins : List Nat
  ends : List Nat
  interval_sz : List Bool
  avg_range : Nat
  cnt : Nat
deriving DecidableEq, Repr

/-- The interval loop of `build_indices`, cdf_model.hpp:266-277. The list is
`keys[i], keys[i + 1], ...`; after a split the source advances `i` twice (once by
`keys[i++]`, once by the loop header), so the walk resumes two keys further. -/
def indexLoop (threshold : Nat) : List Nat → IndexState → IndexState
  | a :: b :: rest, st =>
    if sub64 b a ≥ threshold then
      indexLoop threshold rest
        { begins := st.begins ++ [b]
          ends := st.ends ++ [a]
          interval_sz := st.interval_sz ++ [decide (st.cnt = 0)]
          avg_range := add64 st.avg_range
            (if st.cnt = 0 then 0 else sub64 a (st.begins.getLastD 0))
          cnt := 0 }
    else indexLoop threshold (b :: rest) { st with cnt := (st.cnt + 1) % 2 ^ 32 }
  | _, st => st

/-- The alpha loop of `build_indices`, cdf_model.hpp:290-301, over the zipped
`begins_`, `ends_` and `interval_sz`; `acc` is `accumulate_nkeys_` so far, `last` its
`back()`. -/
def alphaLoop (fo : FloatOps) (avg_range bit_array_range : Nat) :
    List Nat → List Nat → List Bool → List Nat → Nat → List Nat
  | b :: bs, e :: es, s :: ss, acc, last =>
    if s then alphaLoop fo avg_range bit_array_range bs es ss (acc ++ [last]) last
    else
      let raw := fo.alphaOf (sub64 e b) avg_range bit_array_range % two64
      let alpha := if raw = 0 then 1 else raw
      alphaLoop fo avg_range bit_array_range bs es ss (acc ++ [add64 last alpha])
        (add64 last alpha)
  | _, _, _, acc, _ => acc

/-- The function `CDFModel::build_indices`, cdf_model.hpp:254-302. -/
def build_indices (fo : FloatOps) (threshold : Nat) (bpk : fo.Dbl) (keys : List Nat) :
    Option CDFModel :=
  match keys with
  | [] => none
  | k0 :: _ =>
    let st := indexLoop threshold keys
      { begins := [k0], ends := [], interval_sz := [], avg_range := 0, cnt := 0 }
    let back := keys.getLastD 0
    let ends := st.ends ++ [back]
    let interval_sz := st.interval_sz ++ [decide (st.cnt = 0)]
    let avg_range := add64 st.avg_range
      (if st.cnt = 0 then 0 else sub64 back (st.begins.getLastD 0))
    let bit_array_range := fo.bitArrayRange bpk keys.length ends.length % two64
    some
      { begins_ := st.begins
        ends_ := ends
        accumulate_nkeys_ :=
          alphaLoop fo avg_range bit_array_range st.begins ends interval_sz [0] 0 }

/-- The constructor `CDFModel::CDFModel(bpk, elem_per_block, keys)`, cdf_model.hpp:74-114. -/
def CDFModel.new (fo : FloatOps) (bpk : fo.Dbl) (elem_per_block : Nat) (keys : List Nat) :
    Option CDFModel :=
  match keys with
  | [] => none
  | k0 :: _ =>
    let M := fo.heapBound bpk keys.length
    match heapLoop M [] (gaps keys) with
    | none => none
    | some [] => none
    | some (threshold :: heap) =>
      let threshold_set := heap.dropWhile (fun x => x == threshold)
      let sum := threshold_set.foldl add64 0
      let delta_sum := sub64 (sub64 (keys.getLastD 0) k0) sum
      let remain_bpk := fo.remainBpk bpk elem_per_block
      match get_threshold fo remain_bpk delta_sum keys.length threshold_set with
      | none => none
      | some t => build_indices fo t remain_bpk keys

/-- The function `CDFModel::get_params`, cdf_model.hpp:304-312. -/
def CDFModel.get_params (fo : FloatOps) (c : CDFModel) (idx : Nat) :
    Option (Nat × Nat × fo.LDbl) :=
  match c.begins_[idx]?, c.ends_[idx]?, c.accumulate_nkeys_[idx]?,
      c.accumulate_nkeys_[idx + 1]? with
  | some b, some e, some low, some high =>
    some (sub64 e b, sub64 high low, fo.intercept b e low high)
  | _, _, _, _ => none

/-- The function `CDFModel::get_location`, cdf_model.hpp:314-320: the quotient by the
interval width is undefined for width zero. -/
def get_location (fo : FloatOps) (key : Nat) (params : Nat × Nat × fo.LDbl) : Option Nat :=
  if params.1 = 0 then none
  else some (fo.location key params.1 params.2.1 params.2.2 % two64)

/-- The loop of `CDFModel::get_locations`, cdf_model.hpp:124-130, over `keys[1..nkeys-2]`. -/
def locationsLoop (fo : FloatOps) (c : CDFModel) :
    List Nat → Nat → Nat × Nat × fo.LDbl → List Nat → Option (List Nat)
  | [], _, _, positions => some positions
  | k :: ks, idx_iter, params, positions =>
    match c.ends_[idx_iter]? with
    | none => none
    | some e =>
      if k ≥ e then
        match c.get_params fo (idx_iter + 1) with
        | none => none
        | some p => locationsLoop fo c ks (idx_iter + 1) p positions
      else
        match c.begins_[idx_iter]? with
        | none => none
        | some b =>
          if k > b then
            match get_location fo k params with
            | none => none
            | some l => locationsLoop fo c ks idx_iter params (positions ++ [l])
          else locationsLoop fo c ks idx_iter params positions

/-- The function `CDFModel::get_locations`, cdf_model.hpp:116-132. -/
def CDFModel.get_locations (fo : FloatOps) (c : CDFModel) (keys : List Nat) :
    Option (List Nat) :=
  match keys with
  | [] => none
  | _ :: rest =>
    match c.get_params fo 0 with
    | none => none
    | some p => locationsLoop fo c rest.dropLast 0 p []

/-- The point query `CDFModel::query(key, result)`, cdf_model.hpp:134-158; the second
component is `result`, written only with `NO_IDEA`. -/
def CDFModel.query (fo : FloatOps) (c : CDFModel) (key : Nat) :
    Option (QueryPosStatus × Nat) :=
  match c.begins_[0]? with
  | none => none
  | some b0 =>
    if key < b0 then some (QueryPosStatus.OUT_OF_SCOPE, 0)
    else
      match c.ends_.getLast? with
      | none => none
      | some eL =>
        if key > eL then some (QueryPosStatus.OUT_OF_SCOPE, 0)
        else
          let idx := sub64 (upper_bound c.begins_ key) 1
          match c.ends_[idx]? with
          | none => none
          | some e =>
            if e < key then some (QueryPosStatus.OUT_OF_SCOPE, 0)
            else
              match c.begins_[idx]? with
              | none => none
              | some b =>
                if b = key ∨ e = key then some (QueryPosStatus.EXIST, 0)
                else
                  match c.get_params fo idx with
                  | none => none
                  | some params =>
                    if params.2.1 = 0 then some (QueryPosStatus.OUT_OF_SCOPE, 0)
                    else
                      match get_location fo key params with
                      | none => none
                      | some r => some (QueryPosStatus.NO_IDEA, r)

/-- The `assert(l_key < r_key)` at the head of the CDF range query, cdf_model.hpp:163. -/
def CDFModel.rangeAssertion (l_key r_key : Nat) : Bool := decide (l_key < r_key)

/-- The last part of the CDF range query, cdf_model.hpp:182-189. -/
def CDFModel.queryRangeProject (fo : FloatOps) (c : CDFModel) (idx l_key r_key : Nat) :
    Option (QueryPosStatus × Nat × Nat) :=
  match c.get_params fo idx with
  | none => none
  | some params =>
    if params.2.1 = 0 then some (QueryPosStatus.OUT_OF_SCOPE, 0, 0)
    else
      match get_location fo l_key params, get_location fo r_key params with
      | some a, some b => some (QueryPosStatus.NO_IDEA, a, b)
      | _, _ => none

/-- The test `!(l_key > begins_[idx] && r_key < ends_[idx])` of the CDF range query and
what follows it, cdf_model.hpp:178-189. -/
def CDFModel.queryRangeInterior (fo : FloatOps) (c : CDFModel) (idx l_key r_key : Nat) :
    Option (QueryPosStatus × Nat × Nat) :=
  match c.begins_[idx]? with
  | none => none
  | some b =>
    if l_key > b then
      match c.ends_[idx]? with
      | none => none
      | some e =>
        if r_key < e then c.queryRangeProject fo idx l_key r_key
        else some (QueryPosStatus.EXIST, 0, 0)
    else some (QueryPosStatus.EXIST, 0, 0)

/-- The range query `CDFModel::query(l_key, r_key, result)`, cdf_model.hpp:160-190, without
its assertion; the pair is `result`, written only with `NO_IDEA`. -/
def CDFModel.queryRange (fo : FloatOps) (c : CDFModel) (l_key r_key : Nat) :
    Option (QueryPosStatus × Nat × Nat) :=
  match c.ends_.getLast? with
  | none => none
  | some eL =>
    if l_key > eL then some (QueryPosStatus.OUT_OF_SCOPE, 0, 0)
    else
      match c.begins_[0]? with
      | none => none
      | some b0 =>
        if r_key < b0 then some (QueryPosStatus.OUT_OF_SCOPE, 0, 0)
        else
          let idx := sub64 (upper_bound c.begins_ l_key) 1
          match c.begins_[add64 idx 1]? with
          | none => none
          | some bn =>
            if r_key < bn then
              match c.ends_[idx]? with
              | none => none
              | some e =>
                if l_key > e then some (QueryPosStatus.OUT_OF_SCOPE, 0, 0)
                else c.queryRangeInterior fo idx l_key r_key
            else c.queryRangeInterior fo idx l_key r_key

/-- The function `CDFModel::size`, cdf_model.hpp:192-198. -/
def CDFModel.size (c : CDFModel) : Nat := sizeAlign 8 + 3 * 8 * c.begins_.length

/-! ## The filter -/

/-- The members of `Oasis`; `bitmap_` is the buffer behind `bitmap_ptr_`. -/
structure Oasis where
  bitmap_sz_ : Nat
  block_sz_ : Nat
  last_block_sz_ : Nat
  cdf_model_ : CDFModel
  bitmap_ : List Nat
  block_bias_ : List Nat
  block_list_ : List BitSet
deriving DecidableEq, Repr

/-- The batch loop of `Oasis::build_block_list`, oasis.hpp:86-102. The list is
`keys_pos[idx], keys_pos[idx + 1], ...`, `back` is `keys_pos.back()`; the result is
`block_bias_` and the compressed bitmap. The fuel bounds the number of iterations, each of
which consumes at least one position. -/
def batchLoop (bs : BitSetOps) (block_sz back : Nat) :
    Nat → List Nat → Nat → List Nat → List Nat → List Nat × List Nat
  | 0, _, _, bias, bitmap => (bias, bitmap)
  | _ + 1, [], _, bias, bitmap => (bias, bitmap)
  | fuel + 1, p :: ps, low_bound, bias, bitmap =>
    let cur_batch := 0 :: ((p :: ps).take (block_sz - 1)).map (fun x => sub64 x low_bound)
    let next :=
      match (p :: ps).drop (block_sz - 1) with
      | [] => (back, [])
      | x :: r => (x, r)
    let batch_block := bs.build cur_batch (sub64 next.1 low_bound)
    batchLoop bs block_sz back fuel next.2 next.1 (bias ++ [next.1]) (bitmap ++ batch_block)

/-- The mounting loop shared by `build_block_list` (oasis.hpp:108-114) and `deserialize`
(oasis.hpp:246-251): `k` blocks remain, `i` is the loop index and `data` the payload from
`pos` on. -/
def mountLoop (bs : BitSetOps) (nbatches block_sz last_block_sz : Nat) (bias : List Nat) :
    Nat → Nat → List Nat → Option (List BitSet)
  | 0, _, _ => some []
  | k + 1, i, data =>
    match bias[i + 1]?, bias[i]? with
    | some hi, some lo =>
      let blk : BitSet :=
        { m := if i = nbatches - 1 then last_block_sz else block_sz
          range := sub64 hi lo
          data := data }
      match mountLoop bs nbatches block_sz last_block_sz bias k (i + 1)
          (data.drop (bs.size blk.m blk.range blk.data)) with
      | none => none
      | some rest => some (blk :: rest)
    | _, _ => none

/-- The function `Oasis::build_block_list`, oasis.hpp:78-115, on a filter whose
`block_sz_` and `cdf_model_` are set and whose vectors are empty. -/
def build_block_list (fo : FloatOps) (bs : BitSetOps) (block_sz : Nat) (cdf : CDFModel)
    (keys : List Nat) : Option Oasis :=
  match cdf.get_locations fo keys with
  | none => none
  | some keys_pos =>
    if block_sz = 0 then none
    else
      match keys_pos with
      | [] => none
      | p0 :: rest =>
        let out := batchLoop bs block_sz (keys_pos.getLastD 0) rest.length rest p0 [p0] []
        let last_block_sz := keys_pos.length % block_sz
        let nbatches := out.1.length - 1
        match mountLoop bs nbatches block_sz last_block_sz out.1 nbatches 0 out.2 with
        | none => none
        | some blocks =>
          some
            { bitmap_sz_ := out.2.length
              block_sz_ := block_sz
              last_block_sz_ := last_block_sz
              cdf_model_ := cdf
              bitmap_ := out.2
              block_bias_ := out.1
              block_list_ := blocks }

/-- The function `Oasis::size`, oasis.hpp:257-267. -/
def Oasis.size (f : Oasis) : Nat :=
  sizeAlign (8 + 8 + 2 * 2) + f.cdf_model_.size + f.block_bias_.length * 8 + f.bitmap_sz_

/-- The constructor `Oasis::Oasis(bit_per_key, elements_per_block, keys)`, oasis.hpp:55-76
(release build: the two assertions on `elements_per_block` are not evaluated). -/
def Oasis.new (fo : FloatOps) (bs : BitSetOps) (bit_per_key : fo.Dbl)
    (elements_per_block : Nat) (keys : List Nat) : Option Oasis :=
  let block_sz := elements_per_block % 2 ^ 16
  match CDFModel.new fo bit_per_key block_sz keys with
  | none => none
  | some cdf =>
    match build_block_list fo bs block_sz cdf keys with
    | none => none
    | some f =>
      match fo.retune bit_per_key f.size keys.length with
      | none => some f
      | some bpk2 =>
        match CDFModel.new fo bpk2 elements_per_block keys with
        | none => none
        | some cdf2 => build_block_list fo bs block_sz cdf2 keys

/-- The point query `Oasis::query(query_key)`, oasis.hpp:117-140. -/
def Oasis.query (fo : FloatOps) (bs : BitSetOps) (f : Oasis) (query_key : Nat) :
    Option Bool :=
  match f.cdf_model_.query fo query_key with
  | none => none
  | some (QueryPosStatus.EXIST, _) => some true
  | some (QueryPosStatus.OUT_OF_SCOPE, _) => some false
  | some (QueryPosStatus.NO_IDEA, pos) =>
    match f.block_bias_[0]? with
    | none => none
    | some b0 =>
      if pos < b0 then some false
      else
        match f.block_bias_.getLast? with
        | none => none
        | some bl =>
          if pos > bl then some false
          else
            let iter := sub64 (upper_bound f.block_bias_ pos) 1
            match f.block_bias_[iter]? with
            | none => none
            | some v =>
              if v = pos then some true
              else
                match f.block_list_[iter]? with
                | none => none
                | some blk =>
                  some (bs.query blk.m blk.range blk.data (sub64 pos v % 2 ^ 32))

/-- The range query `Oasis::query(left, right)`, oasis.hpp:142-167. -/
def Oasis.queryRange (fo : FloatOps) (bs : BitSetOps) (f : Oasis) (left right : Nat) :
    Option Bool :=
  match f.cdf_model_.queryRange fo left right with
  | none => none
  | some (QueryPosStatus.EXIST, _) => some true
  | some (QueryPosStatus.OUT_OF_SCOPE, _) => some false
  | some (QueryPosStatus.NO_IDEA, first, second) =>
    match f.block_bias_[0]? with
    | none => none
    | some b0 =>
      if second < b0 then some false
      else
        match f.block_bias_.getLast? with
        | none => none
        | some bl =>
          if first > bl then some false
          else
            let ub := upper_bound f.block_bias_ second
            if ub = f.block_bias_.length then some true
            else
              let iter := sub64 ub 1
              match f.block_bias_[iter]? with
              | none => none
              | some v =>
                if v = second ∨ first ≤ v then some true
                else
                  match f.block_list_[iter]? with
                  | none => none
                  | some blk =>
                    some (bs.queryRange blk.m blk.range blk.data (sub64 first v)
                      (sub64 second v))

/-- The host adapter `OasisFilterBitsReader::RangeQuery(left, right)`,
src/util/filter_oasis.cc:72-75: the pair it forwards to `Oasis::query(left, right)`. -/
def RangeQueryArgs (left right : Nat) : Nat × Nat := (left, sub64 right 1)

/-! ## Persistence -/

/-- The `k` little-endian bytes of a value, as `memcpy` writes them. -/
def leBytes : Nat → Nat → List Nat
  | 0, _ => []
  | k + 1, n => n % 256 :: leBytes k (n / 256)

/-- The value of a little-endian byte string, as `memcpy` reads it. -/
def leValue : List Nat → Nat
  | [] => 0
  | b :: bs => b % 256 + 256 * leValue bs

/-- The bytes of the first `n` elements of a `uint64_t` array, `memcpy(pos, v.data(), 8 * n)`;
the source array must hold that many. -/
def copyU64s (n : Nat) (v : List Nat) : Option (List Nat) :=
  if v.length < n then none else some ((v.take n).flatMap (leBytes 8))

/-- Reading `n` bytes at the head of a buffer. -/
def readBytes (n : Nat) (ser : List Nat) : Option (List Nat × List Nat) :=
  if ser.length < n then none else some (ser.take n, ser.drop n)

/-- Reading `n` values of type `uint64_t` at the head of a buffer. -/
def readU64s : Nat → List Nat → Option (List Nat × List Nat)
  | 0, ser => some ([], ser)
  | n + 1, ser =>
    match readBytes 8 ser with
    | none => none
    | some (b, rest) =>
      match readU64s n rest with
      | none => none
      | some (vs, rest2) => some (leValue b :: vs, rest2)

/-- The function `CDFModel::serialize`, cdf_model.hpp:200-227. The length prefix is already
8-byte aligned, so `align(pos)` adds nothing. -/
def CDFModel.serialize (c : CDFModel) : Option (List Nat) :=
  let idx_sz := c.begins_.length
  match copyU64s idx_sz c.begins_, copyU64s idx_sz c.ends_,
      copyU64s idx_sz c.accumulate_nkeys_.tail with
  | some b, some e, some a => some (leBytes 8 idx_sz ++ b ++ e ++ a)
  | _, _, _ => none

/-- The function `CDFModel::deserialize`, cdf_model.hpp:229-251; the second component is
the buffer after the model, `ser + model->size()` in `Oasis::deserialize`. -/
def CDFModel.deserialize (ser : List Nat) : Option (CDFModel × List Nat) :=
  match readBytes 8 ser with
  | none => none
  | some (len, r0) =>
    let idx_len := leValue len
    match readU64s idx_len r0 with
    | none => none
    | some (begins, r1) =>
      match readU64s idx_len r1 with
      | none => none
      | some (ends, r2) =>
        match readU64s idx_len r2 with
        | none => none
        | some (acc, r3) =>
          some ({ begins_ := begins, ends_ := ends, accumulate_nkeys_ := 0 :: acc }, r3)

/-- The function `Oasis::serialize`, oasis.hpp:169-211. The buffer comes from `new uint8_t[]`
and is not initialised: `fresh i` is what it holds at offset `i`, and the four bytes that
`align(pos)` skips after the two `uint16_t` fields keep that content. -/
def Oasis.serialize (fresh : Nat → Nat) (f : Oasis) : Option (List Nat) :=
  let nbatches := f.block_list_.length
  match copyU64s (nbatches + 1) f.block_bias_, f.cdf_model_.serialize,
      readBytes f.bitmap_sz_ f.bitmap_ with
  | some bias, some cdf_ser, some (payload, _) =>
    some (leBytes 8 nbatches ++ leBytes 8 f.bitmap_sz_ ++ leBytes 2 f.block_sz_
      ++ leBytes 2 f.last_block_sz_ ++ [fresh 20, fresh 21, fresh 22, fresh 23]
      ++ bias ++ cdf_ser ++ payload)
  | _, _, _ => none

/-- The function `Oasis::deserialize`, oasis.hpp:213-255, on a buffer that starts at an
8-byte boundary. -/
def Oasis.deserialize (bs : BitSetOps) (ser : List Nat) : Option Oasis :=
  match readBytes 8 ser with
  | none => none
  | some (nb, r0) =>
    match readBytes 8 r0 with
    | none => none
    | some (sz, r1) =>
      match readBytes 2 r1 with
      | none => none
      | some (bsz, r2) =>
        match readBytes 2 r2 with
        | none => none
        | some (lbsz, r3) =>
          let nbatches := leValue nb
          let bitmap_sz := leValue sz
          let block_sz := leValue bsz
          let last_block_sz := leValue lbsz
          match readU64s ((nbatches + 1) % two64) (r3.drop 4) with
          | none => none
          | some (block_bias, r4) =>
            match CDFModel.deserialize r4 with
            | none => none
            | some (model, r5) =>
              match readBytes bitmap_sz r5 with
              | none => none
              | some (bitmap, _) =>
                match mountLoop bs nbatches block_sz last_block_sz block_bias nbatches 0
                    bitmap with
                | none => none
                | some block_list =>
                  some
                    { bitmap_sz_ := bitmap_sz
                      block_sz_ := block_sz
                      last_block_sz_ := last_block_sz
                      cdf_model_ := model
                      bitmap_ := bitmap
                      block_bias_ := block_bias
                      block_list_ := block_list }

/-! ## Reference collaborators

Concrete instances of the two parameters, used to run the embedding on concrete inputs. -/

/-- The floor of `2 ^ e * n` for an integer exponent. -/
def floorScale (e : Int) (n : Nat) : Nat :=
  if 0 ≤ e then 2 ^ e.toNat * n else n / 2 ^ (-e).toNat

/-- The ceiling of `2 ^ e * n` for an integer exponent. -/
def ceilScale (e : Int) (n : Nat) : Nat :=
  if 0 ≤ e then 2 ^ e.toNat * n else (n + 2 ^ (-e).toNat - 1) / 2 ^ (-e).toNat

/-- The exponent `bpk - kCost / nkeys * s` for `bpk = b.1 / b.2`, rounded down. -/
def exponentOf (b : Int × Nat) (nkeys s : Nat) : Int :=
  (b.1 * nkeys - kCost * s * b.2) / (b.2 * nkeys)

/-- The floating-point expressions evaluated in exact arithmetic: a `double` is a fraction
`(numerator, denominator)`, the largest double is the fraction with denominator zero, and
the exponent of `std::pow` is rounded down to an integer. On an input where every
intermediate value is an integer or is far from one that the conversion truncates to, this
is what the machine computes. -/
def exactFloat : FloatOps where
  Dbl := Int × Nat
  LDbl := Int
  heapBound b nkeys := (b.1 * nkeys / (b.2 * kCost)).toNat
  remainBpk b elem := (b.1 * elem - 2 * b.2 * elem - 64 * b.2, b.2 * elem)
  mpSz b nkeys m := ceilScale (exponentOf b nkeys (m + 1)) nkeys
  rho delta_sum mp_sz := (delta_sum * delta_sum, mp_sz)
  dblMax := (1, 0)
  le x y := decide (x.1 * y.2 ≤ y.1 * x.2)
  bitArrayRange b nkeys s := floorScale (exponentOf b nkeys s) nkeys
  alphaOf width avg_range bit_array_range :=
    (width * bit_array_range + avg_range - 1) / avg_range
  intercept b e low high := (e : Int) * low - (b : Int) * high
  location key width alpha c := (((alpha : Int) * key + c) / width).toNat
  retune b size nkeys :=
    let d : Int := b.1 * nkeys - 8 * size * b.2
    if 5 * d < b.2 * nkeys then none else some (b.1 * nkeys + d, b.2 * nkeys)

/-- Modelled from the spec: the `BitSet` of the absent `bitset.hpp`, in the simplest
encoding that meets §4.1: the `m` values as 8 little-endian bytes each. Mounted with the
element count `m` it was built with, a point query is true exactly for the encoded values
and a range query exactly when an encoded value lies in the range; the block is
"length-self-describing given `m`". -/
def plainBitSet : BitSetOps where
  build values _ := values.flatMap (leBytes 8)
  size m _ _ := 8 * m
  query m _ data v :=
    match readU64s m data with
    | none => false
    | some (vs, _) => decide (v ∈ vs)
  queryRange m _ data lo hi :=
    match readU64s m data with
    | none => false
    | some (vs, _) => vs.any (fun x => decide (lo ≤ x ∧ x ≤ hi))

/-! ## Notions used to state the properties -/

/-- The first keys of a list of runs. -/
def heads (runs : List (List Nat)) : List Nat := runs.map (fun r => r.headD 0)

/-- The last keys of a list of runs. -/
def lasts (runs : List (List Nat)) : List Nat := runs.map (fun r => r.getLastD 0)

/-- The key array of the running example: a dense run of seven keys and one far key. -/
def exKeys : List Nat := [10, 11, 12, 13, 14, 15, 16, 110]

/-- The payload of the running example: the block `[0, 5, 11, 16]` in the plain encoding. -/
def exBitmap : List Nat :=
  [0, 0, 0, 0, 0, 0, 0, 0, 5, 0, 0, 0, 0, 0, 0, 0,
   11, 0, 0, 0, 0, 0, 0, 0, 16, 0, 0, 0, 0, 0, 0, 0]

/-- The filter that `Oasis::Oasis(68, 4, exKeys)` builds with the reference collaborators:
intervals `[10, 16]` and `[110, 110]`, interior positions `5, 10, 16, 21, 26`. -/
def exFilter : Oasis where
  bitmap_sz_ := 32
  block_sz_ := 4
  last_block_sz_ := 1
  cdf_model_ := { begins_ := [10, 110], ends_ := [16, 110], accumulate_nkeys_ := [0, 32, 32] }
  bitmap_ := exBitmap
  block_bias_ := [5, 26]
  block_list_ := [{ m := 1, range := 21, data := exBitmap }]

/-- The shape of the interval arrays of a model with respect to the key array: as many
ends as begins, at least one interval, every endpoint a key, `begin_i ≤ end_i < begin_{i+1}`,
the first begin the first key and the last end the last key. -/
structure Intervals (keys : List Nat) (c : CDFModel) : Prop where
  len : c.ends_.length = c.begins_.length
  acc_len : c.accumulate_nkeys_.length = c.begins_.length + 1
  first : c.begins_[0]? = keys[0]?
  last : c.ends_.getLast? = keys.getLast?
  nonempty : keys ≠ []
  mem_begin : ∀ b ∈ c.begins_, b ∈ keys
  mem_end : ∀ e ∈ c.ends_, e ∈ keys
  le : ∀ (i b e : Nat), c.begins_[i]? = some b → c.ends_[i]? = some e → b ≤ e
  gap : ∀ (i e b : Nat), c.ends_[i]? = some e → c.begins_[i + 1]? = some b → e < b
  sorted : c.begins_.Pairwise (· < ·)
  bound : c.begins_.length ≤ keys.length

/-- The shape of a built filter: the model has the interval shape, the bias array is
non-empty and one longer than the block list, the block list is the payload mounted with
the stored sizes, and every stored number fits its field. -/
structure Shape (bs : BitSetOps) (keys : List Nat) (f : Oasis) : Prop where
  intervals : Intervals keys f.cdf_model_
  acc_bound : ∀ x ∈ f.cdf_model_.accumulate_nkeys_, x < two64
  acc_head : f.cdf_model_.accumulate_nkeys_[0]? = some 0
  bias_nonempty : f.block_bias_ ≠ []
  bias_length : f.block_bias_.length ≤ keys.length
  bias_bound : ∀ x ∈ f.block_bias_, x < two64
  blocks : f.block_list_.length + 1 = f.block_bias_.length
  payload : f.bitmap_sz_ = f.bitmap_.length
  block_sz_bound : f.block_sz_ < 2 ^ 16
  last_bound : f.last_block_sz_ < 2 ^ 16
  mounted : mountLoop bs f.block_list_.length f.block_sz_ f.last_block_sz_ f.block_bias_
    f.block_list_.length 0 f.bitmap_ = some f.block_list_

/-- The first twenty bytes of a serialised filter: `nbatches`, `bitmap_sz_`, `block_sz_`
and `last_block_sz_`. -/
def headerBytes (f : Oasis) : List Nat :=
  leBytes 8 f.block_list_.length ++ (leBytes 8 f.bitmap_sz_ ++ (leBytes 2 f.block_sz_
    ++ leBytes 2 f.last_block_sz_))

/-- The bytes of a serialised filter after the alignment padding: the bias array, the
serialised CDF model and the payload. -/
def bodyBytes (f : Oasis) : List Nat :=
  f.block_bias_.flatMap (leBytes 8) ++ (leBytes 8 f.cdf_model_.begins_.length
    ++ (f.cdf_model_.begins_.flatMap (leBytes 8) ++ (f.cdf_model_.ends_.flatMap (leBytes 8)
    ++ (f.cdf_model_.accumulate_nkeys_.tail.flatMap (leBytes 8) ++ f.bitmap_))))

/-- The running example serialised into a fresh buffer that held ones. -/
def exBlob : List Nat := headerBytes exFilter ++ ([1, 1, 1, 1] ++ bodyBytes exFilter)

/-- The arguments `(cur_batch, block_bias_.back() - low_bound)` of the calls of
`BitSet::build` that the batch loop of `Oasis::build_block_list` makes (oasis.hpp:97-98),
in order; the recursion is that of `batchLoop`. -/
def batchTrace (block_sz back : Nat) : Nat → List Nat → Nat → List (List Nat × Nat)
  | 0, _, _ => []
  | _ + 1, [], _ => []
  | fuel + 1, p :: ps, low_bound =>
    let cur_batch := 0 :: ((p :: ps).take (block_sz - 1)).map (fun x => sub64 x low_bound)
    let next :=
      match (p :: ps).drop (block_sz - 1) with
      | [] => (back, [])
      | x :: r => (x, r)
    (cur_batch, sub64 next.1 low_bound) :: batchTrace block_sz back fuel next.2 next.1

/-- A key array with two adjacent large gaps: a dense run of six keys, then gaps of 94
and 95. -/
def skipKeys : List Nat := [10, 11, 12, 13, 14, 15, 109, 204]

/-- The model that `CDFModel(72, 2, skipKeys)` builds with the reference arithmetic. -/
def skipModel : CDFModel :=
  { begins_ := [10, 109], ends_ := [15, 204], accumulate_nkeys_ := [0, 1, 1] }

/-- A blob with the header of the running example except that its `payload_size` field is
`0`, followed by the same bias array, model and payload bytes. -/
def zeroPayloadBlob : List Nat :=
  leBytes 8 1 ++ (leBytes 8 0 ++ (leBytes 2 4 ++ leBytes 2 1))
    ++ ([0, 0, 0, 0] ++ bodyBytes exFilter)

/-- The entries that the batch loop of `Oasis::build_block_list` appends to `block_bias_`
(oasis.hpp:92-96), in order; the recursion is that of `batchLoop`. -/
def batchBias (block_sz back : Nat) : Nat → List Nat → List Nat
  | 0, _ => []
  | _ + 1, [] => []
  | fuel + 1, p :: ps =>
    let next :=
      match (p :: ps).drop (block_sz - 1) with
      | [] => (back, [])
      | x :: r => (x, r)
    next.1 :: batchBias block_sz back fuel next.2

/-- The calls `BitSet::build(values, range)` that `Oasis::build_block_list` makes on the
position list `P`, in order. -/
def buildCalls (block_sz : Nat) (P : List Nat) : List (List Nat × Nat) :=
  batchTrace block_sz (P.getLastD 0) (P.length - 1) P.tail (P.headD 0)

/-- The proxy `ρ(T)` of the threshold selection in the spec's words, for a candidate queue
`G` and the residual mass `Δ = delta`: `Δ_T = Δ + Σ_{d ∈ G, d < T} d` (kept in 64 bits as
the code keeps it), `m_T` the number of candidates `≥ T`, and
`ρ(T) = Δ_T² / ⌈2^(b' − C/n · (m_T + 1)) · n⌉` through the two floating-point expressions
`rho` and `mpSz`. -/
def rhoOf (fo : FloatOps) (bpk : fo.Dbl) (nkeys : Nat) (G : List Nat) (delta T : Nat) :
    fo.Dbl :=
  fo.rho ((delta + (G.filter (fun d => decide (d < T))).sum) % two64)
    (fo.mpSz bpk nkeys (G.filter (fun d => decide (T ≤ d))).length)

/-- A key array whose two candidate gaps `20475` and `30000` tie on the proxy `ρ` for
`Oasis(72, 64, ·)`. -/
def tieKeys : List Nat := [10, 11, 12, 13, 14, 15, 20490, 50490]

/-- The equal-spaced key array of the spec's first scenario. -/
def evenKeys : List Nat := [10, 11, 12, 13, 14]

/-- A key array made of two pairs: every key is the begin or the end of an interval. -/
def pairKeys : List Nat := [1, 2, 100, 101]

/-- The model that `CDFModel(96, 4, pairKeys)` builds with the reference arithmetic. -/
def pairModel : CDFModel :=
  { begins_ := [1, 100], ends_ := [2, 101], accumulate_nkeys_ := [0, 1, 1] }

/-! ## Basic facts on machine arithmetic and `upper_bound` -/

theorem sub64_of_le {a b : Nat} (hb : b ≤ a) (ha : a < two64) : sub64 a b = a - b := by
  unfold sub64 two64 at *
  have h1 : b % 2 ^ 64 = b := Nat.mod_eq_of_lt (by omega)
  rw [h1]
  omega

theorem sub64_one {a : Nat} (h1 : 1 ≤ a) (ha : a ≤ two64) : sub64 a 1 = a - 1 := by
  unfold sub64 two64 at *
  omega

theorem sub64_lt (a b : Nat) : sub64 a b < two64 := by
  unfold sub64
  exact Nat.mod_lt _ (by unfold two64; omega)

theorem add64_lt (a b : Nat) : add64 a b < two64 := by
  unfold add64
  exact Nat.mod_lt _ (by unfold two64; omega)

theorem upper_bound_le_length (l : List Nat) (key : Nat) : upper_bound l key ≤ l.length := by
  induction l with
  | nil => simp [upper_bound]
  | cons x xs ih =>
    simp only [upper_bound, List.length_cons]
    split <;> omega

theorem upper_bound_pos {l : List Nat} {key b0 : Nat} (h0 : l[0]? = some b0)
    (hk : ¬ key < b0) : 1 ≤ upper_bound l key := by
  cases l with
  | nil => simp at h0
  | cons x xs =>
    simp at h0
    subst h0
    simp [upper_bound, hk]

theorem upper_bound_pred_le {l : List Nat} {key v : Nat} (h1 : 1 ≤ upper_bound l key)
    (hv : l[upper_bound l key - 1]? = some v) : v ≤ key := by
  induction l with
  | nil => simp [upper_bound] at h1
  | cons x xs ih =>
    simp only [upper_bound] at h1 hv
    split at h1
    · omega
    · rename_i hx
      simp only [if_neg hx] at hv
      by_cases hz : upper_bound xs key = 0
      · simp [hz] at hv
        omega
      · have h2 : upper_bound xs key + 1 - 1 = (upper_bound xs key - 1) + 1 := by omega
        rw [h2, List.getElem?_cons_succ] at hv
        exact ih (by omega) hv

theorem upper_bound_lt {l : List Nat} {key v : Nat} (hv : l[upper_bound l key]? = some v) :
    key < v := by
  induction l with
  | nil => simp at hv
  | cons x xs ih =>
    simp only [upper_bound] at hv
    split at hv
    · simp at hv
      omega
    · rw [List.getElem?_cons_succ] at hv
      exact ih hv

theorem upper_bound_eq_length {l : List Nat} {key : Nat} (h : ∀ x ∈ l, x ≤ key) :
    upper_bound l key = l.length := by
  induction l with
  | nil => simp [upper_bound]
  | cons x xs ih =>
    have hx : ¬ key < x := by
      have := h x (by simp)
      omega
    simp only [upper_bound, if_neg hx, List.length_cons]
    rw [ih (fun y hy => h y (by simp [hy]))]

theorem upper_bound_eq_of_sorted {l : List Nat} (hs : l.Pairwise (· < ·)) {i key a : Nat}
    (hi : l[i]? = some a) (ha : a ≤ key) (hn : ∀ v, l[i + 1]? = some v → key < v) :
    upper_bound l key = i + 1 := by
  induction l generalizing i with
  | nil => simp at hi
  | cons x xs ih =>
    rw [List.pairwise_cons] at hs
    cases i with
    | zero =>
      simp at hi
      subst hi
      have hx : ¬ key < x := by omega
      simp only [upper_bound, if_neg hx]
      cases xs with
      | nil => simp [upper_bound]
      | cons y ys =>
        have := hn y (by simp)
        simp [upper_bound, this]
    | succ j =>
      rw [List.getElem?_cons_succ] at hi
      have hmem : a ∈ xs := List.getElem?_mem hi
      have hxa := hs.1 a hmem
      have hx : ¬ key < x := by omega
      simp only [upper_bound, if_neg hx]
      rw [ih hs.2 hi (fun v hv => hn v (by rw [List.getElem?_cons_succ]; exact hv))]

/-! ## The intervals of `build_indices` are consecutive runs of the key array -/

theorem getLastD_cons_of_ne_nil {l : List Nat} (h : l ≠ []) (a d : Nat) :
    (a :: l).getLastD d = l.getLastD d := by
  cases l with
  | nil => exact absurd rfl h
  | cons x xs => simp only [List.getLastD_cons]

theorem indexLoop_runs (T : Nat) (l : List Nat) (st : IndexState) (hl : l ≠ []) :
    ∃ runs : List (List Nat), runs ≠ [] ∧ (∀ r ∈ runs, r ≠ []) ∧ runs.flatten = l ∧
      (indexLoop T l st).begins = st.begins ++ heads runs.tail ∧
      (indexLoop T l st).ends ++ [l.getLastD 0] = st.ends ++ lasts runs := by
  induction l, st using indexLoop.induct T with
  | case1 a b rest st hsplit ih =>
    rw [indexLoop, if_pos hsplit]
    by_cases hr : rest = []
    · subst hr
      refine ⟨[[a], [b]], by simp, by simp, by simp, ?_, ?_⟩
      · simp [indexLoop, heads]
      · simp [indexLoop, lasts, List.getLastD_cons]
    · obtain ⟨runs, hne, hall, hflat, hb, he⟩ := ih hr
      cases runs with
      | nil => exact absurd rfl hne
      | cons r1 rs =>
        have hr1 : r1 ≠ [] := hall r1 (by simp)
        refine ⟨[a] :: (b :: r1) :: rs, by simp, ?_, ?_, ?_, ?_⟩
        · intro r hmem
          simp only [List.mem_cons] at hmem
          rcases hmem with h | h | h
          · simp [h]
          · simp [h]
          · exact hall r (by simp [h])
        · simp only [List.flatten_cons] at hflat ⊢
          simp [hflat]
        · rw [hb]
          simp [heads]
        · rw [getLastD_cons_of_ne_nil (by simp) a 0, getLastD_cons_of_ne_nil hr b 0, he]
          simp only [lasts, List.map_cons, getLastD_cons_of_ne_nil hr1 b 0]
          simp
  | case2 a b rest st hsplit ih =>
    rw [indexLoop, if_neg hsplit]
    obtain ⟨runs, hne, hall, hflat, hb, he⟩ := ih (by simp)
    cases runs with
    | nil => exact absurd rfl hne
    | cons r1 rs =>
      have hr1 : r1 ≠ [] := hall r1 (by simp)
      refine ⟨(a :: r1) :: rs, by simp, ?_, ?_, ?_, ?_⟩
      · intro r hmem
        simp only [List.mem_cons] at hmem
        rcases hmem with h | h
        · simp [h]
        · exact hall r (by simp [h])
      · simp only [List.flatten_cons] at hflat ⊢
        simp [hflat]
      · rw [hb]
        simp [heads]
      · rw [getLastD_cons_of_ne_nil (by simp) a 0, he]
        simp only [lasts, List.map_cons, getLastD_cons_of_ne_nil hr1 a 0]
  | case3 t st hnot =>
    cases t with
    | nil => exact absurd rfl hl
    | cons a t2 =>
      cases t2 with
      | cons b rest => exact absurd rfl (fun h => hnot a b rest h)
      | nil =>
        refine ⟨[[a]], by simp, by simp, by simp, ?_, ?_⟩
        · simp [indexLoop, heads]
        · simp [indexLoop, lasts]

theorem headD_mem {r : List Nat} (h : r ≠ []) : r.headD 0 ∈ r := by
  cases r with
  | nil => exact absurd rfl h
  | cons x xs => simp

theorem getLastD_mem {r : List Nat} (h : r ≠ []) : r.getLastD 0 ∈ r := by
  induction r with
  | nil => exact absurd rfl h
  | cons x xs ih =>
    by_cases hx : xs = []
    · subst hx
      simp
    · rw [getLastD_cons_of_ne_nil hx]
      exact List.mem_cons_of_mem _ (ih hx)

theorem headD_le_getLastD {r : List Nat} (h : r ≠ []) (hs : r.Pairwise (· < ·)) :
    r.headD 0 ≤ r.getLastD 0 := by
  cases r with
  | nil => exact absurd rfl h
  | cons x xs =>
    by_cases hx : xs = []
    · subst hx
      simp
    · rw [getLastD_cons_of_ne_nil hx]
      rw [List.pairwise_cons] at hs
      have := hs.1 _ (getLastD_mem hx)
      simp only [List.headD_cons]
      omega

theorem heads_subset {runs : List (List Nat)} (hall : ∀ r ∈ runs, r ≠ []) {x : Nat}
    (hx : x ∈ heads runs) : x ∈ runs.flatten := by
  simp only [heads, List.mem_map] at hx
  obtain ⟨r, hr, rfl⟩ := hx
  exact List.mem_flatten.mpr ⟨r, hr, headD_mem (hall r hr)⟩

theorem lasts_subset {runs : List (List Nat)} (hall : ∀ r ∈ runs, r ≠ []) {x : Nat}
    (hx : x ∈ lasts runs) : x ∈ runs.flatten := by
  simp only [lasts, List.mem_map] at hx
  obtain ⟨r, hr, rfl⟩ := hx
  exact List.mem_flatten.mpr ⟨r, hr, getLastD_mem (hall r hr)⟩

theorem runs_sorted {runs : List (List Nat)} (hall : ∀ r ∈ runs, r ≠ [])
    (hs : runs.flatten.Pairwise (· < ·)) :
    (∀ (i b e : Nat), (heads runs)[i]? = some b → (lasts runs)[i]? = some e → b ≤ e) ∧
    (∀ (i e b : Nat), (lasts runs)[i]? = some e → (heads runs)[i + 1]? = some b → e < b) ∧
    (heads runs).Pairwise (· < ·) := by
  induction runs with
  | nil => simp [heads, lasts]
  | cons r rs ih =>
    have hr : r ≠ [] := hall r (by simp)
    have hall2 : ∀ q ∈ rs, q ≠ [] := fun q hq => hall q (by simp [hq])
    rw [List.flatten_cons, List.pairwise_append] at hs
    obtain ⟨hs1, hs2, hcross⟩ := hs
    obtain ⟨ih1, ih2, ih3⟩ := ih hall2 hs2
    refine ⟨?_, ?_, ?_⟩
    · intro i b e hb he
      cases i with
      | zero =>
        simp [heads, lasts] at hb he
        subst hb he
        simpa using headD_le_getLastD hr hs1
      | succ j =>
        simp only [heads, lasts, List.map_cons, List.getElem?_cons_succ] at hb he
        exact ih1 j b e hb he
    · intro i e b he hb
      simp only [heads, List.map_cons, List.getElem?_cons_succ] at hb
      cases i with
      | zero =>
        simp only [lasts, List.map_cons, List.getElem?_cons_zero, Option.some.injEq] at he
        subst he
        exact hcross _ (getLastD_mem hr) _ (heads_subset hall2 (List.getElem?_mem hb))
      | succ j =>
        simp only [lasts, List.map_cons, List.getElem?_cons_succ] at he
        exact ih2 j e b he hb
    · simp only [heads, List.map_cons, List.pairwise_cons]
      refine ⟨?_, ih3⟩
      intro b hb
      exact hcross _ (headD_mem hr) _ (heads_subset hall2 hb)

theorem runs_length_le {runs : List (List Nat)} (hall : ∀ r ∈ runs, r ≠ []) :
    runs.length ≤ runs.flatten.length := by
  induction runs with
  | nil => simp
  | cons r rs ih =>
    have hr : r ≠ [] := hall r (by simp)
    have h1 : 1 ≤ r.length := by
      cases r with
      | nil => exact absurd rfl hr
      | cons x xs => simp
    have h2 := ih (fun q hq => hall q (by simp [hq]))
    simp only [List.length_cons, List.flatten_cons, List.length_append]
    omega

theorem build_indices_runs {fo : FloatOps} {T : Nat} {bpk : fo.Dbl} {keys : List Nat}
    {c : CDFModel} (h : build_indices fo T bpk keys = some c) :
    ∃ runs : List (List Nat), runs ≠ [] ∧ (∀ r ∈ runs, r ≠ []) ∧ runs.flatten = keys ∧
      c.begins_ = heads runs ∧ c.ends_ = lasts runs := by
  cases keys with
  | nil => simp [build_indices] at h
  | cons k0 rest =>
    simp only [build_indices, Option.some.injEq] at h
    obtain ⟨runs, hne, hall, hflat, hb, he⟩ := indexLoop_runs T (k0 :: rest)
      { begins := [k0], ends := [], interval_sz := [], avg_range := 0, cnt := 0 } (by simp)
    refine ⟨runs, hne, hall, hflat, ?_, ?_⟩
    · rw [← h]
      simp only
      rw [hb]
      cases runs with
      | nil => exact absurd rfl hne
      | cons r1 rs =>
        have hr1 : r1 ≠ [] := hall r1 (by simp)
        cases r1 with
        | nil => exact absurd rfl hr1
        | cons x xs =>
          simp only [List.flatten_cons, List.cons_append, List.cons.injEq] at hflat
          simp [heads, hflat.1]
    · rw [← h]
      simp only
      rw [he]
      simp

theorem indexLoop_lengths (T : Nat) (l : List Nat) (st : IndexState) :
    ∃ k, (indexLoop T l st).begins.length = st.begins.length + k ∧
      (indexLoop T l st).interval_sz.length = st.interval_sz.length + k := by
  induction l, st using indexLoop.induct T with
  | case1 a b rest st hsplit ih =>
    rw [indexLoop, if_pos hsplit]
    obtain ⟨k, h1, h2⟩ := ih
    refine ⟨k + 1, ?_, ?_⟩
    · rw [h1]
      simp
      omega
    · rw [h2]
      simp
      omega
  | case2 a b rest st hsplit ih =>
    rw [indexLoop, if_neg hsplit]
    exact ih
  | case3 t st hnot =>
    refine ⟨0, ?_, ?_⟩ <;>
    · unfold indexLoop
      split
      · rename_i a b rest
        exact absurd rfl (fun h => hnot a b rest h)
      · rfl

theorem alphaLoop_length (fo : FloatOps) (avg bar : Nat) (bs es : List Nat) (ss : List Bool)
    (acc : List Nat) (last : Nat) (h1 : es.length = bs.length) (h2 : ss.length = bs.length) :
    (alphaLoop fo avg bar bs es ss acc last).length = acc.length + bs.length := by
  induction bs generalizing es ss acc last with
  | nil => simp [alphaLoop]
  | cons b bs ih =>
    cases es with
    | nil => simp at h1
    | cons e es =>
      cases ss with
      | nil => simp at h2
      | cons s ss =>
        simp only [List.length_cons, Nat.add_right_cancel_iff] at h1 h2
        simp only [alphaLoop]
        split
        · rw [ih es ss _ _ h1 h2]
          simp
          omega
        · rw [ih es ss _ _ h1 h2]
          simp
          omega

theorem alphaLoop_bound (fo : FloatOps) (avg bar : Nat) (bs es : List Nat) (ss : List Bool)
    (acc : List Nat) (last : Nat) (hacc : ∀ x ∈ acc, x < two64) (hlast : last < two64) :
    ∀ x ∈ alphaLoop fo avg bar bs es ss acc last, x < two64 := by
  induction bs generalizing es ss acc last with
  | nil => simpa [alphaLoop] using hacc
  | cons b bs ih =>
    cases es with
    | nil => simpa [alphaLoop] using hacc
    | cons e es =>
      cases ss with
      | nil => simpa [alphaLoop] using hacc
      | cons s ss =>
        simp only [alphaLoop]
        split
        · apply ih
          · intro x hx
            simp only [List.mem_append, List.mem_singleton] at hx
            rcases hx with hx | hx
            · exact hacc x hx
            · rw [hx]
              exact hlast
          · exact hlast
        · apply ih
          · intro x hx
            simp only [List.mem_append, List.mem_singleton] at hx
            rcases hx with hx | hx
            · exact hacc x hx
            · rw [hx]
              exact add64_lt _ _
          · exact add64_lt _ _

theorem build_indices_intervals {fo : FloatOps} {T : Nat} {bpk : fo.Dbl} {keys : List Nat}
    {c : CDFModel} (h : build_indices fo T bpk keys = some c)
    (hs : keys.Pairwise (· < ·)) : Intervals keys c := by
  obtain ⟨runs, hne, hall, hflat, hb, he⟩ := build_indices_runs h
  have hs2 : runs.flatten.Pairwise (· < ·) := by rw [hflat]; exact hs
  obtain ⟨f1, f2, f3⟩ := runs_sorted hall hs2
  have hlen : c.ends_.length = c.begins_.length := by simp [hb, he, heads, lasts]
  cases keys with
  | nil => simp [build_indices] at h
  | cons k0 rest =>
    have hacc : c.accumulate_nkeys_.length = c.begins_.length + 1 := by
      have h0 := h
      simp only [build_indices, Option.some.injEq] at h0
      obtain ⟨k, hk1, hk2⟩ := indexLoop_lengths T (k0 :: rest)
        { begins := [k0], ends := [], interval_sz := [], avg_range := 0, cnt := 0 }
      have hb2 : c.begins_ = (indexLoop T (k0 :: rest)
        { begins := [k0], ends := [], interval_sz := [], avg_range := 0, cnt := 0 }).begins := by
        rw [← h0]
      have he2 : c.ends_ = (indexLoop T (k0 :: rest)
        { begins := [k0], ends := [], interval_sz := [], avg_range := 0, cnt := 0 }).ends
          ++ [(k0 :: rest).getLastD 0] := by
        rw [← h0]
      rw [← h0]
      simp only
      rw [alphaLoop_length]
      · simp
        omega
      · rw [← he2, ← hb2]
        exact hlen
      · simp only [List.length_append, List.length_singleton, hk1, hk2, List.length_cons,
          List.length_nil]
        omega
    have hbound : c.begins_.length ≤ (k0 :: rest).length := by
      rw [hb, ← hflat]
      simpa [heads] using runs_length_le hall
    refine ⟨hlen, hacc, ?_, ?_, by simp, ?_, ?_, ?_, ?_, ?_, hbound⟩
    · rw [hb]
      cases runs with
      | nil => exact absurd rfl hne
      | cons r1 rs =>
        have hr1 : r1 ≠ [] := hall r1 (by simp)
        cases r1 with
        | nil => exact absurd rfl hr1
        | cons x xs =>
          simp only [List.flatten_cons, List.cons_append, List.cons.injEq] at hflat
          simp [heads, hflat.1]
    · have h0 := h
      simp only [build_indices, Option.some.injEq] at h0
      rw [← h0]
      simp only [List.getLast?_concat]
      simp [List.getLast?_cons]
    · intro b hbm
      rw [hb] at hbm
      rw [← hflat]
      exact heads_subset hall hbm
    · intro e hem
      rw [he] at hem
      rw [← hflat]
      exact lasts_subset hall hem
    · intro i b e h1 h2
      rw [hb] at h1
      rw [he] at h2
      exact f1 i b e h1 h2
    · intro i e b h1 h2
      rw [he] at h1
      rw [hb] at h2
      exact f2 i e b h1 h2
    · rw [hb]
      exact f3

theorem CDFModel_new_build {fo : FloatOps} {bpk : fo.Dbl} {B : Nat} {keys : List Nat}
    {c : CDFModel} (h : CDFModel.new fo bpk B keys = some c) :
    ∃ (T : Nat) (r : fo.Dbl), build_indices fo T r keys = some c := by
  unfold CDFModel.new at h
  split at h
  · simp at h
  · simp only at h
    split at h
    · simp at h
    · simp at h
    · split at h
      · simp at h
      · exact ⟨_, _, h⟩

theorem Oasis_new_build {fo : FloatOps} {bs : BitSetOps} {bpk : fo.Dbl} {B : Nat}
    {keys : List Nat} {f : Oasis} (h : Oasis.new fo bs bpk B keys = some f) :
    ∃ (c : CDFModel) (T : Nat) (r : fo.Dbl), build_indices fo T r keys = some c ∧
      build_block_list fo bs (B % 2 ^ 16) c keys = some f := by
  unfold Oasis.new at h
  simp only at h
  split at h
  · simp at h
  · rename_i cdf hcdf
    split at h
    · simp at h
    · rename_i f1 hf1
      split at h
      · simp only [Option.some.injEq] at h
        subst h
        obtain ⟨T, r, hT⟩ := CDFModel_new_build hcdf
        exact ⟨cdf, T, r, hT, hf1⟩
      · split at h
        · simp at h
        · rename_i cdf2 hcdf2
          obtain ⟨T, r, hT⟩ := CDFModel_new_build hcdf2
          exact ⟨cdf2, T, r, hT, h⟩

/-! ## What `build_block_list` stores -/

theorem build_block_list_fields {fo : FloatOps} {bs : BitSetOps} {block_sz : Nat}
    {c : CDFModel} {keys : List Nat} {f : Oasis}
    (h : build_block_list fo bs block_sz c keys = some f) :
    ∃ (p0 : Nat) (rest : List Nat), c.get_locations fo keys = some (p0 :: rest) ∧
      block_sz ≠ 0 ∧ f.cdf_model_ = c ∧ f.block_sz_ = block_sz ∧
      f.last_block_sz_ = (p0 :: rest).length % block_sz ∧
      f.block_bias_ =
        (batchLoop bs block_sz ((p0 :: rest).getLastD 0) rest.length rest p0 [p0] []).1 ∧
      f.bitmap_ =
        (batchLoop bs block_sz ((p0 :: rest).getLastD 0) rest.length rest p0 [p0] []).2 ∧
      f.bitmap_sz_ = f.bitmap_.length ∧
      mountLoop bs (f.block_bias_.length - 1) block_sz f.last_block_sz_ f.block_bias_
        (f.block_bias_.length - 1) 0 f.bitmap_ = some f.block_list_ := by
  unfold build_block_list at h
  split at h
  · simp at h
  · rename_i keys_pos hpos
    split at h
    · simp at h
    · rename_i hbz
      split at h
      · simp at h
      · rename_i p0 rest
        simp only at h
        split at h
        · simp at h
        · rename_i blocks hblocks
          simp only [Option.some.injEq] at h
          subst h
          exact ⟨p0, rest, hpos, hbz, rfl, rfl, rfl, rfl, rfl, rfl, hblocks⟩

/-- **C3** (bounds). For a filter built from a strictly increasing key array `K`, the first
begin of the model is `K[0]`, its last end is `K[n-1]`, and for every `x` below `K[0]` or
above `K[n-1]` the CDF point query answers `OUT_OF_SCOPE` and the point query of the filter
answers `false`. -/
theorem point_query_false_outside_keys (fo : FloatOps) (bs : BitSetOps) (bpk : fo.Dbl)
    (B : Nat) (keys : List Nat) (f : Oasis) (x : Nat)
    (hs : keys.Pairwise (· < ·))
    (hbuilt : Oasis.new fo bs bpk B keys = some f)
    (hx : x < keys.headD 0 ∨ keys.getLastD 0 < x) :
    f.cdf_model_.begins_[0]? = some (keys.headD 0) ∧
    f.cdf_model_.ends_.getLast? = some (keys.getLastD 0) ∧
    f.cdf_model_.query fo x = some (QueryPosStatus.OUT_OF_SCOPE, 0) ∧
    f.query fo bs x = some false := by
  obtain ⟨c, T, r, hc, hf⟩ := Oasis_new_build hbuilt
  obtain ⟨_, _, _, _, hcdf, _⟩ := build_block_list_fields hf
  have hI := build_indices_intervals hc hs
  rw [hcdf]
  have hfirst : c.begins_[0]? = some (keys.headD 0) := by
    rw [hI.first]
    cases keys with
    | nil => exact absurd rfl hI.nonempty
    | cons k0 rest => simp
  have hlast : c.ends_.getLast? = some (keys.getLastD 0) := by
    rw [hI.last]
    cases hk : keys.getLast? with
    | none => exact absurd (List.getLast?_eq_none_iff.mp hk) hI.nonempty
    | some v => simp [hk]
  have hq : c.query fo x = some (QueryPosStatus.OUT_OF_SCOPE, 0) := by
    unfold CDFModel.query
    rw [hfirst]
    simp only
    by_cases h1 : x < keys.headD 0
    · rw [if_pos h1]
    · rw [if_neg h1, hlast]
      simp only
      have h2 : x > keys.getLastD 0 := by
        rcases hx with h | h
        · exact absurd h h1
        · exact h
      rw [if_pos h2]
  refine ⟨hfirst, hlast, hq, ?_⟩
  unfold Oasis.query
  rw [hcdf, hq]

/-- Witness of **C3** on the running example: key `9` lies below the smallest key. -/
theorem point_query_false_outside_keys_witness :
    Oasis.new exactFloat plainBitSet (68, 1) 4 exKeys = some exFilter ∧
      exFilter.query exactFloat plainBitSet 9 = some false :=
  ⟨by decide,
    (point_query_false_outside_keys exactFloat plainBitSet (68, 1) 4 exKeys exFilter 9
      (by decide) (by decide) (by decide)).2.2.2⟩

/-! ## The interval located by the binary search -/

theorem located_interval {keys : List Nat} {c : CDFModel} (hI : Intervals keys c)
    (hn : keys.length < two64) {x b0 : Nat} (h0 : c.begins_[0]? = some b0) (hx : ¬ x < b0) :
    sub64 (upper_bound c.begins_ x) 1 = upper_bound c.begins_ x - 1 ∧
    1 ≤ upper_bound c.begins_ x ∧
    add64 (sub64 (upper_bound c.begins_ x) 1) 1 = upper_bound c.begins_ x ∧
    ∃ b e, c.begins_[upper_bound c.begins_ x - 1]? = some b ∧
      c.ends_[upper_bound c.begins_ x - 1]? = some e ∧ b ≤ x ∧ b ≤ e := by
  have hpos := upper_bound_pos h0 hx
  have hle := upper_bound_le_length c.begins_ x
  have hb := hI.bound
  have hsub : sub64 (upper_bound c.begins_ x) 1 = upper_bound c.begins_ x - 1 :=
    sub64_one hpos (by omega)
  have hlt : upper_bound c.begins_ x - 1 < c.begins_.length := by omega
  have hlt2 : upper_bound c.begins_ x - 1 < c.ends_.length := by rw [hI.len]; exact hlt
  refine ⟨hsub, hpos, ?_, c.begins_[upper_bound c.begins_ x - 1], c.ends_[upper_bound c.begins_ x - 1],
    List.getElem?_eq_getElem hlt, List.getElem?_eq_getElem hlt2, ?_, ?_⟩
  · rw [hsub]
    unfold add64
    rw [Nat.mod_eq_of_lt (by omega)]
    omega
  · exact upper_bound_pred_le hpos (List.getElem?_eq_getElem hlt)
  · exact hI.le _ _ _ (List.getElem?_eq_getElem hlt) (List.getElem?_eq_getElem hlt2)

theorem queryRangeProject_not_exist {fo : FloatOps} {c : CDFModel} {idx l r : Nat}
    {p : Nat × Nat} (h : c.queryRangeProject fo idx l r = some (QueryPosStatus.EXIST, p)) :
    False := by
  unfold CDFModel.queryRangeProject at h
  split at h
  · simp at h
  · split at h
    · simp at h
    · split at h <;> simp at h

theorem queryRangeInterior_exist {fo : FloatOps} {c : CDFModel} {idx l r : Nat}
    {p : Nat × Nat} (h : c.queryRangeInterior fo idx l r = some (QueryPosStatus.EXIST, p)) :
    ∃ b, c.begins_[idx]? = some b ∧
      (l ≤ b ∨ ∃ e, c.ends_[idx]? = some e ∧ e ≤ r) := by
  unfold CDFModel.queryRangeInterior at h
  split at h
  · simp at h
  · rename_i b hb
    refine ⟨b, hb, ?_⟩
    split at h
    · split at h
      · simp at h
      · rename_i e he
        split at h
        · exact absurd h (fun h2 => queryRangeProject_not_exist h2)
        · right
          exact ⟨e, he, by omega⟩
    · left
      omega

theorem point_exist_is_endpoint {fo : FloatOps} {c : CDFModel} {x p : Nat}
    (h : c.query fo x = some (QueryPosStatus.EXIST, p)) :
    x ∈ c.begins_ ∨ x ∈ c.ends_ := by
  unfold CDFModel.query at h
  split at h
  · simp at h
  · split at h
    · simp at h
    · split at h
      · simp at h
      · split at h
        · simp at h
        · simp only at h
          split at h
          · simp at h
          · rename_i e he
            split at h
            · simp at h
            · split at h
              · simp at h
              · rename_i b hb
                split at h
                · rename_i hbe
                  rcases hbe with hbe | hbe
                  · left
                    rw [← hbe]
                    exact List.getElem?_mem hb
                  · right
                    rw [← hbe]
                    exact List.getElem?_mem he
                · split at h
                  · simp at h
                  · split at h
                    · simp at h
                    · split at h <;> simp at h

theorem range_exist_has_key {fo : FloatOps} {keys : List Nat} {c : CDFModel}
    (hI : Intervals keys c) (hn : keys.length < two64) {l r : Nat} {p : Nat × Nat}
    (hlr : l ≤ r) (h : c.queryRange fo l r = some (QueryPosStatus.EXIST, p)) :
    ∃ k ∈ keys, l ≤ k ∧ k ≤ r := by
  unfold CDFModel.queryRange at h
  split at h
  · simp at h
  · split at h
    · simp at h
    · split at h
      · simp at h
      · rename_i b0 hb0
        split at h
        · simp at h
        · rename_i hrb0
          have hxb0 : ¬ l < b0 ∨ l < b0 := by omega
          simp only at h
          rcases hxb0 with hge | hlt
          · obtain ⟨hsub, hpos, hadd, b, e, hb, he, hbl, hbe⟩ := located_interval hI hn hb0 hge
            rw [hadd, hsub] at h
            split at h
            · simp at h
            · rename_i bn hbn
              have hlbn : l < bn := upper_bound_lt hbn
              have hbnk : bn ∈ keys := hI.mem_begin _ (List.getElem?_mem hbn)
              have hbk : b ∈ keys := hI.mem_begin _ (List.getElem?_mem hb)
              have hek : e ∈ keys := hI.mem_end _ (List.getElem?_mem he)
              split at h
              · rw [he] at h
                simp only at h
                split at h
                · simp at h
                · obtain ⟨b2, hb2, hcase⟩ := queryRangeInterior_exist h
                  rw [hb] at hb2
                  simp only [Option.some.injEq] at hb2
                  subst hb2
                  rcases hcase with hc | ⟨e2, he2, her⟩
                  · exact ⟨b, hbk, by omega, by omega⟩
                  · rw [he] at he2
                    simp only [Option.some.injEq] at he2
                    subst he2
                    exact ⟨e, hek, by omega, her⟩
              · exact ⟨bn, hbnk, by omega, by omega⟩
          · have hub : upper_bound c.begins_ l = 0 := by
              cases hbg : c.begins_ with
              | nil => simp [hbg] at hb0
              | cons y ys =>
                rw [hbg] at hb0
                simp only [List.getElem?_cons_zero, Option.some.injEq] at hb0
                subst hb0
                simp [upper_bound, hlt]
            rw [hub] at h
            have hidx : sub64 0 1 = two64 - 1 := by
              unfold sub64 two64
              omega
            have hnone : c.begins_[sub64 0 1]? = none := by
              rw [hidx]
              apply List.getElem?_eq_none
              have := hI.bound
              omega
            split at h
            · simp at h
            · split at h
              · split at h
                · simp at h
                · split at h
                  · simp at h
                  · obtain ⟨b2, hb2, _⟩ := queryRangeInterior_exist h
                    rw [hnone] at hb2
                    simp at hb2
              · obtain ⟨b2, hb2, _⟩ := queryRangeInterior_exist h
                rw [hnone] at hb2
                simp at hb2

/-- **C8** (`EXIST` is never a false positive). For the model that `build_indices` makes
from a strictly increasing key array `K` (at whatever threshold the constructor selects):
when the CDF point query on `x` answers `EXIST`, `x` is a key of `K`; when the CDF range
query on `[l, r]`, `l ≤ r`, answers `EXIST`, some key of `K` lies in `[l, r]`. -/
theorem exist_is_exact (fo : FloatOps) (T : Nat) (bpk : fo.Dbl) (keys : List Nat)
    (c : CDFModel) (hs : keys.Pairwise (· < ·)) (hn : keys.length < two64)
    (hc : build_indices fo T bpk keys = some c) :
    (∀ x p, c.query fo x = some (QueryPosStatus.EXIST, p) → x ∈ keys) ∧
    (∀ l r p, l ≤ r → c.queryRange fo l r = some (QueryPosStatus.EXIST, p) →
      ∃ k ∈ keys, l ≤ k ∧ k ≤ r) := by
  have hI := build_indices_intervals hc hs
  refine ⟨?_, ?_⟩
  · intro x p h
    rcases point_exist_is_endpoint h with hb | he
    · exact hI.mem_begin x hb
    · exact hI.mem_end x he
  · intro l r p hlr h
    exact range_exist_has_key hI hn hlr h

/-- Witness of **C8** on the running example: the model of the constructor, the point
query on the boundary key `16` and the range query on `[14, 20]` answer `EXIST`. -/
theorem exist_is_exact_witness :
    CDFModel.new exactFloat (68, 1) 4 exKeys = some exFilter.cdf_model_ ∧
    exFilter.cdf_model_.query exactFloat 16 = some (QueryPosStatus.EXIST, 0) ∧
    exFilter.cdf_model_.queryRange exactFloat 14 20 = some (QueryPosStatus.EXIST, 0, 0) ∧
    16 ∈ exKeys ∧ ∃ k ∈ exKeys, 14 ≤ k ∧ k ≤ 20 :=
  have h := exist_is_exact exactFloat 94 (200, 4) exKeys exFilter.cdf_model_
    (by decide) (by decide) (by decide)
  ⟨by decide, by decide, by decide, h.1 16 0 (by decide), h.2 14 20 (0, 0) (by decide) (by decide)⟩

/-! ## Queries inside a gap -/

theorem le_getLast_of_sorted {keys : List Nat} (hs : keys.Pairwise (· < ·)) {k kn : Nat}
    (hk : k ∈ keys) (hl : keys.getLast? = some kn) : k ≤ kn := by
  induction keys with
  | nil => simp at hk
  | cons a rest ih =>
    rw [List.pairwise_cons] at hs
    by_cases hr : rest = []
    · subst hr
      simp at hk hl
      omega
    · have hl2 : rest.getLast? = some kn := by
        cases rest with
        | nil => exact absurd rfl hr
        | cons y ys => simpa using hl
      have hkn : kn ∈ rest := List.mem_of_getLast?_eq_some hl2
      rcases List.mem_cons.mp hk with h | h
      · have := hs.1 kn hkn
        omega
      · exact ih hs.2 h hl2

theorem gap_located {keys : List Nat} {c : CDFModel} (hI : Intervals keys c)
    (hs : keys.Pairwise (· < ·)) (hn : keys.length < two64) {i e b x : Nat}
    (he : c.ends_[i]? = some e) (hb : c.begins_[i + 1]? = some b) (h1 : e < x) (h2 : x < b) :
    upper_bound c.begins_ x = i + 1 ∧ sub64 (i + 1) 1 = i ∧ add64 i 1 = i + 1 ∧
    (∃ b0, c.begins_[0]? = some b0 ∧ ¬ x < b0) ∧
    (∃ eL, c.ends_.getLast? = some eL ∧ ¬ x > eL) := by
  have hi : i < c.ends_.length := (List.getElem?_eq_some.mp he).1
  have hi1 : i + 1 < c.begins_.length := (List.getElem?_eq_some.mp hb).1
  have hi2 : i < c.begins_.length := by omega
  have hbi : c.begins_[i]? = some c.begins_[i] := List.getElem?_eq_getElem hi2
  have hle := hI.le _ _ _ hbi he
  have hub : upper_bound c.begins_ x = i + 1 :=
    upper_bound_eq_of_sorted hI.sorted hbi (by omega) (fun v hv => by
      rw [hb] at hv
      simp only [Option.some.injEq] at hv
      omega)
  have hbound := hI.bound
  refine ⟨hub, ?_, ?_, ?_, ?_⟩
  · rw [sub64_one (by omega) (by omega)]
    omega
  · unfold add64
    exact Nat.mod_eq_of_lt (by omega)
  · have h0 : 0 < c.begins_.length := by omega
    refine ⟨c.begins_[0], List.getElem?_eq_getElem h0, ?_⟩
    intro hlt
    cases hbg : c.begins_ with
    | nil => simp [hbg] at h0
    | cons y ys =>
      have hy : c.begins_[0] = y := by simp [hbg]
      rw [hy] at hlt
      rw [hbg] at hub
      simp [upper_bound, hlt] at hub
  · have hi3 : i + 1 < c.ends_.length := by rw [hI.len]; exact hi1
    have he1 : c.ends_[i + 1]? = some c.ends_[i + 1] := List.getElem?_eq_getElem hi3
    have hle1 := hI.le _ _ _ hb he1
    cases hL : c.ends_.getLast? with
    | none =>
      rw [List.getLast?_eq_none_iff] at hL
      rw [hL] at hi
      simp at hi
    | some eL =>
      refine ⟨eL, rfl, ?_⟩
      have hmem : c.ends_[i + 1] ∈ keys := hI.mem_end _ (List.getElem?_mem he1)
      have hkl : keys.getLast? = some eL := by rw [← hI.last]; exact hL
      have := le_getLast_of_sorted hs hmem hkl
      omega

/-- **C9** (queries strictly inside a gap are rejected). For a filter built from a strictly
increasing key array, and two consecutive intervals `i` and `i + 1`: every `x` with
`end_i < x < begin_{i+1}` gets the point answer `false`, and every pair `l < r` with
`end_i < l` and `r < begin_{i+1}` gets the range answer `false`; in both cases the CDF model
answers `OUT_OF_SCOPE`, so the block list is not consulted. -/
theorem gap_queries_rejected (fo : FloatOps) (bs : BitSetOps) (bpk : fo.Dbl) (B : Nat)
    (keys : List Nat) (f : Oasis) (i e b : Nat)
    (hs : keys.Pairwise (· < ·)) (hn : keys.length < two64)
    (hbuilt : Oasis.new fo bs bpk B keys = some f)
    (he : f.cdf_model_.ends_[i]? = some e) (hb : f.cdf_model_.begins_[i + 1]? = some b) :
    (∀ x, e < x → x < b →
      f.cdf_model_.query fo x = some (QueryPosStatus.OUT_OF_SCOPE, 0) ∧
      f.query fo bs x = some false) ∧
    (∀ l r, l < r → e < l → r < b →
      f.cdf_model_.queryRange fo l r = some (QueryPosStatus.OUT_OF_SCOPE, 0, 0) ∧
      f.queryRange fo bs l r = some false) := by
  obtain ⟨c, T, rr, hc, hf⟩ := Oasis_new_build hbuilt
  obtain ⟨_, _, _, _, hcdf, _⟩ := build_block_list_fields hf
  have hI := build_indices_intervals hc hs
  rw [← hcdf] at hI
  refine ⟨?_, ?_⟩
  · intro x h1 h2
    obtain ⟨hub, hsub, _, ⟨b0, hb0, hx0⟩, ⟨eL, heL, hxL⟩⟩ := gap_located hI hs hn he hb h1 h2
    have hq : f.cdf_model_.query fo x = some (QueryPosStatus.OUT_OF_SCOPE, 0) := by
      unfold CDFModel.query
      rw [hb0]
      simp only
      rw [if_neg hx0, heL]
      simp only
      rw [if_neg hxL, hub, hsub, he]
      simp only
      rw [if_pos h1]
    refine ⟨hq, ?_⟩
    unfold Oasis.query
    rw [hq]
  · intro l r hlr h1 h2
    obtain ⟨hub, hsub, hadd, ⟨b0, hb0, hx0⟩, ⟨eL, heL, hxL⟩⟩ :=
      gap_located hI hs hn he hb h1 (by omega : l < b)
    have hr0 : ¬ r < b0 := by omega
    have hq : f.cdf_model_.queryRange fo l r = some (QueryPosStatus.OUT_OF_SCOPE, 0, 0) := by
      unfold CDFModel.queryRange
      rw [heL]
      simp only
      rw [if_neg hxL, hb0]
      simp only
      rw [if_neg hr0, hub, hsub, hadd, hb]
      simp only
      rw [if_pos h2, he]
      simp only
      rw [if_pos h1]
    refine ⟨hq, ?_⟩
    unfold Oasis.queryRange
    rw [hq]

/-- Witness of **C9** on the running example: the gap between `[10, 16]` and `[110, 110]`,
the point `50` and the range `[20, 30]`. -/
theorem gap_queries_rejected_witness :
    Oasis.new exactFloat plainBitSet (68, 1) 4 exKeys = some exFilter ∧
    exFilter.query exactFloat plainBitSet 50 = some false ∧
    exFilter.queryRange exactFloat plainBitSet 20 30 = some false :=
  have h := gap_queries_rejected exactFloat plainBitSet (68, 1) 4 exKeys exFilter 0 16 110
    (by decide) (by decide) (by decide) (by decide) (by decide)
  ⟨by decide, (h.1 50 (by decide) (by decide)).2,
    (h.2 20 30 (by decide) (by decide) (by decide)).2⟩

/-! ## Point queries read inside the arrays -/

theorem get_params_some {fo : FloatOps} {keys : List Nat} {c : CDFModel}
    (hI : Intervals keys c) {idx b e : Nat} (hb : c.begins_[idx]? = some b)
    (he : c.ends_[idx]? = some e) :
    ∃ low high, c.get_params fo idx = some (sub64 e b, sub64 high low,
      fo.intercept b e low high) := by
  have hi : idx < c.begins_.length := (List.getElem?_eq_some.mp hb).1
  have h1 : idx < c.accumulate_nkeys_.length := by rw [hI.acc_len]; omega
  have h2 : idx + 1 < c.accumulate_nkeys_.length := by rw [hI.acc_len]; omega
  refine ⟨c.accumulate_nkeys_[idx], c.accumulate_nkeys_[idx + 1], ?_⟩
  unfold CDFModel.get_params
  rw [hb, he, List.getElem?_eq_getElem h1, List.getElem?_eq_getElem h2]

theorem point_cdf_total {fo : FloatOps} {keys : List Nat} {c : CDFModel}
    (hI : Intervals keys c) (hk : ∀ k ∈ keys, k < two64) (hn : keys.length < two64)
    (x : Nat) : ∃ st pos, c.query fo x = some (st, pos) := by
  have hne : c.begins_ ≠ [] := by
    intro h
    have := hI.first
    rw [h] at this
    cases hkeys : keys with
    | nil => exact hI.nonempty hkeys
    | cons a as => simp [hkeys] at this
  have h0 : 0 < c.begins_.length := List.length_pos.mpr hne
  have hb0 : c.begins_[0]? = some c.begins_[0] := List.getElem?_eq_getElem h0
  unfold CDFModel.query
  rw [hb0]
  simp only
  by_cases hx0 : x < c.begins_[0]
  · rw [if_pos hx0]
    exact ⟨_, _, rfl⟩
  · rw [if_neg hx0]
    cases hL : c.ends_.getLast? with
    | none =>
      rw [List.getLast?_eq_none_iff] at hL
      have := hI.len
      rw [hL] at this
      simp at this
      omega
    | some eL =>
      simp only
      by_cases hxL : x > eL
      · rw [if_pos hxL]
        exact ⟨_, _, rfl⟩
      · rw [if_neg hxL]
        obtain ⟨hsub, _, _, b, e, hb, he, hbx, hbe⟩ := located_interval hI hn hb0 hx0
        rw [hsub, he]
        simp only
        by_cases hex : e < x
        · rw [if_pos hex]
          exact ⟨_, _, rfl⟩
        · rw [if_neg hex, hb]
          simp only
          by_cases hbe2 : b = x ∨ e = x
          · rw [if_pos hbe2]
            exact ⟨_, _, rfl⟩
          · rw [if_neg hbe2]
            obtain ⟨low, high, hp⟩ := @get_params_some fo _ _ hI _ _ _ hb he
            rw [hp]
            simp only
            split
            · exact ⟨_, _, rfl⟩
            · have helt : e < two64 := hk e (hI.mem_end e (List.getElem?_mem he))
              have hw : sub64 e b ≠ 0 := by
                rw [sub64_of_le hbe helt]
                omega
              simp only [get_location, if_neg hw]
              exact ⟨_, _, rfl⟩

theorem mountLoop_length {bs : BitSetOps} {nb bsz lsz : Nat} {bias : List Nat} {k i : Nat}
    {data : List Nat} {bl : List BitSet}
    (h : mountLoop bs nb bsz lsz bias k i data = some bl) : bl.length = k := by
  induction k generalizing i data bl with
  | zero =>
    simp only [mountLoop, Option.some.injEq] at h
    rw [← h]
    rfl
  | succ k ih =>
    unfold mountLoop at h
    split at h
    · simp only at h
      split at h
      · simp at h
      · rename_i rest hrest
        simp only [Option.some.injEq] at h
        rw [← h, List.length_cons, ih hrest]
    · simp at h

theorem batchLoop_bias (bs : BitSetOps) (block_sz back : Nat) (fuel : Nat) (l : List Nat)
    (low : Nat) (bias bitmap : List Nat) :
    ∃ ext, (batchLoop bs block_sz back fuel l low bias bitmap).1 = bias ++ ext ∧
      ext.length ≤ fuel ∧ ∀ x ∈ ext, x = back ∨ x ∈ l := by
  induction fuel generalizing l low bias bitmap with
  | zero => exact ⟨[], by simp [batchLoop], by simp, by simp⟩
  | succ n ih =>
    cases l with
    | nil => exact ⟨[], by simp [batchLoop], by simp, by simp⟩
    | cons p ps =>
      simp only [batchLoop]
      cases hd : (p :: ps).drop (block_sz - 1) with
      | nil =>
        simp only
        obtain ⟨ext, h1, h2, h3⟩ := ih [] back (bias ++ [back])
          (bitmap ++ bs.build
            (0 :: ((p :: ps).take (block_sz - 1)).map (fun x => sub64 x low))
            (sub64 back low))
        refine ⟨back :: ext, ?_, ?_, ?_⟩
        · rw [h1]
          simp
        · simp only [List.length_cons]
          omega
        · intro x hx
          rcases List.mem_cons.mp hx with h | h
          · left
            exact h
          · rcases h3 x h with h4 | h4
            · left
              exact h4
            · simp at h4
      | cons y r =>
        simp only
        obtain ⟨ext, h1, h2, h3⟩ := ih r y (bias ++ [y])
          (bitmap ++ bs.build
            (0 :: ((p :: ps).take (block_sz - 1)).map (fun x => sub64 x low))
            (sub64 y low))
        have hsub : ∀ z ∈ y :: r, z ∈ p :: ps := by
          intro z hz
          rw [← hd] at hz
          exact List.mem_of_mem_drop hz
        refine ⟨y :: ext, ?_, ?_, ?_⟩
        · rw [h1]
          simp
        · simp only [List.length_cons]
          omega
        · intro x hx
          rcases List.mem_cons.mp hx with h | h
          · right
            rw [h]
            exact hsub y (by simp)
          · rcases h3 x h with h4 | h4
            · left
              exact h4
            · right
              exact hsub x (List.mem_cons_of_mem _ h4)

theorem get_location_lt {fo : FloatOps} {k : Nat} {params : Nat × Nat × fo.LDbl} {l : Nat}
    (h : get_location fo k params = some l) : l < two64 := by
  unfold get_location at h
  split at h
  · simp at h
  · simp only [Option.some.injEq] at h
    rw [← h]
    exact Nat.mod_lt _ (by unfold two64; omega)

theorem locationsLoop_props (fo : FloatOps) (c : CDFModel) (ks : List Nat) (idx : Nat)
    (params : Nat × Nat × fo.LDbl) (positions out : List Nat)
    (h : locationsLoop fo c ks idx params positions = some out)
    (hp : ∀ x ∈ positions, x < two64) :
    out.length ≤ positions.length + ks.length ∧ ∀ x ∈ out, x < two64 := by
  induction ks generalizing idx params positions with
  | nil =>
    simp only [locationsLoop, Option.some.injEq] at h
    subst h
    exact ⟨by simp, hp⟩
  | cons k ks ih =>
    unfold locationsLoop at h
    split at h
    · simp at h
    · split at h
      · split at h
        · simp at h
        · obtain ⟨h1, h2⟩ := ih _ _ _ h hp
          exact ⟨by simp only [List.length_cons]; omega, h2⟩
      · split at h
        · simp at h
        · split at h
          · split at h
            · simp at h
            · rename_i l hl
              have hp2 : ∀ x ∈ positions ++ [l], x < two64 := by
                intro x hx
                simp only [List.mem_append, List.mem_singleton] at hx
                rcases hx with hx | hx
                · exact hp x hx
                · rw [hx]
                  exact get_location_lt hl
              obtain ⟨h1, h2⟩ := ih _ _ _ h hp2
              refine ⟨?_, h2⟩
              simp only [List.length_append, List.length_cons, List.length_nil] at h1 ⊢
              omega
          · obtain ⟨h1, h2⟩ := ih _ _ _ h hp
            exact ⟨by simp only [List.length_cons]; omega, h2⟩

theorem get_locations_props {fo : FloatOps} {c : CDFModel} {keys out : List Nat}
    (h : c.get_locations fo keys = some out) :
    out.length + 1 ≤ keys.length ∧ ∀ x ∈ out, x < two64 := by
  unfold CDFModel.get_locations at h
  split at h
  · simp at h
  · rename_i k0 rest
    split at h
    · simp at h
    · obtain ⟨h1, h2⟩ := locationsLoop_props fo c _ _ _ _ _ h (by simp)
      refine ⟨?_, h2⟩
      simp only [List.length_nil, List.length_dropLast, List.length_cons] at h1 ⊢
      omega

theorem build_indices_acc {fo : FloatOps} {T : Nat} {bpk : fo.Dbl} {keys : List Nat}
    {c : CDFModel} (h : build_indices fo T bpk keys = some c) :
    ∀ x ∈ c.accumulate_nkeys_, x < two64 := by
  cases keys with
  | nil => simp [build_indices] at h
  | cons k0 rest =>
    simp only [build_indices, Option.some.injEq] at h
    rw [← h]
    simp only
    apply alphaLoop_bound
    · intro x hx
      simp only [List.mem_singleton] at hx
      rw [hx]
      unfold two64
      omega
    · unfold two64
      omega

theorem alphaLoop_head (fo : FloatOps) (avg bar : Nat) (bs es : List Nat) (ss : List Bool)
    (acc : List Nat) (last a : Nat) (h : acc[0]? = some a) :
    (alphaLoop fo avg bar bs es ss acc last)[0]? = some a := by
  have happ : ∀ y : Nat, (acc ++ [y])[0]? = some a := by
    intro y
    cases acc with
    | nil => simp at h
    | cons z zs => simpa using h
  induction bs generalizing es ss acc last with
  | nil => simpa [alphaLoop] using h
  | cons b bs ih =>
    cases es with
    | nil => simpa [alphaLoop] using h
    | cons e es =>
      cases ss with
      | nil => simpa [alphaLoop] using h
      | cons s ss =>
        simp only [alphaLoop]
        split
        · exact ih es ss _ _ (happ _) (fun y => by
            cases acc with
            | nil => simp at h
            | cons z zs => simpa using h)
        · exact ih es ss _ _ (happ _) (fun y => by
            cases acc with
            | nil => simp at h
            | cons z zs => simpa using h)

theorem build_indices_acc_head {fo : FloatOps} {T : Nat} {bpk : fo.Dbl} {keys : List Nat}
    {c : CDFModel} (h : build_indices fo T bpk keys = some c) :
    c.accumulate_nkeys_[0]? = some 0 := by
  cases keys with
  | nil => simp [build_indices] at h
  | cons k0 rest =>
    simp only [build_indices, Option.some.injEq] at h
    rw [← h]
    simp only
    exact alphaLoop_head _ _ _ _ _ _ _ _ _ (by simp)

theorem built_shape {fo : FloatOps} {bs : BitSetOps} {bpk : fo.Dbl} {B : Nat}
    {keys : List Nat} {f : Oasis} (hs : keys.Pairwise (· < ·))
    (hbuilt : Oasis.new fo bs bpk B keys = some f) : Shape bs keys f := by
  obtain ⟨c, T, r, hc, hf⟩ := Oasis_new_build hbuilt
  obtain ⟨p0, rest, hpos, hbz, hcdf, hbsz, hlast, hbias, hbitmap, hsz, hmount⟩ :=
    build_block_list_fields hf
  obtain ⟨hplen, hpbound⟩ := get_locations_props hpos
  obtain ⟨ext, hext, hextlen, hextmem⟩ := batchLoop_bias bs (B % 2 ^ 16)
    ((p0 :: rest).getLastD 0) rest.length rest p0 [p0] []
  have hbias2 : f.block_bias_ = [p0] ++ ext := by rw [hbias, hext]
  have hlen : f.block_list_.length = f.block_bias_.length - 1 := mountLoop_length hmount
  have hblt : B % 2 ^ 16 < 2 ^ 16 := Nat.mod_lt _ (by omega)
  have hne : f.block_bias_ ≠ [] := by rw [hbias2]; simp
  have hpos1 : 1 ≤ f.block_bias_.length := by rw [hbias2]; simp
  refine
    { intervals := by rw [hcdf]; exact build_indices_intervals hc hs
      acc_bound := by rw [hcdf]; exact build_indices_acc hc
      acc_head := by rw [hcdf]; exact build_indices_acc_head hc
      bias_nonempty := hne
      bias_length := ?_
      bias_bound := ?_
      blocks := by omega
      payload := hsz
      block_sz_bound := by rw [hbsz]; exact hblt
      last_bound := ?_
      mounted := ?_ }
  · rw [hbias2]
    simp only [List.length_append, List.length_cons, List.length_nil] at hplen ⊢
    omega
  · intro x hx
    rw [hbias2] at hx
    simp only [List.singleton_append, List.mem_cons] at hx
    rcases hx with hx | hx
    · rw [hx]
      exact hpbound p0 (by simp)
    · rcases hextmem x hx with h | h
      · rw [h]
        exact hpbound _ (getLastD_mem (by simp))
      · exact hpbound x (List.mem_cons_of_mem _ h)
  · rw [hlast]
    have : (p0 :: rest).length % (B % 2 ^ 16) < B % 2 ^ 16 :=
      Nat.mod_lt _ (Nat.pos_of_ne_zero hbz)
    omega
  · rw [hlen, hbsz]
    exact hmount

/-- **C7** (point queries never fail). For a filter built from a strictly increasing array
of 64-bit keys whose bias array is non-decreasing (the precondition of `std::upper_bound`),
the point query returns a Boolean for every `x`. In the embedding an index outside
`begins_`, `ends_`, `accumulate_nkeys_`, `block_bias_` or `block_list_`, and a call of
`get_location` with interval width zero, make the query return `none`; so no such read and
no such call occurs. -/
theorem point_query_total (fo : FloatOps) (bs : BitSetOps) (bpk : fo.Dbl) (B : Nat)
    (keys : List Nat) (f : Oasis) (x : Nat)
    (hs : keys.Pairwise (· < ·)) (hk : ∀ k ∈ keys, k < two64) (hn : keys.length < two64)
    (hbuilt : Oasis.new fo bs bpk B keys = some f)
    (_hbias : f.block_bias_.Pairwise (· ≤ ·)) :
    ∃ b, f.query fo bs x = some b := by
  have hS := built_shape hs hbuilt
  obtain ⟨st, pos, hq⟩ := @point_cdf_total fo _ _ hS.intervals hk hn x
  unfold Oasis.query
  rw [hq]
  cases st with
  | OUT_OF_SCOPE => exact ⟨_, rfl⟩
  | EXIST => exact ⟨_, rfl⟩
  | NO_IDEA =>
    simp only
    have h0 : 0 < f.block_bias_.length := List.length_pos.mpr hS.bias_nonempty
    have hb0 : f.block_bias_[0]? = some f.block_bias_[0] := List.getElem?_eq_getElem h0
    rw [hb0]
    simp only
    by_cases hp0 : pos < f.block_bias_[0]
    · rw [if_pos hp0]
      exact ⟨_, rfl⟩
    · rw [if_neg hp0]
      have hlastidx : f.block_bias_.length - 1 < f.block_bias_.length := by omega
      have hL : f.block_bias_.getLast? = some f.block_bias_[f.block_bias_.length - 1] := by
        rw [List.getLast?_eq_getElem?]
        exact List.getElem?_eq_getElem hlastidx
      rw [hL]
      simp only
      by_cases hpl : pos > f.block_bias_[f.block_bias_.length - 1]
      · rw [if_pos hpl]
        exact ⟨_, rfl⟩
      · rw [if_neg hpl]
        have hub1 := upper_bound_pos hb0 hp0
        have hub2 := upper_bound_le_length f.block_bias_ pos
        have hblen := hS.bias_length
        rw [sub64_one hub1 (by omega)]
        have hidx : upper_bound f.block_bias_ pos - 1 < f.block_bias_.length := by omega
        have hv := List.getElem?_eq_getElem hidx
        rw [hv]
        simp only
        by_cases hvp : f.block_bias_[upper_bound f.block_bias_ pos - 1] = pos
        · rw [if_pos hvp]
          exact ⟨_, rfl⟩
        · rw [if_neg hvp]
          have hvle := upper_bound_pred_le hub1 hv
          have hlt : upper_bound f.block_bias_ pos - 1 < f.block_list_.length := by
            by_contra hcon
            have hblocks := hS.blocks
            have heq : upper_bound f.block_bias_ pos - 1 = f.block_bias_.length - 1 := by
              omega
            have hsame : f.block_bias_[upper_bound f.block_bias_ pos - 1]
                = f.block_bias_[f.block_bias_.length - 1] := by
              congr 1
            omega
          rw [List.getElem?_eq_getElem hlt]
          exact ⟨_, rfl⟩

/-- Witness of **C7** on the running example, at the interior key `13`. -/
theorem point_query_total_witness :
    Oasis.new exactFloat plainBitSet (68, 1) 4 exKeys = some exFilter ∧
    ∃ b, exFilter.query exactFloat plainBitSet 13 = some b :=
  ⟨by decide, point_query_total exactFloat plainBitSet (68, 1) 4 exKeys exFilter 13
    (by decide) (by decide) (by decide) (by decide) (by decide)⟩

/-! ## Byte-level round trips -/

theorem leBytes_length (k n : Nat) : (leBytes k n).length = k := by
  induction k generalizing n with
  | zero => rfl
  | succ k ih => simp [leBytes, ih]

theorem leValue_leBytes (k n : Nat) : leValue (leBytes k n) = n % 256 ^ k := by
  induction k generalizing n with
  | zero => simp [leBytes, leValue, Nat.mod_one]
  | succ k ih =>
    simp only [leBytes, leValue, ih, Nat.mod_mod]
    rw [Nat.pow_succ', Nat.mod_mul]

theorem leValue_leBytes_of_lt {k n : Nat} (h : n < 256 ^ k) : leValue (leBytes k n) = n := by
  rw [leValue_leBytes, Nat.mod_eq_of_lt h]

theorem readBytes_append {n : Nat} {a : List Nat} (rest : List Nat) (h : a.length = n) :
    readBytes n (a ++ rest) = some (a, rest) := by
  unfold readBytes
  have h1 : ¬ (a ++ rest).length < n := by
    simp only [List.length_append]
    omega
  rw [if_neg h1, List.take_left' h, List.drop_left' h]

theorem readU64s_flatMap (xs rest : List Nat) (h : ∀ x ∈ xs, x < two64) :
    readU64s xs.length (xs.flatMap (leBytes 8) ++ rest) = some (xs, rest) := by
  induction xs with
  | nil => simp [readU64s]
  | cons x xs ih =>
    have hx : x < 256 ^ 8 := by
      have := h x (by simp)
      unfold two64 at this
      omega
    simp only [List.flatMap_cons, List.length_cons, readU64s, List.append_assoc]
    rw [readBytes_append _ (leBytes_length 8 x)]
    simp only
    rw [ih (fun y hy => h y (by simp [hy]))]
    simp only
    rw [leValue_leBytes_of_lt hx]

theorem copyU64s_eq {n : Nat} {v : List Nat} (h : v.length = n) :
    copyU64s n v = some (v.flatMap (leBytes 8)) := by
  unfold copyU64s
  rw [if_neg (by omega), List.take_of_length_le (by omega)]

theorem CDFModel_serialize_eq {c : CDFModel} (h1 : c.ends_.length = c.begins_.length)
    (h2 : c.accumulate_nkeys_.length = c.begins_.length + 1) :
    c.serialize = some (leBytes 8 c.begins_.length ++ c.begins_.flatMap (leBytes 8)
      ++ c.ends_.flatMap (leBytes 8) ++ c.accumulate_nkeys_.tail.flatMap (leBytes 8)) := by
  unfold CDFModel.serialize
  simp only
  rw [copyU64s_eq rfl, copyU64s_eq h1, copyU64s_eq (by simp [h2])]

theorem CDFModel_roundtrip {c : CDFModel} (rest : List Nat)
    (h1 : c.ends_.length = c.begins_.length)
    (h2 : c.accumulate_nkeys_.length = c.begins_.length + 1)
    (h0 : c.accumulate_nkeys_[0]? = some 0)
    (hlen : c.begins_.length < two64)
    (hb : ∀ x ∈ c.begins_, x < two64) (he : ∀ x ∈ c.ends_, x < two64)
    (ha : ∀ x ∈ c.accumulate_nkeys_, x < two64) :
    CDFModel.deserialize (leBytes 8 c.begins_.length ++ c.begins_.flatMap (leBytes 8)
      ++ c.ends_.flatMap (leBytes 8) ++ c.accumulate_nkeys_.tail.flatMap (leBytes 8) ++ rest)
      = some (c, rest) := by
  have hl : c.begins_.length < 256 ^ 8 := by
    unfold two64 at hlen
    omega
  have hacc : c.accumulate_nkeys_ = 0 :: c.accumulate_nkeys_.tail := by
    cases hc : c.accumulate_nkeys_ with
    | nil => simp [hc] at h0
    | cons a as =>
      rw [hc] at h0
      simp only [List.getElem?_cons_zero, Option.some.injEq] at h0
      simp [h0]
  have htl : c.accumulate_nkeys_.tail.length = c.begins_.length := by simp [h2]
  have hat : ∀ x ∈ c.accumulate_nkeys_.tail, x < two64 :=
    fun x hx => ha x (List.mem_of_mem_tail hx)
  unfold CDFModel.deserialize
  simp only [List.append_assoc]
  rw [readBytes_append _ (leBytes_length 8 _)]
  simp only
  rw [leValue_leBytes_of_lt hl]
  rw [readU64s_flatMap c.begins_ _ hb]
  simp only
  have r2 := readU64s_flatMap c.ends_
    (c.accumulate_nkeys_.tail.flatMap (leBytes 8) ++ rest) he
  rw [h1] at r2
  rw [r2]
  simp only
  have r3 := readU64s_flatMap c.accumulate_nkeys_.tail rest hat
  rw [htl] at r3
  rw [r3]
  simp only
  rw [← hacc]

theorem headerBytes_length (f : Oasis) : (headerBytes f).length = 20 := by
  simp [headerBytes, leBytes_length]

theorem Oasis_serialize_eq {bs : BitSetOps} {keys : List Nat} {f : Oasis}
    (hS : Shape bs keys f) (fresh : Nat → Nat) :
    f.serialize fresh = some (headerBytes f ++ ([fresh 20, fresh 21, fresh 22, fresh 23]
      ++ bodyBytes f)) := by
  unfold Oasis.serialize
  simp only
  rw [copyU64s_eq hS.blocks.symm,
    CDFModel_serialize_eq hS.intervals.len hS.intervals.acc_len]
  have hp : readBytes f.bitmap_sz_ f.bitmap_ = some (f.bitmap_, []) := by
    have := readBytes_append (a := f.bitmap_) [] hS.payload.symm
    simpa using this
  rw [hp]
  simp only [headerBytes, bodyBytes, List.append_assoc]

theorem Oasis_deserialize_eq {bs : BitSetOps} {keys : List Nat} {f : Oasis}
    (hS : Shape bs keys f) (hk : ∀ k ∈ keys, k < two64) (hn : keys.length < two64)
    (hsz : f.bitmap_sz_ < two64) (p0 p1 p2 p3 : Nat) :
    Oasis.deserialize bs (headerBytes f ++ ([p0, p1, p2, p3] ++ bodyBytes f)) = some f := by
  have hI := hS.intervals
  have hbl := hS.bias_length
  have hblocks := hS.blocks
  have hnb : f.block_list_.length < 256 ^ 8 := by
    unfold two64 at hn
    omega
  have hsz2 : f.bitmap_sz_ < 256 ^ 8 := by
    unfold two64 at hsz
    omega
  have hbs : f.block_sz_ < 256 ^ 2 := by
    have := hS.block_sz_bound
    omega
  have hls : f.last_block_sz_ < 256 ^ 2 := by
    have := hS.last_bound
    omega
  have hmod : (f.block_list_.length + 1) % two64 = f.block_bias_.length := by
    rw [Nat.mod_eq_of_lt (by omega)]
    exact hblocks
  have hcdf := CDFModel_roundtrip (c := f.cdf_model_) f.bitmap_ hI.len hI.acc_len hS.acc_head
    (by have := hI.bound; omega)
    (fun x hx => hk x (hI.mem_begin x hx)) (fun x hx => hk x (hI.mem_end x hx)) hS.acc_bound
  simp only [List.append_assoc] at hcdf
  unfold Oasis.deserialize
  simp only [headerBytes, bodyBytes, List.append_assoc]
  rw [readBytes_append _ (leBytes_length 8 _)]
  simp only
  rw [readBytes_append _ (leBytes_length 8 _)]
  simp only
  rw [readBytes_append _ (leBytes_length 2 _)]
  simp only
  rw [readBytes_append _ (leBytes_length 2 _)]
  simp only [List.cons_append, List.nil_append, List.drop_succ_cons, List.drop_zero]
  rw [leValue_leBytes_of_lt hnb, leValue_leBytes_of_lt hsz2, leValue_leBytes_of_lt hbs,
    leValue_leBytes_of_lt hls, hmod, readU64s_flatMap _ _ hS.bias_bound]
  simp only
  rw [hcdf]
  simp only
  have hp : readBytes f.bitmap_sz_ f.bitmap_ = some (f.bitmap_, []) := by
    have := readBytes_append (a := f.bitmap_) [] hS.payload.symm
    simpa using this
  rw [hp]
  simp only
  rw [hS.mounted]

/-- **C4** (round trip of a built filter). For a filter `f` built from a strictly increasing
array of 64-bit keys, with a payload size that fits `size_t`, and whatever the fresh buffer
holds: `serialize` produces a blob, and `deserialize` of that blob restores the same block
size, last-block size, payload size and payload bytes, bias array and CDF-model arrays
(begins, ends, cumulative alpha with `A[0] = 0`), indeed the same filter, which therefore
gives the same answer to every point query and every range query. -/
theorem deserialize_serialize (fo : FloatOps) (bs : BitSetOps) (bpk : fo.Dbl) (B : Nat)
    (keys : List Nat) (f : Oasis) (fresh : Nat → Nat)
    (hs : keys.Pairwise (· < ·)) (hk : ∀ k ∈ keys, k < two64) (hn : keys.length < two64)
    (hbuilt : Oasis.new fo bs bpk B keys = some f) (hsz : f.bitmap_sz_ < two64) :
    ∃ blob g, f.serialize fresh = some blob ∧ Oasis.deserialize bs blob = some g ∧
      g.block_sz_ = f.block_sz_ ∧ g.last_block_sz_ = f.last_block_sz_ ∧
      g.bitmap_sz_ = f.bitmap_sz_ ∧ g.bitmap_ = f.bitmap_ ∧
      g.block_bias_ = f.block_bias_ ∧
      g.cdf_model_.begins_ = f.cdf_model_.begins_ ∧
      g.cdf_model_.ends_ = f.cdf_model_.ends_ ∧
      g.cdf_model_.accumulate_nkeys_ = f.cdf_model_.accumulate_nkeys_ ∧
      g.cdf_model_.accumulate_nkeys_[0]? = some 0 ∧
      g = f ∧
      (∀ x, g.query fo bs x = f.query fo bs x) ∧
      (∀ l r, g.queryRange fo bs l r = f.queryRange fo bs l r) := by
  have hS := built_shape hs hbuilt
  refine ⟨_, f, Oasis_serialize_eq hS fresh, Oasis_deserialize_eq hS hk hn hsz _ _ _ _,
    rfl, rfl, rfl, rfl, rfl, rfl, rfl, rfl, hS.acc_head, rfl, fun _ => rfl, fun _ _ => rfl⟩

/-- Witness of **C4** on the running example, with a fresh buffer full of ones. -/
theorem deserialize_serialize_witness :
    Oasis.new exactFloat plainBitSet (68, 1) 4 exKeys = some exFilter ∧
    ∃ blob g, exFilter.serialize (fun _ => 1) = some blob ∧
      Oasis.deserialize plainBitSet blob = some g ∧ g = exFilter :=
  have h := deserialize_serialize exactFloat plainBitSet (68, 1) 4 exKeys exFilter
    (fun _ => 1) (by decide) (by decide) (by decide) (by decide) (by decide)
  ⟨by decide, h.elim fun blob h1 => h1.elim fun g h2 =>
    ⟨blob, g, h2.1, h2.2.1, h2.2.2.2.2.2.2.2.2.2.2.2.1⟩⟩

set_option maxRecDepth 100000 in
/-- Counterexample to **C5** as stated: the running example serialised into a buffer that
held ones, then deserialised and serialised again into a buffer that held zeros, is not the
same blob (the four padding bytes differ). -/
theorem reserialize_differs :
    Oasis.new exactFloat plainBitSet (68, 1) 4 exKeys = some exFilter ∧
    exFilter.serialize (fun _ => 1) = some exBlob ∧
    Oasis.deserialize plainBitSet exBlob = some exFilter ∧
    exFilter.serialize (fun _ => 0) ≠ some exBlob := by
  decide

/-- **C5**, amended (re-serialisation up to the padding). For a blob `s` serialised from a
built filter, `serialize(deserialize(s))` has the same twenty header bytes and the same
bytes from offset 24 on (bias array, CDF model, payload) as `s`; the four alignment padding
bytes at offsets 20 to 23 are not written by `serialize` and hold in each blob what its
fresh buffer held. -/
theorem reserialize_equal_outside_padding (fo : FloatOps) (bs : BitSetOps) (bpk : fo.Dbl)
    (B : Nat) (keys : List Nat) (f : Oasis) (fresh fresh2 : Nat → Nat) (s : List Nat)
    (hs : keys.Pairwise (· < ·)) (hk : ∀ k ∈ keys, k < two64) (hn : keys.length < two64)
    (hbuilt : Oasis.new fo bs bpk B keys = some f) (hsz : f.bitmap_sz_ < two64)
    (hser : f.serialize fresh = some s) :
    ∃ g s2 header body, Oasis.deserialize bs s = some g ∧ g.serialize fresh2 = some s2 ∧
      header.length = 20 ∧
      s = header ++ ([fresh 20, fresh 21, fresh 22, fresh 23] ++ body) ∧
      s2 = header ++ ([fresh2 20, fresh2 21, fresh2 22, fresh2 23] ++ body) := by
  have hS := built_shape hs hbuilt
  have h1 := Oasis_serialize_eq hS fresh
  rw [hser] at h1
  simp only [Option.some.injEq] at h1
  refine ⟨f, _, headerBytes f, bodyBytes f, ?_, Oasis_serialize_eq hS fresh2,
    headerBytes_length f, h1, rfl⟩
  rw [h1]
  exact Oasis_deserialize_eq hS hk hn hsz _ _ _ _

set_option maxRecDepth 100000 in
/-- Witness of **C5** (amended) on the running example: first buffer full of ones, second
full of zeros. -/
theorem reserialize_equal_outside_padding_witness :
    Oasis.new exactFloat plainBitSet (68, 1) 4 exKeys = some exFilter ∧
    exFilter.serialize (fun _ => 1) = some exBlob ∧
    ∃ g s2 header body, Oasis.deserialize plainBitSet exBlob = some g ∧
      g.serialize (fun _ => 0) = some s2 ∧ header.length = 20 ∧
      exBlob = header ++ ([1, 1, 1, 1] ++ body) ∧ s2 = header ++ ([0, 0, 0, 0] ++ body) :=
  ⟨by decide, by decide,
    reserialize_equal_outside_padding exactFloat plainBitSet (68, 1) 4 exKeys exFilter
      (fun _ => 1) (fun _ => 0) exBlob (by decide) (by decide) (by decide) (by decide)
      (by decide) (by decide)⟩

/-! ## The assertion of the range query -/

/-- Counterexample to **C10** as stated: the assertion at the head of the CDF range query
fails on the pair `(5, 5)`, which has `lo ≤ hi`, and on the pair that the host adapter
forwards for `RangeQuery(5, 6)`, which has `left < right`. -/
theorem range_assertion_rejects_equal :
    5 ≤ 5 ∧ CDFModel.rangeAssertion 5 5 = false ∧
    5 < 6 ∧ CDFModel.rangeAssertion (RangeQueryArgs 5 6).1 (RangeQueryArgs 5 6).2 = false := by
  decide

/-- **C10**, amended. The assertion at the head of the CDF range query is the strict
`l_key < r_key`: it holds exactly for the pairs with `lo < hi`; and the host adapter
`RangeQuery(left, right)`, which forwards `[left, right − 1]`, satisfies it for all 64-bit
`left`, `right` with `left + 1 < right`. -/
theorem range_assertion_strict (lo hi left right : Nat) (hr : right < two64)
    (hlr : left + 1 < right) :
    (CDFModel.rangeAssertion lo hi = true ↔ lo < hi) ∧
    RangeQueryArgs left right = (left, right - 1) ∧
    CDFModel.rangeAssertion (RangeQueryArgs left right).1 (RangeQueryArgs left right).2
      = true := by
  have h1 : sub64 right 1 = right - 1 := sub64_one (by omega) (by omega)
  refine ⟨by simp [CDFModel.rangeAssertion], by simp [RangeQueryArgs, h1], ?_⟩
  simp only [RangeQueryArgs, h1, CDFModel.rangeAssertion, decide_eq_true_eq]
  omega

/-- Witness of **C10** (amended): the pair `(3, 7)` and the adapter call `RangeQuery(5, 9)`. -/
theorem range_assertion_strict_witness :
    (CDFModel.rangeAssertion 3 7 = true ↔ 3 < 7) ∧ RangeQueryArgs 5 9 = (5, 8) ∧
    CDFModel.rangeAssertion (RangeQueryArgs 5 9).1 (RangeQueryArgs 5 9).2 = true :=
  range_assertion_strict 3 7 5 9 (by decide) (by decide)

/-! ## Defects shown on the running example -/

theorem plainBitSet_point (vals rest : List Nat) (U v : Nat) (h : ∀ x ∈ vals, x < two64) :
    plainBitSet.query vals.length U (plainBitSet.build vals U ++ rest) v = true ↔ v ∈ vals := by
  simp only [plainBitSet]
  rw [readU64s_flatMap vals rest h]
  simp

theorem plainBitSet_range (vals rest : List Nat) (U lo hi : Nat)
    (h : ∀ x ∈ vals, x < two64) :
    plainBitSet.queryRange vals.length U (plainBitSet.build vals U ++ rest) lo hi = true ↔
      ∃ x ∈ vals, lo ≤ x ∧ x ≤ hi := by
  simp only [plainBitSet]
  rw [readU64s_flatMap vals rest h]
  simp

/-- **C6**, evaluated at its failing inputs. On the running example the range query with
`l` before the first begin (`[5, 12]`) reads `begins_[2^64 − 1]`, and the range query with
`l` in the last interval (`[110, 120]`) reads `begins_[2]` of a two-element vector: both
reads are outside the array. -/
theorem range_query_reads_out_of_bounds :
    Oasis.new exactFloat plainBitSet (68, 1) 4 exKeys = some exFilter ∧
    exFilter.cdf_model_.begins_.length = 2 ∧
    sub64 (upper_bound exFilter.cdf_model_.begins_ 5) 1 = 2 ^ 64 - 1 ∧
    exFilter.queryRange exactFloat plainBitSet 5 12 = none ∧
    add64 (sub64 (upper_bound exFilter.cdf_model_.begins_ 110) 1) 1 = 2 ∧
    exFilter.queryRange exactFloat plainBitSet 110 120 = none := by
  decide

/-- **C1**, evaluated at its failing input. On the running example the only block is
built from the four values `0, 5, 11, 16` and answers `true` for each of them when mounted
with four elements, but `last_block_sz_` is `5 % 4 = 1` and the block is mounted with one
element; the point query of the key `12` (position `10`, block value `5`) answers `false`. -/
theorem member_key_answered_false :
    Oasis.new exactFloat plainBitSet (68, 1) 4 exKeys = some exFilter ∧
    12 ∈ exKeys ∧
    exFilter.cdf_model_.query exactFloat 12 = some (QueryPosStatus.NO_IDEA, 10) ∧
    exBitmap = plainBitSet.build [0, 5, 11, 16] 21 ∧
    (∀ v ∈ [0, 5, 11, 16], plainBitSet.query 4 21 exBitmap v = true) ∧
    exFilter.last_block_sz_ = 1 ∧
    exFilter.block_list_ = [{ m := 1, range := 21, data := exBitmap }] ∧
    exFilter.query exactFloat plainBitSet 12 = some false := by
  decide

/-- **C2**, evaluated at its failing inputs. On the running example the only block holds
`0, 5, 11, 16` and its range query is correct when it is mounted with four elements; the
range `[12, 13]` holds the keys `12` and `13` and is answered `false` (the block is mounted
with `last_block_sz_ = 1` element), and the range `[5, 12]` holds the keys `10, 11, 12` and
the query reads outside `begins_`. -/
theorem range_with_keys_not_answered_true :
    Oasis.new exactFloat plainBitSet (68, 1) 4 exKeys = some exFilter ∧
    (∀ lo hi, plainBitSet.queryRange 4 21 exBitmap lo hi = true ↔
      ∃ x ∈ [0, 5, 11, 16], lo ≤ x ∧ x ≤ hi) ∧
    (∃ k ∈ exKeys, 12 ≤ k ∧ k ≤ 13) ∧
    exFilter.cdf_model_.queryRange exactFloat 12 13 = some (QueryPosStatus.NO_IDEA, 10, 16) ∧
    exFilter.queryRange exactFloat plainBitSet 12 13 = some false ∧
    (∃ k ∈ exKeys, 5 ≤ k ∧ k ≤ 12) ∧
    exFilter.queryRange exactFloat plainBitSet 5 12 = none :=
  ⟨by decide,
    fun lo hi => by
      have h := plainBitSet_range [0, 5, 11, 16] [] 21 lo hi (by decide)
      have e : exBitmap = plainBitSet.build [0, 5, 11, 16] 21 ++ [] := by decide
      rw [e]
      exact h,
    by decide, by decide, by decide, by decide, by decide⟩

/-! ## Separation of consecutive intervals -/

theorem indexLoop_gaps (T : Nat) (l : List Nat) (st : IndexState)
    (hlen : st.begins.length = st.ends.length + 1)
    (hinv : ∀ (j e b : Nat), st.ends[j]? = some e → st.begins[j + 1]? = some b →
      sub64 b e ≥ T) :
    (indexLoop T l st).begins.length = (indexLoop T l st).ends.length + 1 ∧
    ∀ (j e b : Nat), (indexLoop T l st).ends[j]? = some e →
      (indexLoop T l st).begins[j + 1]? = some b → sub64 b e ≥ T := by
  induction l, st using indexLoop.induct T with
  | case1 a b rest st hsplit ih =>
    rw [indexLoop, if_pos hsplit]
    apply ih
    · simp only [List.length_append, List.length_singleton]
      omega
    · intro j e b2 he hb
      simp only at he hb
      by_cases hj : j < st.ends.length
      · rw [List.getElem?_append_left hj] at he
        rw [List.getElem?_append_left (by omega)] at hb
        exact hinv j e b2 he hb
      · have hj2 : j = st.ends.length := by
          have := (List.getElem?_eq_some.mp he).1
          simp only [List.length_append, List.length_singleton] at this
          omega
        subst hj2
        rw [List.getElem?_concat_length] at he
        rw [← hlen, List.getElem?_concat_length] at hb
        simp only [Option.some.injEq] at he hb
        subst he hb
        exact hsplit
  | case2 a b rest st hsplit ih =>
    rw [indexLoop, if_neg hsplit]
    exact ih hlen hinv
  | case3 t st hnot =>
    have h : indexLoop T t st = st := by
      unfold indexLoop
      split
      · rename_i a b rest
        exact absurd rfl (fun h => hnot a b rest h)
      · rfl
    rw [h]
    exact ⟨hlen, hinv⟩

theorem build_indices_gaps {fo : FloatOps} {T : Nat} {bpk : fo.Dbl} {keys : List Nat}
    {c : CDFModel} (h : build_indices fo T bpk keys = some c) :
    ∀ (j e b : Nat), c.ends_[j]? = some e → c.begins_[j + 1]? = some b → sub64 b e ≥ T := by
  cases keys with
  | nil => simp [build_indices] at h
  | cons k0 rest =>
    simp only [build_indices, Option.some.injEq] at h
    obtain ⟨hl, hg⟩ := indexLoop_gaps T (k0 :: rest)
      { begins := [k0], ends := [], interval_sz := [], avg_range := 0, cnt := 0 }
      (by simp) (by simp)
    intro j e b he hb
    rw [← h] at he hb
    simp only at he hb
    by_cases hj : j < (indexLoop T (k0 :: rest)
        { begins := [k0], ends := [], interval_sz := [], avg_range := 0, cnt := 0 }).ends.length
    · rw [List.getElem?_append_left hj] at he
      exact hg j e b he hb
    · have := (List.getElem?_eq_some.mp hb).1
      omega

/-- **C14** (well-formed intervals). After `build_indices` with a threshold `T ≥ 1` on a
strictly increasing array `K` of 64-bit keys: `begins_` and `ends_` have the same length
`S ≥ 1`, the first begin is `K[0]` and the last end is `K[n-1]`, every begin and every end is
a key of `K`, `begin_i ≤ end_i`, and consecutive intervals are separated by a gap of at
least `T`: `begin_{i+1} − end_i ≥ T`, hence `end_i < begin_{i+1}`. -/
theorem intervals_well_formed (fo : FloatOps) (T : Nat) (bpk : fo.Dbl) (keys : List Nat)
    (c : CDFModel) (hT : 1 ≤ T) (hs : keys.Pairwise (· < ·)) (hk : ∀ k ∈ keys, k < two64)
    (hc : build_indices fo T bpk keys = some c) :
    c.begins_.length = c.ends_.length ∧ 1 ≤ c.begins_.length ∧
    c.begins_[0]? = some (keys.headD 0) ∧ c.ends_.getLast? = some (keys.getLastD 0) ∧
    (∀ b ∈ c.begins_, b ∈ keys) ∧ (∀ e ∈ c.ends_, e ∈ keys) ∧
    (∀ (i b e : Nat), c.begins_[i]? = some b → c.ends_[i]? = some e → b ≤ e) ∧
    (∀ (i e b : Nat), c.ends_[i]? = some e → c.begins_[i + 1]? = some b →
      T ≤ b - e ∧ e < b) := by
  have hI := build_indices_intervals hc hs
  have hg := build_indices_gaps hc
  have hfirst : c.begins_[0]? = some (keys.headD 0) := by
    rw [hI.first]
    cases keys with
    | nil => exact absurd rfl hI.nonempty
    | cons k0 rest => simp
  have hlast : c.ends_.getLast? = some (keys.getLastD 0) := by
    rw [hI.last]
    cases hl : keys.getLast? with
    | none => exact absurd (List.getLast?_eq_none_iff.mp hl) hI.nonempty
    | some v => simp [hl]
  refine ⟨hI.len.symm, ?_, hfirst, hlast, hI.mem_begin, hI.mem_end, hI.le, ?_⟩
  · have := (List.getElem?_eq_some.mp hfirst).1
    omega
  · intro i e b he hb
    have hlt := hI.gap i e b he hb
    have hb64 : b < two64 := hk b (hI.mem_begin b (List.getElem?_mem hb))
    have := hg i e b he hb
    rw [sub64_of_le (by omega) hb64] at this
    have _ := hT
    exact ⟨this, hlt⟩

/-- Witness of **C14** on the running example at the threshold `94` of its constructor. -/
theorem intervals_well_formed_witness :
    build_indices exactFloat 94 (200, 4) exKeys = some exFilter.cdf_model_ ∧
    exFilter.cdf_model_.begins_.length = exFilter.cdf_model_.ends_.length ∧
    (∀ (i e b : Nat), exFilter.cdf_model_.ends_[i]? = some e →
      exFilter.cdf_model_.begins_[i + 1]? = some b → 94 ≤ b - e ∧ e < b) :=
  have h := intervals_well_formed exactFloat 94 (200, 4) exKeys exFilter.cdf_model_
    (by decide) (by decide) (by decide) (by decide)
  ⟨by decide, h.1, h.2.2.2.2.2.2.2⟩

/-! ## Defects of the interval walk and of the last-block size -/

/-- **C13**, evaluated at its failing input. `CDFModel(72, 2, skipKeys)` keeps the three
largest gaps `1, 94, 95`, selects the threshold `94` and calls `build_indices(94, …)`. The
gap `204 − 109 = 95` between `K[6]` and `K[7]` qualifies, but the walk, having split at
`K[5] | K[6]`, advances `i` twice and never compares `K[7]` with `K[6]`: `K[6] = 109` is not
an end, `K[7] = 204` is not a begin, and the interval `[109, 204]` holds both. -/
theorem qualifying_gap_not_split :
    exactFloat.heapBound (72, 1) skipKeys.length = 3 ∧
    heapLoop 3 [] (gaps skipKeys) = some [1, 94, 95] ∧
    get_threshold exactFloat (exactFloat.remainBpk (72, 1) 2) 5 8 [94, 95] = some 94 ∧
    CDFModel.new exactFloat (72, 1) 2 skipKeys = some skipModel ∧
    build_indices exactFloat 94 (exactFloat.remainBpk (72, 1) 2) skipKeys = some skipModel ∧
    skipKeys[6]? = some 109 ∧ skipKeys[7]? = some 204 ∧ 204 - 109 ≥ 94 ∧
    109 ∉ skipModel.ends_ ∧ 204 ∉ skipModel.begins_ ∧
    skipModel.begins_[1]? = some 109 ∧ skipModel.ends_[1]? = some 204 := by
  decide

/-- **C15**, evaluated at its failing input. In the model of `CDFModel(72, 2, skipKeys)`
the second interval `[109, 204]` holds the two keys `109` and `204` (`begin ≠ end`), yet
its capacity is `A_2 − A_1 = 1 − 1 = 0`: the comparison that would have counted its second
key is the one the walk skips after a split. -/
theorem two_key_interval_zero_capacity :
    CDFModel.new exactFloat (72, 1) 2 skipKeys = some skipModel ∧
    skipModel.begins_[1]? = some 109 ∧ skipModel.ends_[1]? = some 204 ∧
    109 ∈ skipKeys ∧ 204 ∈ skipKeys ∧ 109 ≠ 204 ∧
    skipModel.accumulate_nkeys_[1]? = some 1 ∧ skipModel.accumulate_nkeys_[2]? = some 1 ∧
    (skipModel.get_params exactFloat 1).map (fun p => p.2.1) = some 0 := by
  decide

/-- **C19**, evaluated at its failing inputs. On the running example the five positions
`5, 10, 16, 21, 26` make one batch of four values `0, 5, 11, 16`, but
`last_block_sz_ = 5 % 4 = 1` and the block is mounted with one element. For
`Oasis(72, 2, skipKeys)` the four positions `0, 0, 0, 0` make two batches of two values
each, but `last_block_sz_ = 4 % 2 = 0`, which is not in `[1, B]`. -/
theorem last_block_size_mismatch :
    Oasis.new exactFloat plainBitSet (68, 1) 4 exKeys = some exFilter ∧
    exFilter.cdf_model_.get_locations exactFloat exKeys = some [5, 10, 16, 21, 26] ∧
    batchTrace 4 26 4 [10, 16, 21, 26] 5 = [([0, 5, 11, 16], 21)] ∧
    exFilter.last_block_sz_ = 1 ∧
    exFilter.block_list_.map (fun b => b.m) = [1] ∧
    skipModel.get_locations exactFloat skipKeys = some [0, 0, 0, 0] ∧
    batchTrace 2 0 3 [0, 0, 0] 0 = [([0, 0], 0), ([0, 0], 0)] ∧
    (Oasis.new exactFloat plainBitSet (72, 1) 2 skipKeys).map
      (fun f => (f.last_block_sz_, f.block_list_.map (fun b => b.m))) = some (0, [2, 0]) := by
  decide

/-! ## The build makes no budget test -/

theorem CDFModel_new_none_of_bound_zero (fo : FloatOps) (bpk : fo.Dbl) (B : Nat)
    (keys : List Nat) (hM : fo.heapBound bpk keys.length = 0) :
    CDFModel.new fo bpk B keys = none := by
  unfold CDFModel.new
  cases keys with
  | nil => rfl
  | cons k0 rest =>
    simp only
    rw [hM]
    cases rest with
    | nil => simp [gaps, heapLoop]
    | cons k1 rest2 => simp [gaps, heapLoop, heapStep]

theorem CDFModel_new_some_of_candidates (fo : FloatOps) (bpk : fo.Dbl) (B : Nat)
    (keys : List Nat) (t : Nat) (heap : List Nat) (hk : keys ≠ [])
    (hh : heapLoop (fo.heapBound bpk keys.length) [] (gaps keys) = some (t :: heap))
    (hG : heap.dropWhile (fun x => x == t) ≠ []) :
    ∃ c, CDFModel.new fo bpk B keys = some c := by
  unfold CDFModel.new
  cases keys with
  | nil => exact absurd rfl hk
  | cons k0 rest =>
    simp only
    rw [hh]
    simp only
    cases hq : heap.dropWhile (fun x => x == t) with
    | nil => exact absurd hq hG
    | cons g gs =>
      simp only [get_threshold]
      exact ⟨_, rfl⟩

/-- Counterexample to **C11** as stated: `Oasis(48, 1, exKeys)` has `M = 2`, residual
budget `b' = 48 − 2 − 64 = −18 ≤ 0` and total position budget `R = ⌊2^(−66) · 8⌋ = 0`, and
the build produces a filter. -/
theorem small_budget_still_builds :
    exactFloat.heapBound (48, 1) exKeys.length = 2 ∧
    exactFloat.remainBpk (48, 1) 1 = (-18, 1) ∧
    exactFloat.bitArrayRange (-18, 1) exKeys.length 2 = 0 ∧
    (CDFModel.new exactFloat (48, 1) 1 exKeys).isSome = true ∧
    (Oasis.new exactFloat plainBitSet (48, 1) 1 exKeys).isSome = true :=
  ⟨by decide, rfl, by decide, by decide, by decide⟩

/-- **C11**, amended. The constructor has no budget test. A build with
`M = ⌊b·n/192⌋ = 0` produces no filter (the constructor takes `top()` of an empty heap).
With `M ≥ 1` the CDF model is produced as soon as the bounded heap retains a gap larger
than its smallest entry, whatever values the residual budget `b'` and the position budget
`R` take: neither `b' ≤ 0` nor `R = 0` stops the build. -/
theorem budget_not_checked (fo : FloatOps) (bs : BitSetOps) (bpk : fo.Dbl) (B : Nat)
    (keys : List Nat) :
    (fo.heapBound bpk keys.length = 0 →
      CDFModel.new fo bpk B keys = none ∧ Oasis.new fo bs bpk B keys = none) ∧
    (∀ t heap, keys ≠ [] →
      heapLoop (fo.heapBound bpk keys.length) [] (gaps keys) = some (t :: heap) →
      heap.dropWhile (fun x => x == t) ≠ [] →
      ∃ c, CDFModel.new fo bpk B keys = some c) := by
  refine ⟨fun hM => ⟨CDFModel_new_none_of_bound_zero fo bpk B keys hM, ?_⟩,
    fun t heap hk hh hG => CDFModel_new_some_of_candidates fo bpk B keys t heap hk hh hG⟩
  unfold Oasis.new
  simp only
  rw [CDFModel_new_none_of_bound_zero fo bpk _ keys hM]

/-- Witness of **C11** (amended): `n = 5, b = 10, B = 4` has `M = 0` and builds nothing;
`n = 8, b = 48, B = 1` retains the gaps `1, 94` and builds a model. -/
theorem budget_not_checked_witness :
    exactFloat.heapBound (10, 1) [10, 11, 12, 13, 14].length = 0 ∧
    Oasis.new exactFloat plainBitSet (10, 1) 4 [10, 11, 12, 13, 14] = none ∧
    ∃ c, CDFModel.new exactFloat (48, 1) 1 exKeys = some c :=
  ⟨by decide,
    ((budget_not_checked exactFloat plainBitSet (10, 1) 4 [10, 11, 12, 13, 14]).1
      (by decide)).2,
    (budget_not_checked exactFloat plainBitSet (48, 1) 1 exKeys).2 1 [94]
      (by decide) (by decide) (by decide)⟩

/-! ## Deserialisation makes no consistency test -/

theorem readBytes_extend {n : Nat} {ser a r : List Nat} (extra : List Nat)
    (h : readBytes n ser = some (a, r)) : readBytes n (ser ++ extra) = some (a, r ++ extra) := by
  unfold readBytes at h ⊢
  split at h
  · simp at h
  · rename_i hlen
    simp only [Option.some.injEq, Prod.mk.injEq] at h
    have hlen2 : ¬ (ser ++ extra).length < n := by
      simp only [List.length_append]
      omega
    rw [if_neg hlen2, List.take_append_of_le_length (by omega),
      List.drop_append_of_le_length (by omega), h.1, h.2]

theorem readBytes_length {n : Nat} {ser a r : List Nat} (h : readBytes n ser = some (a, r)) :
    n ≤ ser.length := by
  unfold readBytes at h
  split at h
  · simp at h
  · omega

theorem readU64s_extend {n : Nat} {ser vs r : List Nat} (extra : List Nat)
    (h : readU64s n ser = some (vs, r)) :
    readU64s n (ser ++ extra) = some (vs, r ++ extra) := by
  induction n generalizing ser vs r with
  | zero =>
    simp only [readU64s, Option.some.injEq, Prod.mk.injEq] at h ⊢
    exact ⟨h.1, by rw [h.2]⟩
  | succ n ih =>
    unfold readU64s at h ⊢
    split at h
    · simp at h
    · rename_i b rest hb
      rw [readBytes_extend extra hb]
      simp only
      split at h
      · simp at h
      · rename_i vs2 rest2 hrec
        rw [ih hrec]
        simp only [Option.some.injEq, Prod.mk.injEq] at h ⊢
        exact ⟨h.1, by rw [h.2]⟩

theorem CDFModel_deserialize_extend {ser r : List Nat} {c : CDFModel} (extra : List Nat)
    (h : CDFModel.deserialize ser = some (c, r)) :
    CDFModel.deserialize (ser ++ extra) = some (c, r ++ extra) := by
  unfold CDFModel.deserialize at h ⊢
  split at h
  · simp at h
  · rename_i len r0 h0
    rw [readBytes_extend extra h0]
    simp only at h ⊢
    split at h
    · simp at h
    · rename_i begins r1 h1
      rw [readU64s_extend extra h1]
      simp only
      split at h
      · simp at h
      · rename_i ends r2 h2
        rw [readU64s_extend extra h2]
        simp only
        split at h
        · simp at h
        · rename_i acc r3 h3
          rw [readU64s_extend extra h3]
          simp only [Option.some.injEq, Prod.mk.injEq] at h ⊢
          exact ⟨h.1, by rw [h.2]⟩

theorem CDFModel_deserialize_length {ser r : List Nat} {c : CDFModel}
    (h : CDFModel.deserialize ser = some (c, r)) : 8 ≤ ser.length := by
  unfold CDFModel.deserialize at h
  split at h
  · simp at h
  · rename_i len r0 h0
    exact readBytes_length h0

theorem readU64s_rest_length {n : Nat} {ser vs r : List Nat}
    (h : readU64s n ser = some (vs, r)) : r.length ≤ ser.length := by
  induction n generalizing ser vs r with
  | zero =>
    simp only [readU64s, Option.some.injEq, Prod.mk.injEq] at h
    rw [h.2]
  | succ n ih =>
    unfold readU64s at h
    split at h
    · simp at h
    · rename_i b rest hb
      split at h
      · simp at h
      · rename_i vs2 rest2 hrec
        simp only [Option.some.injEq, Prod.mk.injEq] at h
        have h1 := ih hrec
        have h2 : rest.length ≤ ser.length := by
          unfold readBytes at hb
          split at hb
          · simp at hb
          · simp only [Option.some.injEq, Prod.mk.injEq] at hb
            rw [← hb.2]
            simp
        rw [← h.2]
        omega

theorem mountLoop_isSome_data (bs : BitSetOps) (nb bsz lsz : Nat) (bias : List Nat)
    (k i : Nat) (data data2 : List Nat) :
    (mountLoop bs nb bsz lsz bias k i data).isSome
      = (mountLoop bs nb bsz lsz bias k i data2).isSome := by
  induction k generalizing i data data2 with
  | zero => simp [mountLoop]
  | succ k ih =>
    unfold mountLoop
    cases h1 : bias[i + 1]? with
    | none => simp
    | some hi =>
      cases h2 : bias[i]? with
      | none => simp
      | some lo =>
        simp only
        have := ih (i + 1)
          (data.drop (bs.size (if i = nb - 1 then lsz else bsz) (sub64 hi lo) data))
          (data2.drop (bs.size (if i = nb - 1 then lsz else bsz) (sub64 hi lo) data2))
        cases h3 : mountLoop bs nb bsz lsz bias k (i + 1)
            (data.drop (bs.size (if i = nb - 1 then lsz else bsz) (sub64 hi lo) data)) with
        | none =>
          rw [h3] at this
          cases h4 : mountLoop bs nb bsz lsz bias k (i + 1)
              (data2.drop (bs.size (if i = nb - 1 then lsz else bsz) (sub64 hi lo) data2)) with
          | none => simp
          | some v =>
            rw [h4] at this
            simp at this
        | some v =>
          rw [h3] at this
          cases h4 : mountLoop bs nb bsz lsz bias k (i + 1)
              (data2.drop (bs.size (if i = nb - 1 then lsz else bsz) (sub64 hi lo) data2)) with
          | none =>
            rw [h4] at this
            simp at this
          | some v2 => simp

theorem Oasis_deserialize_extend {bs : BitSetOps} {blob : List Nat} {g : Oasis}
    (extra : List Nat) (h : Oasis.deserialize bs blob = some g) :
    Oasis.deserialize bs (blob ++ extra) = some g := by
  unfold Oasis.deserialize at h ⊢
  split at h
  · simp at h
  · rename_i nb r0 h0
    rw [readBytes_extend extra h0]
    simp only at h ⊢
    split at h
    · simp at h
    · rename_i sz r1 h1
      rw [readBytes_extend extra h1]
      simp only at h ⊢
      split at h
      · simp at h
      · rename_i bsz r2 h2
        rw [readBytes_extend extra h2]
        simp only at h ⊢
        split at h
        · simp at h
        · rename_i lbsz r3 h3
          rw [readBytes_extend extra h3]
          simp only at h ⊢
          split at h
          · simp at h
          · rename_i block_bias r4 h4
            split at h
            · simp at h
            · rename_i model r5 h5
              have hr4 : 8 ≤ r4.length := CDFModel_deserialize_length h5
              have hr3 : r4.length ≤ (r3.drop 4).length := readU64s_rest_length h4
              have hdrop : (r3 ++ extra).drop 4 = r3.drop 4 ++ extra := by
                apply List.drop_append_of_le_length
                simp only [List.length_drop] at hr3
                omega
              rw [hdrop, readU64s_extend extra h4]
              simp only
              rw [CDFModel_deserialize_extend extra h5]
              simp only
              split at h
              · simp at h
              · rename_i bitmap r6 h6
                rw [readBytes_extend extra h6]
                exact h

set_option maxRecDepth 100000 in
/-- Counterexample to **C12** as stated: the serialised running example followed by three
stray bytes, and the blob whose `payload_size` field is `0` although its one block of one
element occupies 8 bytes, are both accepted: `deserialize` yields a filter. -/
theorem inconsistent_blob_accepted :
    Oasis.deserialize plainBitSet (exBlob ++ [7, 7, 7]) = some exFilter ∧
    plainBitSet.size 1 21 [] = 8 ∧
    (Oasis.deserialize plainBitSet zeroPayloadBlob).map
      (fun g => (g.bitmap_sz_, g.bitmap_, g.block_list_.map (fun b => (b.m, b.range))))
      = some (0, [], [(1, 21)]) := by
  decide

/-- **C12**, amended. `Oasis::deserialize` makes no consistency test. Whenever it yields a
filter from a blob, it yields the same filter from that blob followed by any further bytes,
so a `payload_size`, `nbatches` or interval count `S` that accounts for less than the blob
holds is not detected; and whether the blocks get mounted depends neither on the payload
bytes nor on the block sizes, which are never compared with `payload_size`. -/
theorem deserialize_not_validated (bs : BitSetOps) (blob extra : List Nat) (g : Oasis)
    (h : Oasis.deserialize bs blob = some g) :
    Oasis.deserialize bs (blob ++ extra) = some g ∧
    ∀ (nb bsz lsz : Nat) (bias : List Nat) (k i : Nat) (data data2 : List Nat),
      (mountLoop bs nb bsz lsz bias k i data).isSome
        = (mountLoop bs nb bsz lsz bias k i data2).isSome :=
  ⟨Oasis_deserialize_extend extra h, mountLoop_isSome_data bs⟩

set_option maxRecDepth 100000 in
/-- Witness of **C12** (amended): the serialised running example and three stray bytes. -/
theorem deserialize_not_validated_witness :
    Oasis.deserialize plainBitSet exBlob = some exFilter ∧
    Oasis.deserialize plainBitSet (exBlob ++ [7, 7, 7]) = some exFilter :=
  ⟨by decide,
    (deserialize_not_validated plainBitSet exBlob [7, 7, 7] exFilter (by decide)).1⟩

/-! ## The layout of the block list -/

theorem batchLoop_eq (bs : BitSetOps) (B back : Nat) (fuel : Nat) (l : List Nat) (low : Nat)
    (bias bitmap : List Nat) :
    batchLoop bs B back fuel l low bias bitmap =
      (bias ++ batchBias B back fuel l,
       bitmap ++ (batchTrace B back fuel l low).flatMap (fun a => bs.build a.1 a.2)) := by
  induction fuel generalizing l low bias bitmap with
  | zero => simp [batchLoop, batchBias, batchTrace]
  | succ n ih =>
    cases l with
    | nil => simp [batchLoop, batchBias, batchTrace]
    | cons p ps =>
      simp only [batchLoop, batchBias, batchTrace]
      rw [ih]
      simp [List.append_assoc]

theorem batchTrace_length (B back : Nat) (fuel : Nat) (l : List Nat) (low : Nat) :
    (batchTrace B back fuel l low).length = (batchBias B back fuel l).length := by
  induction fuel generalizing l low with
  | zero => simp [batchBias, batchTrace]
  | succ n ih =>
    cases l with
    | nil => simp [batchBias, batchTrace]
    | cons p ps =>
      simp only [batchBias, batchTrace, List.length_cons]
      rw [ih]

theorem getLastD_drop_of_ne_nil {l : List Nat} {k : Nat} (h : l.drop k ≠ []) (d : Nat) :
    (l.drop k).getLastD d = l.getLastD d := by
  have hk : ¬ l.length ≤ k := by
    intro hle
    exact h (List.drop_of_length_le hle)
  simp only [List.getLastD_eq_getLast?, List.getLast?_drop, if_neg hk]

theorem batchBias_sublist (B back : Nat) (fuel : Nat) (l : List Nat)
    (hback : l ≠ [] → l.getLastD 0 = back) : (batchBias B back fuel l).Sublist l := by
  induction fuel generalizing l with
  | zero => simp [batchBias]
  | succ n ih =>
    cases l with
    | nil => simp [batchBias]
    | cons p ps =>
      simp only [batchBias]
      cases hd : (p :: ps).drop (B - 1) with
      | nil =>
        simp only
        have hb : back ∈ p :: ps := by
          rw [← hback (by simp)]
          exact getLastD_mem (by simp)
        have hnil : batchBias B back n [] = [] := by
          cases n <;> simp [batchBias]
        rw [hnil]
        exact List.singleton_sublist.mpr hb
      | cons x r =>
        simp only
        have hsub : (x :: r).Sublist (p :: ps) := by
          rw [← hd]
          exact List.drop_sublist _ _
        have hr : r ≠ [] → r.getLastD 0 = back := by
          intro hne
          have h1 : (x :: r).getLastD 0 = (p :: ps).getLastD 0 := by
            rw [← hd]
            exact getLastD_drop_of_ne_nil (by rw [hd]; simp) 0
          rw [getLastD_cons_of_ne_nil hne] at h1
          rw [h1]
          exact hback (by simp)
        exact ((ih r hr).cons₂ x).trans hsub

theorem sub64_self (x : Nat) : sub64 x x = 0 := by
  unfold sub64
  have h1 : x % two64 ≤ x := Nat.mod_le _ _
  have h2 : x + two64 - x % two64 = two64 + (x - x % two64) := by omega
  have h3 : two64 ∣ x - x % two64 := Nat.dvd_sub_mod x
  obtain ⟨k, hk⟩ := h3
  rw [h2, hk, Nat.add_mul_mod_self_left, Nat.mod_self]

theorem batchBias_nil (B back fuel : Nat) : batchBias B back fuel [] = [] := by
  cases fuel <;> simp [batchBias]

theorem batchTrace_nil (B back fuel low : Nat) : batchTrace B back fuel [] low = [] := by
  cases fuel <;> simp [batchTrace]

theorem drop_length_lt {l : List Nat} {k x : Nat} {r : List Nat} (h : l.drop k = x :: r) :
    r.length + k + 1 = l.length := by
  have h1 : (l.drop k).length = (x :: r).length := by rw [h]
  simp only [List.length_drop, List.length_cons] at h1
  omega

theorem batchBias_getLast (B back : Nat) (fuel : Nat) (l : List Nat)
    (hfuel : l.length ≤ fuel) (hne : l ≠ []) (hback : l.getLastD 0 = back) :
    (batchBias B back fuel l).getLast? = some back := by
  induction fuel generalizing l with
  | zero =>
    cases l with
    | nil => exact absurd rfl hne
    | cons p ps => simp at hfuel
  | succ n ih =>
    cases l with
    | nil => exact absurd rfl hne
    | cons p ps =>
      simp only [batchBias]
      cases hd : (p :: ps).drop (B - 1) with
      | nil => simp [batchBias_nil]
      | cons x r =>
        simp only
        have hlen := drop_length_lt hd
        have h1 : (x :: r).getLastD 0 = back := by
          rw [← hd, getLastD_drop_of_ne_nil (by rw [hd]; simp) 0]
          exact hback
        by_cases hr : r = []
        · subst hr
          simp only [batchBias_nil, List.getLast?_singleton]
          simpa using h1
        · rw [getLastD_cons_of_ne_nil hr] at h1
          have h2 := ih r (by simp only [List.length_cons] at hfuel hlen; omega) hr h1
          rw [List.getLast?_cons, h2]
          rfl

theorem batchTrace_index (B back : Nat) (hB : 1 ≤ B) (fuel : Nat) (l : List Nat) (low : Nat)
    (hfuel : l.length ≤ fuel) (j : Nat) (hj : j < (batchBias B back fuel l).length) :
    j * B < (low :: l).length ∧
    (batchTrace B back fuel l low)[j]? = some
      ((((low :: l).drop (j * B)).take B).map
          (fun x => sub64 x (((low :: l)[j * B]?).getD 0)),
        sub64 (((batchBias B back fuel l)[j]?).getD 0) (((low :: l)[j * B]?).getD 0)) ∧
    (j + 1 < (batchBias B back fuel l).length →
      (batchBias B back fuel l)[j]? = (low :: l)[(j + 1) * B]?) := by
  induction fuel generalizing l low j with
  | zero => simp [batchBias] at hj
  | succ n ih =>
    cases l with
    | nil => simp [batchBias] at hj
    | cons p ps =>
      obtain ⟨b, rfl⟩ : ∃ b, B = b + 1 := ⟨B - 1, by omega⟩
      simp only [batchBias, batchTrace, Nat.add_sub_cancel] at hj ⊢
      cases hd : (p :: ps).drop b with
      | nil =>
        rw [hd] at hj
        simp only [batchBias_nil, List.length_singleton] at hj
        have hj0 : j = 0 := by omega
        subst hj0
        refine ⟨by simp, ?_, ?_⟩
        · simp [batchBias_nil, sub64_self]
        · simp [batchBias_nil]
      | cons x r =>
        rw [hd] at hj
        simp only [List.length_cons] at hj
        have hlen := drop_length_lt hd
        have hW : (low :: p :: ps).drop (b + 1) = x :: r := by
          rw [List.drop_succ_cons]
          exact hd
        cases j with
        | zero =>
          refine ⟨by simp, ?_, ?_⟩
          · simp [sub64_self]
          · intro _
            have h1 : (low :: p :: ps)[(0 + 1) * (b + 1)]? = (x :: r)[0]? := by
              rw [← hW, List.getElem?_drop]
              simp
            rw [h1]
            simp
        | succ i =>
          have hi : i < (batchBias (b + 1) back n r).length := by omega
          have hfuel2 : r.length ≤ n := by
            simp only [List.length_cons] at hfuel hlen
            omega
          obtain ⟨h1, h2, h3⟩ := ih r x hfuel2 i hi
          have hidx : (i + 1) * (b + 1) = (b + 1) + i * (b + 1) := by ring
          have hget : ∀ k, (x :: r)[k]? = (low :: p :: ps)[(b + 1) + k]? := by
            intro k
            rw [← hW, List.getElem?_drop]
          have hdrop : (x :: r).drop (i * (b + 1))
              = (low :: p :: ps).drop ((i + 1) * (b + 1)) := by
            rw [← hW, List.drop_drop, hidx]
          refine ⟨?_, ?_, ?_⟩
          · simp only [List.length_cons] at h1 hlen ⊢
            rw [hidx]
            omega
          · simp only [List.getElem?_cons_succ]
            rw [h2, hdrop, hget, ← hidx]
          · intro hlt
            simp only [List.getElem?_cons_succ]
            rw [h3 (by simp only [List.length_cons] at hlt; omega), hget]
            congr 1
            ring

theorem cons_getLast?_of_getLast? {x : Nat} {l : List Nat} {b : Nat}
    (h : l.getLast? = some b) : (x :: l).getLast? = some b := by
  rw [List.getLast?_cons, h]
  rfl

/-- **C18** (block-list layout). When `build_block_list` succeeds on the position list `P`
with block size `B` (so `P` is non-empty and `B ≥ 1`), with `nbatches` the number of
blocks: the bias array has `nbatches + 1` entries, `bias[j] = P[j·B]` for every batch
`j < nbatches`, the final entry `bias[nbatches]` is `P[|P| − 1]`, and the `j`-th call of
`BitSet::build` receives exactly the values `P[j·B + k] − bias[j]` (64-bit subtraction) for
`0 ≤ k < min(B, |P| − j·B)` with the range `bias[j+1] − bias[j]`; the payload is the
concatenation of the blocks these calls return. -/
theorem block_list_layout (fo : FloatOps) (bs : BitSetOps) (B : Nat) (c : CDFModel)
    (keys : List Nat) (f : Oasis) (P : List Nat)
    (hP : c.get_locations fo keys = some P)
    (hf : build_block_list fo bs B c keys = some f) :
    P ≠ [] ∧ 1 ≤ B ∧
    f.block_bias_.length = f.block_list_.length + 1 ∧
    (buildCalls B P).length = f.block_list_.length ∧
    f.bitmap_ = (buildCalls B P).flatMap (fun a => bs.build a.1 a.2) ∧
    (∀ j, j < f.block_list_.length → j * B < P.length ∧ f.block_bias_[j]? = P[j * B]?) ∧
    f.block_bias_[f.block_list_.length]? = P.getLast? ∧
    (∀ j, j < f.block_list_.length → ∃ bj bj1,
      f.block_bias_[j]? = some bj ∧ f.block_bias_[j + 1]? = some bj1 ∧
      (buildCalls B P)[j]? = some
        (((P.drop (j * B)).take B).map (fun x => sub64 x bj), sub64 bj1 bj) ∧
      ((P.drop (j * B)).take B).length = min B (P.length - j * B)) := by
  obtain ⟨p0, rest, hpos, hbz, _, _, _, hbias, hbitmap, _, hmount⟩ :=
    build_block_list_fields hf
  rw [hP] at hpos
  simp only [Option.some.injEq] at hpos
  subst hpos
  have hB : 1 ≤ B := Nat.pos_of_ne_zero hbz
  rw [batchLoop_eq] at hbias hbitmap
  simp only [List.nil_append, List.singleton_append] at hbias hbitmap
  have hlen : f.block_list_.length = f.block_bias_.length - 1 := mountLoop_length hmount
  have hcalls : buildCalls B (p0 :: rest)
      = batchTrace B ((p0 :: rest).getLastD 0) rest.length rest p0 := by
    simp [buildCalls]
  have htl := batchTrace_length B ((p0 :: rest).getLastD 0) rest.length rest p0
  have hnb : f.block_list_.length
      = (batchBias B ((p0 :: rest).getLastD 0) rest.length rest).length := by
    rw [hlen, hbias]
    simp
  have hidx := fun j hj => batchTrace_index B ((p0 :: rest).getLastD 0) hB rest.length rest p0
    (Nat.le_refl _) j hj
  have hbiasj : ∀ j, j < f.block_list_.length →
      f.block_bias_[j]? = (p0 :: rest)[j * B]? := by
    intro j hj
    rw [hbias]
    cases j with
    | zero => simp
    | succ i =>
      rw [List.getElem?_cons_succ]
      exact (hidx i (by omega)).2.2 (by omega)
  refine ⟨by simp, hB, ?_, ?_, ?_, ?_, ?_, ?_⟩
  · rw [hnb, hbias]
    simp
  · rw [hcalls, htl, hnb]
  · rw [hcalls, hbitmap]
  · intro j hj
    exact ⟨(hidx j (by omega)).1, hbiasj j hj⟩
  · rw [hnb, hbias]
    have h1 : (p0 :: batchBias B ((p0 :: rest).getLastD 0) rest.length rest)[
        (batchBias B ((p0 :: rest).getLastD 0) rest.length rest).length]?
        = (p0 :: batchBias B ((p0 :: rest).getLastD 0) rest.length rest).getLast? := by
      rw [List.getLast?_eq_getElem?]
      simp
    rw [h1]
    by_cases hr : rest = []
    · subst hr
      simp [batchBias_nil]
    · have h2 := batchBias_getLast B ((p0 :: rest).getLastD 0) rest.length rest
        (Nat.le_refl _) hr (by rw [getLastD_cons_of_ne_nil hr])
      rw [cons_getLast?_of_getLast? h2]
      have h3 : (p0 :: rest).getLast? = some ((p0 :: rest).getLastD 0) := by
        cases hl : (p0 :: rest).getLast? with
        | none => simp at hl
        | some v => simp [hl]
      rw [h3]
  · intro j hj
    have hjb : j < (batchBias B ((p0 :: rest).getLastD 0) rest.length rest).length := by
      omega
    obtain ⟨h1, h2, _⟩ := hidx j hjb
    have hbj := hbiasj j hj
    have hW : (p0 :: rest)[j * B]? = some (p0 :: rest)[j * B] :=
      List.getElem?_eq_getElem h1
    have hE : (batchBias B ((p0 :: rest).getLastD 0) rest.length rest)[j]?
        = some (batchBias B ((p0 :: rest).getLastD 0) rest.length rest)[j] :=
      List.getElem?_eq_getElem hjb
    refine ⟨(p0 :: rest)[j * B],
      (batchBias B ((p0 :: rest).getLastD 0) rest.length rest)[j], ?_, ?_, ?_, ?_⟩
    · rw [hbj, hW]
    · rw [hbias, List.getElem?_cons_succ, hE]
    · rw [hcalls, h2, hW, hE]
      rfl
    · simp [List.length_take, List.length_drop]

/-- Witness of **C18** on the running example: positions `5, 10, 16, 21, 26`, block
size `4`. -/
theorem block_list_layout_witness :
    build_block_list exactFloat plainBitSet 4 exFilter.cdf_model_ exKeys = some exFilter ∧
    buildCalls 4 [5, 10, 16, 21, 26] = [([0, 5, 11, 16], 21)] ∧
    exFilter.block_bias_[exFilter.block_list_.length]? = [5, 10, 16, 21, 26].getLast? :=
  have h := block_list_layout exactFloat plainBitSet 4 exFilter.cdf_model_ exKeys exFilter
    [5, 10, 16, 21, 26] (by decide) (by decide)
  ⟨by decide, by decide, h.2.2.2.2.2.2.1⟩

/-! ## Monotonicity of the bias array -/

/-- Counterexample to **C20** as stated: `Oasis(63, 4, exKeys)` (`M = 2`, `b' = 45`,
`R = 1`, `α = 1`) projects the five interior keys of `[10, 16]` to the positions
`0, 0, 0, 0, 0`, a non-decreasing list, and its bias array is `0, 0`. -/
theorem bias_repeats :
    (Oasis.new exactFloat plainBitSet (63, 1) 4 exKeys).map (fun f => f.block_bias_)
      = some [0, 0] ∧
    (Oasis.new exactFloat plainBitSet (63, 1) 4 exKeys).bind
      (fun f => f.cdf_model_.get_locations exactFloat exKeys) = some [0, 0, 0, 0, 0] ∧
    ¬ [0, 0].Pairwise (· < ·) := by
  decide

/-- **C20**, amended. For every built filter whose list of projected positions is
non-decreasing, the bias array is non-decreasing:
`bias[0] ≤ bias[1] ≤ … ≤ bias[nbatches]` (it is a sub-list of the position list). -/
theorem bias_non_decreasing (fo : FloatOps) (bs : BitSetOps) (bpk : fo.Dbl) (B : Nat)
    (keys : List Nat) (f : Oasis) (P : List Nat)
    (hbuilt : Oasis.new fo bs bpk B keys = some f)
    (hP : f.cdf_model_.get_locations fo keys = some P)
    (hmono : P.Pairwise (· ≤ ·)) :
    f.block_bias_.Sublist P ∧ f.block_bias_.Pairwise (· ≤ ·) := by
  obtain ⟨c, T, r, _, hf⟩ := Oasis_new_build hbuilt
  obtain ⟨p0, rest, hpos, _, hcdf, _, _, hbias, _, _, _⟩ := build_block_list_fields hf
  rw [hcdf] at hP
  rw [hP] at hpos
  simp only [Option.some.injEq] at hpos
  subst hpos
  rw [batchLoop_eq] at hbias
  simp only [List.singleton_append] at hbias
  have hsub : f.block_bias_.Sublist (p0 :: rest) := by
    rw [hbias]
    apply List.Sublist.cons₂
    apply batchBias_sublist
    intro hne
    rw [getLastD_cons_of_ne_nil hne]
  exact ⟨hsub, hmono.sublist hsub⟩

/-- Witness of **C20** (amended) on the running example. -/
theorem bias_non_decreasing_witness :
    Oasis.new exactFloat plainBitSet (68, 1) 4 exKeys = some exFilter ∧
    exFilter.block_bias_.Pairwise (· ≤ ·) :=
  ⟨by decide,
    (bias_non_decreasing exactFloat plainBitSet (68, 1) 4 exKeys exFilter
      [5, 10, 16, 21, 26] (by decide) (by decide) (by decide)).2⟩

/-! ## The bounded min-heap retains the largest gaps -/

theorem heapPush_eq (x : Nat) (l : List Nat) :
    heapPush x l = List.orderedInsert (· ≤ ·) x l := by
  induction l with
  | nil => rfl
  | cons y ys ih =>
    simp only [heapPush, List.orderedInsert]
    split
    · rfl
    · rw [ih]

theorem heapPush_perm (x : Nat) (l : List Nat) : (heapPush x l).Perm (x :: l) := by
  rw [heapPush_eq]
  exact List.perm_orderedInsert _ _ _

theorem heapPush_sorted (x : Nat) {l : List Nat} (h : l.Sorted (· ≤ ·)) :
    (heapPush x l).Sorted (· ≤ ·) := by
  rw [heapPush_eq]
  exact h.orderedInsert _ _

theorem heapLoop_retains (M : Nat) (hM : 1 ≤ M) (ds : List Nat) :
    ∀ (h rest pre : List Nat), h.Sorted (· ≤ ·) → pre.Perm (h ++ rest) →
      (∀ x ∈ rest, ∀ y ∈ h, x ≤ y) → h.length = min M pre.length →
      ∃ h2 rest2, heapLoop M h ds = some h2 ∧ h2.Sorted (· ≤ ·) ∧
        (pre ++ ds).Perm (h2 ++ rest2) ∧ (∀ x ∈ rest2, ∀ y ∈ h2, x ≤ y) ∧
        h2.length = min M (pre ++ ds).length := by
  induction ds with
  | nil =>
    intro h rest pre hs hp hd hl
    exact ⟨h, rest, rfl, hs, by simpa using hp, hd, by simpa using hl⟩
  | cons d ds ih =>
    intro h rest pre hs hp hd hl
    have hplen : pre.length = h.length + rest.length := by
      rw [hp.length_eq, List.length_append]
    have step : ∃ h1 rest1, heapStep M h d = some h1 ∧ h1.Sorted (· ≤ ·) ∧
        (pre ++ [d]).Perm (h1 ++ rest1) ∧ (∀ x ∈ rest1, ∀ y ∈ h1, x ≤ y) ∧
        h1.length = min M (pre ++ [d]).length := by
      unfold heapStep
      by_cases hge : h.length ≥ M
      · rw [if_pos hge]
        cases h with
        | nil =>
          simp only [List.length_nil] at hge
          omega
        | cons t h3 =>
          simp only
          have ht : ∀ y ∈ h3, t ≤ y := (List.sorted_cons.mp hs).1
          by_cases htd : t > d
          · rw [if_pos htd]
            refine ⟨t :: h3, d :: rest, rfl, hs, ?_, ?_, ?_⟩
            · have h1 : (pre ++ [d]).Perm (d :: pre) := List.perm_append_singleton d pre
              have h2 : (d :: pre).Perm (d :: (t :: h3 ++ rest)) := hp.cons d
              exact (h1.trans h2).trans List.perm_middle.symm
            · intro x hx y hy
              rcases List.mem_cons.mp hx with hx | hx
              · rcases List.mem_cons.mp hy with hy | hy
                · omega
                · have := ht y hy
                  omega
              · exact hd x hx y hy
            · simp only [List.length_cons, List.length_append, List.length_nil] at hl hge ⊢
              omega
          · rw [if_neg htd]
            refine ⟨heapPush d h3, t :: rest, rfl, heapPush_sorted d (List.sorted_cons.mp hs).2,
              ?_, ?_, ?_⟩
            · have h1 : (pre ++ [d]).Perm (d :: pre) := List.perm_append_singleton d pre
              have h2 : (d :: pre).Perm (d :: (t :: h3 ++ rest)) := hp.cons d
              have h3' : (d :: (t :: h3 ++ rest)).Perm (t :: (d :: h3 ++ rest)) := by
                simp only [List.cons_append]
                exact List.Perm.swap t d _
              have h4 : (t :: (d :: h3 ++ rest)).Perm (t :: (heapPush d h3 ++ rest)) :=
                ((heapPush_perm d h3).symm.append_right rest).cons t
              exact (((h1.trans h2).trans h3').trans h4).trans List.perm_middle.symm
            · intro x hx y hy
              have hy2 : y = d ∨ y ∈ h3 := by
                have := (heapPush_perm d h3).mem_iff.mp hy
                exact List.mem_cons.mp this
              rcases List.mem_cons.mp hx with hx | hx
              · rcases hy2 with hy2 | hy2
                · omega
                · have := ht y hy2
                  omega
              · have hxt := hd x hx t (by simp)
                rcases hy2 with hy2 | hy2
                · omega
                · exact hd x hx y (List.mem_cons_of_mem _ hy2)
            · rw [(heapPush_perm d h3).length_eq]
              simp only [List.length_cons, List.length_append, List.length_nil] at hl hge ⊢
              omega
      · rw [if_neg hge]
        have hrest : rest = [] := by
          apply List.eq_nil_of_length_eq_zero
          omega
        subst hrest
        refine ⟨heapPush d h, [], rfl, heapPush_sorted d hs, ?_, by simp, ?_⟩
        · have h1 : (pre ++ [d]).Perm (d :: pre) := List.perm_append_singleton d pre
          have h2 : (d :: pre).Perm (d :: h) := by
            simpa using hp.cons d
          simpa using (h1.trans h2).trans (heapPush_perm d h).symm
        · rw [(heapPush_perm d h).length_eq]
          simp only [List.length_cons, List.length_append, List.length_nil] at hl ⊢
          omega
    obtain ⟨h1, rest1, hstep, hs1, hp1, hd1, hl1⟩ := step
    obtain ⟨h2, rest2, hloop, hs2, hp2, hd2, hl2⟩ := ih h1 rest1 (pre ++ [d]) hs1 hp1 hd1 hl1
    refine ⟨h2, rest2, ?_, hs2, by simpa using hp2, hd2, by simpa using hl2⟩
    simp only [heapLoop, hstep]
    exact hloop

theorem gaps_length (keys : List Nat) : (gaps keys).length = keys.length - 1 := by
  induction keys with
  | nil => rfl
  | cons a rest ih =>
    cases rest with
    | nil => rfl
    | cons b rest2 =>
      simp only [gaps, List.length_cons] at ih ⊢
      omega

theorem gaps_getElem? {keys : List Nat} (hs : keys.Pairwise (· < ·))
    (hk : ∀ k ∈ keys, k < two64) (i a b : Nat) (ha : keys[i]? = some a)
    (hb : keys[i + 1]? = some b) : (gaps keys)[i]? = some (b - a) ∧ a < b := by
  induction keys generalizing i with
  | nil => simp at ha
  | cons x rest ih =>
    cases rest with
    | nil => simp at hb
    | cons y rest2 =>
      rw [List.pairwise_cons] at hs
      cases i with
      | zero =>
        simp only [List.getElem?_cons_zero, List.getElem?_cons_succ, Option.some.injEq,
          Nat.zero_add] at ha hb
        subst ha hb
        have hxy := hs.1 y (by simp)
        have hy := hk y (by simp)
        simp only [gaps, List.getElem?_cons_zero, Option.some.injEq]
        exact ⟨sub64_of_le (by omega) hy, hxy⟩
      | succ j =>
        rw [List.getElem?_cons_succ] at ha hb
        simp only [gaps]
        rw [List.getElem?_cons_succ]
        exact ih hs.2 (fun k hk2 => hk k (List.mem_cons_of_mem _ hk2)) j ha hb

theorem gaps_sum {keys : List Nat} (hs : keys.Pairwise (· < ·))
    (hk : ∀ k ∈ keys, k < two64) :
    (gaps keys).sum + keys.headD 0 = keys.getLastD 0 := by
  induction keys with
  | nil => rfl
  | cons x rest ih =>
    cases rest with
    | nil => simp [gaps]
    | cons y rest2 =>
      rw [List.pairwise_cons] at hs
      have hxy := hs.1 y (by simp)
      have hy := hk y (by simp)
      have h1 := ih hs.2 (fun k hk2 => hk k (List.mem_cons_of_mem _ hk2))
      simp only [gaps, List.sum_cons, List.headD_cons] at h1 ⊢
      rw [sub64_of_le (by omega) hy, getLastD_cons_of_ne_nil (by simp)]
      omega

theorem sum_filter_split (p : Nat → Bool) (l : List Nat) :
    (l.filter p).sum + (l.filter (fun x => !p x)).sum = l.sum := by
  induction l with
  | nil => rfl
  | cons x xs ih =>
    cases hp : p x
    · simp only [List.filter_cons, hp, Bool.not_false, if_true, List.sum_cons]
      simp only [Bool.false_eq_true, if_false]
      omega
    · simp only [List.filter_cons, hp, Bool.not_true, if_true, List.sum_cons]
      simp only [Bool.false_eq_true, if_false]
      omega

theorem foldl_add64 (l : List Nat) (acc : Nat) (hacc : acc < two64) :
    l.foldl add64 acc = (acc + l.sum) % two64 := by
  induction l generalizing acc with
  | nil =>
    simp only [List.foldl_nil, List.sum_nil, Nat.add_zero]
    exact (Nat.mod_eq_of_lt hacc).symm
  | cons x xs ih =>
    simp only [List.foldl_cons, List.sum_cons]
    rw [ih _ (add64_lt acc x)]
    unfold add64
    rw [Nat.add_mod, Nat.mod_mod, ← Nat.add_mod, Nat.add_assoc]

theorem dropWhile_eq_filter_of_sorted (v : Nat) (heap : List Nat)
    (hv : ∀ y ∈ heap, v ≤ y) (hs : heap.Sorted (· ≤ ·)) :
    heap.dropWhile (fun x => x == v) = heap.filter (fun y => decide (v < y)) := by
  induction heap with
  | nil => rfl
  | cons y ys ih =>
    have hy := hv y (by simp)
    have hys : ∀ z ∈ ys, y ≤ z := (List.sorted_cons.mp hs).1
    by_cases hyv : y = v
    · subst hyv
      simp only [List.dropWhile_cons, beq_self_eq_true, if_true, List.filter_cons,
        Nat.lt_irrefl, decide_False, Bool.false_eq_true, if_false]
      exact ih (fun z hz => hv z (List.mem_cons_of_mem _ hz)) (List.sorted_cons.mp hs).2
    · have hlt : v < y := by omega
      have hbeq : (y == v) = false := by simpa using hyv
      have hall : ys.filter (fun z => decide (v < z)) = ys := by
        rw [List.filter_eq_self]
        intro z hz
        have := hys z hz
        simp only [decide_eq_true_eq]
        omega
      simp only [List.dropWhile_cons, hbeq, Bool.false_eq_true, if_false, List.filter_cons,
        hlt, decide_True, if_true, hall]

/-- **C16** (candidate-gap selection), stated of the constructor `CDFModel.new`. Let
`M = ⌊b·n/192⌋ ≥ 1` be the heap bound the constructor computes, for a strictly increasing
array of `n ≥ 2` 64-bit keys, whose adjacent differences `gaps keys` are the true gaps
`K[i+1] − K[i]`. The bounded min-heap pass of the constructor ends with a heap `v :: heap`
(ascending, `v` its smallest entry) that holds, as a multiset, the `min(M, n − 1)` largest
gaps (the gaps are a permutation of the heap and of a remainder no element of which exceeds
a heap entry). The candidate queue `G`, what is left after popping every entry equal to `v`,
is ascending and holds exactly the gaps strictly greater than `v`; `ΣG` is accumulated
without wrap-around, `delta_sum = K[n-1] − K[0] − ΣG` is computed without underflow and
equals the sum of the gaps not in `G`. These `G` and `delta_sum` are the ones the
constructor computes: its result is `build_indices` at the threshold that `get_threshold`
returns on exactly this `delta_sum`, `n` and `G`. -/
theorem candidate_gap_selection (fo : FloatOps) (bpk : fo.Dbl) (elem_per_block : Nat)
    (keys : List Nat) (hM : 1 ≤ fo.heapBound bpk keys.length)
    (hn : 2 ≤ keys.length) (hs : keys.Pairwise (· < ·)) (hk : ∀ k ∈ keys, k < two64) :
    (∀ (i a b : Nat), keys[i]? = some a → keys[i + 1]? = some b →
      (gaps keys)[i]? = some (b - a)) ∧
    ∃ v heap rest G delta_sum,
      heapLoop (fo.heapBound bpk keys.length) [] (gaps keys) = some (v :: heap) ∧
      (v :: heap).Sorted (· ≤ ·) ∧
      (v :: heap).length = min (fo.heapBound bpk keys.length) (keys.length - 1) ∧
      (gaps keys).Perm ((v :: heap) ++ rest) ∧
      (∀ x ∈ rest, ∀ y ∈ v :: heap, x ≤ y) ∧
      G = heap.dropWhile (fun x => x == v) ∧
      G.Sorted (· ≤ ·) ∧
      G.Perm ((gaps keys).filter (fun g => decide (v < g))) ∧
      G.sum ≤ keys.getLastD 0 - keys.headD 0 ∧
      G.foldl add64 0 = G.sum ∧
      delta_sum = sub64 (sub64 (keys.getLastD 0) (keys.headD 0)) (G.foldl add64 0) ∧
      delta_sum = keys.getLastD 0 - keys.headD 0 - G.sum ∧
      delta_sum = ((gaps keys).filter (fun g => decide (g ≤ v))).sum ∧
      CDFModel.new fo bpk elem_per_block keys =
        (get_threshold fo (fo.remainBpk bpk elem_per_block) delta_sum keys.length G).bind
          (fun t => build_indices fo t (fo.remainBpk bpk elem_per_block) keys) := by
  refine ⟨fun i a b ha hb => (gaps_getElem? hs hk i a b ha hb).1, ?_⟩
  obtain ⟨h2, rest, hloop, hsorted, hperm, hdom, hlen⟩ :=
    heapLoop_retains (fo.heapBound bpk keys.length) hM (gaps keys) [] [] []
      (by simp) (by simp) (by simp) (by simp)
  simp only [List.nil_append] at hperm hlen
  rw [gaps_length] at hlen
  cases h2 with
  | nil =>
    simp only [List.length_nil] at hlen
    omega
  | cons v heap =>
    have hvle : ∀ y ∈ heap, v ≤ y := (List.sorted_cons.mp hsorted).1
    have hheap : heap.Sorted (· ≤ ·) := (List.sorted_cons.mp hsorted).2
    have hG := dropWhile_eq_filter_of_sorted v heap hvle hheap
    have hGperm : (heap.filter (fun y => decide (v < y))).Perm
        ((gaps keys).filter (fun g => decide (v < g))) := by
      have h1 := hperm.filter (fun g => decide (v < g))
      have h3 : rest.filter (fun g => decide (v < g)) = [] := by
        rw [List.filter_eq_nil_iff]
        intro a ha
        have := hdom a ha v (by simp)
        simp only [decide_eq_true_eq]
        omega
      rw [List.filter_append, h3, List.append_nil] at h1
      simp only [List.filter_cons, Nat.lt_irrefl, decide_False, Bool.false_eq_true,
        if_false] at h1
      exact h1.symm
    have hsum := gaps_sum hs hk
    have hsplit := sum_filter_split (fun g => decide (v < g)) (gaps keys)
    have hnot : (gaps keys).filter (fun x => !decide (v < x))
        = (gaps keys).filter (fun g => decide (g ≤ v)) := by
      congr 1
      funext x
      by_cases hx : v < x
      · have : ¬ x ≤ v := by omega
        simp [hx, this]
      · have : x ≤ v := by omega
        simp [hx, this]
    rw [hnot] at hsplit
    have hGsum : (heap.filter (fun y => decide (v < y))).sum
        = ((gaps keys).filter (fun g => decide (v < g))).sum := hGperm.sum_eq
    have hlast : keys.getLastD 0 < two64 := by
      apply hk
      apply getLastD_mem
      intro h
      rw [h] at hn
      simp at hn
    have hfold : (heap.filter (fun y => decide (v < y))).foldl add64 0
        = (heap.filter (fun y => decide (v < y))).sum := by
      rw [foldl_add64 _ 0 (by unfold two64; omega), Nat.zero_add]
      apply Nat.mod_eq_of_lt
      omega
    have hnew : CDFModel.new fo bpk elem_per_block keys =
        (get_threshold fo (fo.remainBpk bpk elem_per_block)
          (sub64 (sub64 (keys.getLastD 0) (keys.headD 0))
            ((heap.dropWhile (fun x => x == v)).foldl add64 0))
          keys.length (heap.dropWhile (fun x => x == v))).bind
          (fun t => build_indices fo t (fo.remainBpk bpk elem_per_block) keys) := by
      unfold CDFModel.new
      cases keys with
      | nil => simp at hn
      | cons k0 tl =>
        simp only
        rw [hloop]
        simp only [List.headD_cons]
        cases get_threshold fo (fo.remainBpk bpk elem_per_block)
          (sub64 (sub64 ((k0 :: tl).getLastD 0) k0)
            ((heap.dropWhile (fun x => x == v)).foldl add64 0))
          (k0 :: tl).length (heap.dropWhile (fun x => x == v)) <;> rfl
    refine ⟨v, heap, rest, heap.dropWhile (fun x => x == v),
      sub64 (sub64 (keys.getLastD 0) (keys.headD 0))
        ((heap.dropWhile (fun x => x == v)).foldl add64 0),
      hloop, hsorted, hlen, hperm, hdom, rfl, ?_, ?_, ?_, ?_, rfl, ?_, ?_, hnew⟩
    · rw [hG]
      exact hheap.filter _
    · rw [hG]
      exact hGperm
    · rw [hG]
      omega
    · rw [hG]
      exact hfold
    · rw [hG, hfold, sub64_of_le (by omega) hlast, sub64_of_le (by omega) (by omega)]
    · rw [hG, hfold, sub64_of_le (by omega) hlast, sub64_of_le (by omega) (by omega)]
      omega

set_option maxRecDepth 100000 in
/-- Witness of **C16** on the running example `CDFModel(68, 4, exKeys)`, where `M = 2`: the
heap ends as `1, 94`, the candidate queue is `94`, `delta_sum = 110 − 10 − 94 = 6`, and
the constructor calls `get_threshold` on `6`, `8` and the queue `94`. -/
theorem candidate_gap_selection_witness :
    exactFloat.heapBound (68, 1) exKeys.length = 2 ∧
    heapLoop 2 [] (gaps exKeys) = some [1, 94] ∧
    sub64 (sub64 (exKeys.getLastD 0) (exKeys.headD 0)) ([94].foldl add64 0) = 6 ∧
    CDFModel.new exactFloat (68, 1) 4 exKeys =
      (get_threshold exactFloat (exactFloat.remainBpk (68, 1) 4) 6 exKeys.length [94]).bind
        (fun t => build_indices exactFloat t (exactFloat.remainBpk (68, 1) 4) exKeys) ∧
    ∃ v heap rest G delta_sum,
      heapLoop (exactFloat.heapBound (68, 1) exKeys.length) [] (gaps exKeys)
        = some (v :: heap) ∧
      (v :: heap).Sorted (· ≤ ·) ∧
      (v :: heap).length = min (exactFloat.heapBound (68, 1) exKeys.length)
        (exKeys.length - 1) ∧
      (gaps exKeys).Perm ((v :: heap) ++ rest) ∧
      (∀ x ∈ rest, ∀ y ∈ v :: heap, x ≤ y) ∧
      G = heap.dropWhile (fun x => x == v) ∧
      G.Sorted (· ≤ ·) ∧
      G.Perm ((gaps exKeys).filter (fun g => decide (v < g))) ∧
      G.sum ≤ exKeys.getLastD 0 - exKeys.headD 0 ∧
      G.foldl add64 0 = G.sum ∧
      delta_sum = sub64 (sub64 (exKeys.getLastD 0) (exKeys.headD 0)) (G.foldl add64 0) ∧
      delta_sum = exKeys.getLastD 0 - exKeys.headD 0 - G.sum ∧
      delta_sum = ((gaps exKeys).filter (fun g => decide (g ≤ v))).sum ∧
      CDFModel.new exactFloat (68, 1) 4 exKeys =
        (get_threshold exactFloat (exactFloat.remainBpk (68, 1) 4) delta_sum
          exKeys.length G).bind
          (fun t => build_indices exactFloat t (exactFloat.remainBpk (68, 1) 4) exKeys) :=
  ⟨by decide, by decide, by decide, by decide,
    (candidate_gap_selection exactFloat (68, 1) 4 exKeys (by decide) (by decide) (by decide)
      (by decide)).2⟩

/-! ## Threshold selection -/

theorem sum_of_all_eq {l : List Nat} {a : Nat} (h : ∀ x ∈ l, x = a) :
    l.sum = l.length * a := by
  induction l with
  | nil => simp
  | cons x xs ih =>
    have hx := h x (by simp)
    rw [List.sum_cons, ih (fun y hy => h y (List.mem_cons_of_mem _ hy)), hx,
      List.length_cons, Nat.succ_mul]
    omega

theorem rhoOf_front (fo : FloatOps) (bpk : fo.Dbl) (nkeys : Nat) (front : Nat)
    (q : List Nat) (delta : Nat) (hs : (front :: q).Sorted (· ≤ ·)) (hd : delta < two64) :
    rhoOf fo bpk nkeys (front :: q) delta front
      = fo.rho delta (fo.mpSz bpk nkeys (front :: q).length) := by
  have hle : ∀ y ∈ q, front ≤ y := (List.sorted_cons.mp hs).1
  have h1 : (front :: q).filter (fun d => decide (d < front)) = [] := by
    rw [List.filter_eq_nil_iff]
    intro a ha
    simp only [decide_eq_true_eq]
    rcases List.mem_cons.mp ha with h | h
    · omega
    · have := hle a h
      omega
  have h2 : (front :: q).filter (fun d => decide (front ≤ d)) = front :: q := by
    rw [List.filter_eq_self]
    intro a ha
    simp only [decide_eq_true_eq]
    rcases List.mem_cons.mp ha with h | h
    · omega
    · exact hle a h
  unfold rhoOf
  rw [h1, h2, List.sum_nil, Nat.add_zero, Nat.mod_eq_of_lt hd]

theorem rhoOf_step (fo : FloatOps) (bpk : fo.Dbl) (nkeys : Nat) (front : Nat)
    (q : List Nat) (delta T : Nat) (hs : (front :: q).Sorted (· ≤ ·))
    (hT : T ∈ q.dropWhile (fun x => x == front)) :
    rhoOf fo bpk nkeys (q.dropWhile (fun x => x == front))
        (add64 delta (((front :: q).length - (q.dropWhile (fun x => x == front)).length)
          * front)) T
      = rhoOf fo bpk nkeys (front :: q) delta T := by
  have hle : ∀ y ∈ q, front ≤ y := (List.sorted_cons.mp hs).1
  have hq1 := dropWhile_eq_filter_of_sorted front q hle (List.sorted_cons.mp hs).2
  have hTlt : front < T := by
    rw [hq1] at hT
    simpa using (List.mem_filter.mp hT).2
  have hsplit := List.takeWhile_append_dropWhile (fun x => x == front) q
  have hrun : ∀ x ∈ q.takeWhile (fun x => x == front), x = front := by
    intro x hx
    simpa using List.mem_takeWhile_imp hx
  have hlen : q.length = (q.takeWhile (fun x => x == front)).length
      + (q.dropWhile (fun x => x == front)).length := by
    conv_lhs => rw [← hsplit]
    rw [List.length_append]
  have hf1 : (q.takeWhile (fun x => x == front)).filter (fun d => decide (d < T))
      = q.takeWhile (fun x => x == front) := by
    rw [List.filter_eq_self]
    intro a ha
    rw [hrun a ha]
    simpa using hTlt
  have hf2 : (q.takeWhile (fun x => x == front)).filter (fun d => decide (T ≤ d)) = [] := by
    rw [List.filter_eq_nil_iff]
    intro a ha
    rw [hrun a ha]
    simp only [decide_eq_true_eq]
    omega
  have hA : (front :: q).filter (fun d => decide (d < T))
      = front :: (q.takeWhile (fun x => x == front)
        ++ (q.dropWhile (fun x => x == front)).filter (fun d => decide (d < T))) := by
    conv_lhs => rw [← hsplit]
    rw [List.filter_cons, if_pos (by simpa using hTlt), List.filter_append, hf1]
  have hB : (front :: q).filter (fun d => decide (T ≤ d))
      = (q.dropWhile (fun x => x == front)).filter (fun d => decide (T ≤ d)) := by
    conv_lhs => rw [← hsplit]
    rw [List.filter_cons, if_neg (by simp only [decide_eq_true_eq]; omega),
      List.filter_append, hf2, List.nil_append]
  unfold rhoOf
  rw [hA, hB, List.sum_cons, List.sum_append, sum_of_all_eq hrun]
  have hcnt : (front :: q).length - (q.dropWhile (fun x => x == front)).length
      = (q.takeWhile (fun x => x == front)).length + 1 := by
    simp only [List.length_cons]
    omega
  rw [hcnt]
  congr 1
  unfold add64
  rw [Nat.add_mod, Nat.mod_mod, ← Nat.add_mod]
  congr 1
  rw [Nat.succ_mul]
  omega

theorem mem_front_or_dropWhile {front T : Nat} {q : List Nat} (h : T ∈ front :: q) :
    T = front ∨ T ∈ q.dropWhile (fun x => x == front) := by
  rcases List.mem_cons.mp h with h | h
  · exact Or.inl h
  · rw [← List.takeWhile_append_dropWhile (fun x => x == front) q] at h
    rcases List.mem_append.mp h with h | h
    · left
      simpa using List.mem_takeWhile_imp h
    · exact Or.inr h

theorem thresholdLoop_selects (fo : FloatOps) (bpk : fo.Dbl) (nkeys : Nat) (G : List Nat)
    (R : Nat → fo.Dbl)
    (htotal : ∀ a ∈ G, ∀ b ∈ G, fo.le (R a) (R b) = true ∨ fo.le (R b) (R a) = true)
    (htrans : ∀ a ∈ G, ∀ b ∈ G, ∀ c ∈ G, fo.le (R a) (R b) = true →
      fo.le (R b) (R c) = true → fo.le (R a) (R c) = true)
    (fuel : Nat) (q : List Nat) (delta best : Nat)
    (hs : q.Sorted (· ≤ ·)) (hfuel : q.length ≤ fuel) (hd : delta < two64)
    (hR : ∀ T ∈ q, rhoOf fo bpk nkeys q delta T = R T) (hq : ∀ T ∈ q, T ∈ G)
    (hbest : best ∈ G) (hlt : ∀ T ∈ q, best < T) :
    ∃ res, res = thresholdLoop fo bpk nkeys fuel q q.length delta (R best) best ∧
      (res = best ∨ res ∈ q) ∧ fo.le (R res) (R best) = true ∧
      (∀ T ∈ q, fo.le (R res) (R T) = true) ∧
      (∀ T ∈ q, fo.le (R T) (R res) = true → T ≤ res) ∧
      (fo.le (R best) (R res) = true → best ≤ res) := by
  have hrefl : ∀ a ∈ G, fo.le (R a) (R a) = true := by
    intro a ha
    rcases htotal a ha a ha with h | h <;> exact h
  induction fuel generalizing q delta best with
  | zero =>
    have hq0 : q = [] := List.eq_nil_of_length_eq_zero (by omega)
    subst hq0
    exact ⟨best, by simp [thresholdLoop], Or.inl rfl, hrefl best hbest, by simp, by simp,
      fun _ => Nat.le_refl _⟩
  | succ n ih =>
    cases q with
    | nil =>
      exact ⟨best, by simp [thresholdLoop], Or.inl rfl, hrefl best hbest, by simp, by simp,
        fun _ => Nat.le_refl _⟩
    | cons front q2 =>
      have hfG : front ∈ G := hq front (by simp)
      have hrho : fo.rho delta (fo.mpSz bpk nkeys (front :: q2).length) = R front := by
        rw [← rhoOf_front fo bpk nkeys front q2 delta hs hd]
        exact hR front (by simp)
      have hle : ∀ y ∈ q2, front ≤ y := (List.sorted_cons.mp hs).1
      have hq1 := dropWhile_eq_filter_of_sorted front q2 hle (List.sorted_cons.mp hs).2
      have hq1gt : ∀ T ∈ q2.dropWhile (fun x => x == front), front < T := by
        intro T hT
        rw [hq1] at hT
        simpa using (List.mem_filter.mp hT).2
      have hq1sub : ∀ T ∈ q2.dropWhile (fun x => x == front), T ∈ front :: q2 :=
        fun T hT => List.mem_cons_of_mem _ ((List.dropWhile_sublist _).subset hT)
      have hs1 : (q2.dropWhile (fun x => x == front)).Sorted (· ≤ ·) :=
        (List.sorted_cons.mp hs).2.sublist (List.dropWhile_sublist _)
      have hlen1 : (q2.dropWhile (fun x => x == front)).length ≤ n := by
        have := (List.dropWhile_sublist (fun x => x == front) (l := q2)).length_le
        simp only [List.length_cons] at hfuel
        omega
      have hR1 : ∀ T ∈ q2.dropWhile (fun x => x == front),
          rhoOf fo bpk nkeys (q2.dropWhile (fun x => x == front))
            (add64 delta (((front :: q2).length
              - (q2.dropWhile (fun x => x == front)).length) * front)) T = R T := by
        intro T hT
        rw [rhoOf_step fo bpk nkeys front q2 delta T hs hT]
        exact hR T (hq1sub T hT)
      have hbf : best < front := hlt front (by simp)
      simp only [thresholdLoop, hrho]
      cases hupd : fo.le (R front) (R best) with
      | true =>
        simp only [if_true]
        obtain ⟨res, hres, h1, h2, h3, h4, h5⟩ := ih
          (q2.dropWhile (fun x => x == front))
          (add64 delta (((front :: q2).length
              - (q2.dropWhile (fun x => x == front)).length) * front))
          front hs1 hlen1 (add64_lt _ _) hR1 (fun T hT => hq T (hq1sub T hT)) hfG hq1gt
        have hresG : res ∈ G := by
          rcases h1 with h | h
          · rw [h]
            exact hfG
          · exact hq res (hq1sub res h)
        refine ⟨res, hres, ?_, ?_, ?_, ?_, ?_⟩
        · rcases h1 with h | h
          · right
            rw [h]
            simp
          · right
            exact hq1sub res h
        · exact htrans res hresG front hfG best hbest h2 hupd
        · intro T hT
          rcases mem_front_or_dropWhile hT with h | h
          · rw [h]
            exact h2
          · exact h3 T h
        · intro T hT hle2
          rcases mem_front_or_dropWhile hT with h | h
          · rw [h] at hle2 ⊢
            exact h5 hle2
          · exact h4 T h hle2
        · intro _
          rcases h1 with h | h
          · rw [h]
            omega
          · have := hq1gt res h
            omega
      | false =>
        simp only [Bool.false_eq_true, if_false]
        obtain ⟨res, hres, h1, h2, h3, h4, h5⟩ := ih
          (q2.dropWhile (fun x => x == front))
          (add64 delta (((front :: q2).length
              - (q2.dropWhile (fun x => x == front)).length) * front))
          best hs1 hlen1 (add64_lt _ _) hR1 (fun T hT => hq T (hq1sub T hT)) hbest
          (fun T hT => hlt T (hq1sub T hT))
        have hresG : res ∈ G := by
          rcases h1 with h | h
          · rw [h]
            exact hbest
          · exact hq res (hq1sub res h)
        have hbf2 : fo.le (R best) (R front) = true := by
          rcases htotal best hbest front hfG with h | h
          · exact h
          · rw [hupd] at h
            simp at h
        refine ⟨res, hres, ?_, h2, ?_, ?_, h5⟩
        · rcases h1 with h | h
          · exact Or.inl h
          · exact Or.inr (hq1sub res h)
        · intro T hT
          rcases mem_front_or_dropWhile hT with h | h
          · rw [h]
            exact htrans res hresG best hbest front hfG h2 hbf2
          · exact h3 T h
        · intro T hT hle2
          rcases mem_front_or_dropWhile hT with h | h
          · rw [h] at hle2
            have := htrans front hfG res hresG best hbest hle2 h2
            rw [hupd] at this
            simp at this
          · exact h4 T h hle2

/-- Counterexample to **C17** as stated: for `CDFModel(72, 64, tieKeys)` (`M = 3`,
`b' = 69`, `Δ = 5`) the candidates `20475` and `30000` have the same proxy
`ρ = 25/1 = 20480²/2^24`, and `get_threshold` returns the larger one, `30000`. -/
theorem tie_goes_to_larger :
    heapLoop (exactFloat.heapBound (72, 1) tieKeys.length) [] (gaps tieKeys)
      = some [1, 20475, 30000] ∧
    exactFloat.le (rhoOf exactFloat (exactFloat.remainBpk (72, 1) 64) 8 [20475, 30000] 5 20475)
      (rhoOf exactFloat (exactFloat.remainBpk (72, 1) 64) 8 [20475, 30000] 5 30000) = true ∧
    exactFloat.le (rhoOf exactFloat (exactFloat.remainBpk (72, 1) 64) 8 [20475, 30000] 5 30000)
      (rhoOf exactFloat (exactFloat.remainBpk (72, 1) 64) 8 [20475, 30000] 5 20475) = true ∧
    get_threshold exactFloat (exactFloat.remainBpk (72, 1) 64) 5 8 [20475, 30000]
      = some 30000 ∧
    (CDFModel.new exactFloat (72, 1) 64 tieKeys).map (fun c => c.begins_)
      = some [10, 50490] := by
  decide

/-- **C17**, amended. For a non-empty ascending candidate queue `G` and a comparison
`rho <= min_rho` that is total and transitive on the proxies of `G`, each of which is at
most the largest double: `get_threshold` returns a value `T` of `G` that minimises the
proxy `ρ` over the values of `G`, and among the candidates that attain the minimal `ρ` it
returns the largest. -/
theorem threshold_selection (fo : FloatOps) (bpk : fo.Dbl) (nkeys : Nat) (G : List Nat)
    (delta : Nat) (hG : G ≠ []) (hs : G.Sorted (· ≤ ·)) (hd : delta < two64)
    (htotal : ∀ a ∈ G, ∀ b ∈ G,
      fo.le (rhoOf fo bpk nkeys G delta a) (rhoOf fo bpk nkeys G delta b) = true ∨
      fo.le (rhoOf fo bpk nkeys G delta b) (rhoOf fo bpk nkeys G delta a) = true)
    (htrans : ∀ a ∈ G, ∀ b ∈ G, ∀ c ∈ G,
      fo.le (rhoOf fo bpk nkeys G delta a) (rhoOf fo bpk nkeys G delta b) = true →
      fo.le (rhoOf fo bpk nkeys G delta b) (rhoOf fo bpk nkeys G delta c) = true →
      fo.le (rhoOf fo bpk nkeys G delta a) (rhoOf fo bpk nkeys G delta c) = true)
    (hmax : ∀ a ∈ G, fo.le (rhoOf fo bpk nkeys G delta a) fo.dblMax = true) :
    ∃ T, get_threshold fo bpk delta nkeys G = some T ∧ T ∈ G ∧
      (∀ T2 ∈ G, fo.le (rhoOf fo bpk nkeys G delta T) (rhoOf fo bpk nkeys G delta T2) = true) ∧
      (∀ T2 ∈ G, fo.le (rhoOf fo bpk nkeys G delta T2) (rhoOf fo bpk nkeys G delta T) = true →
        T2 ≤ T) := by
  cases G with
  | nil => exact absurd rfl hG
  | cons front q =>
    have hfG : front ∈ front :: q := by simp
    have hrho := rhoOf_front fo bpk nkeys front q delta hs hd
    have hle : ∀ y ∈ q, front ≤ y := (List.sorted_cons.mp hs).1
    have hq1 := dropWhile_eq_filter_of_sorted front q hle (List.sorted_cons.mp hs).2
    have hq1gt : ∀ T ∈ q.dropWhile (fun x => x == front), front < T := by
      intro T hT
      rw [hq1] at hT
      simpa using (List.mem_filter.mp hT).2
    have hq1sub : ∀ T ∈ q.dropWhile (fun x => x == front), T ∈ front :: q :=
      fun T hT => List.mem_cons_of_mem _ ((List.dropWhile_sublist _).subset hT)
    have hs1 : (q.dropWhile (fun x => x == front)).Sorted (· ≤ ·) :=
      (List.sorted_cons.mp hs).2.sublist (List.dropWhile_sublist _)
    have hlen1 : (q.dropWhile (fun x => x == front)).length ≤ q.length :=
      (List.dropWhile_sublist (fun x => x == front) (l := q)).length_le
    obtain ⟨res, hres, h1, h2, h3, h4, h5⟩ := thresholdLoop_selects fo bpk nkeys (front :: q)
      (rhoOf fo bpk nkeys (front :: q) delta) htotal htrans q.length
      (q.dropWhile (fun x => x == front))
      (add64 delta (((front :: q).length
        - (q.dropWhile (fun x => x == front)).length) * front))
      front hs1 hlen1 (add64_lt _ _)
      (fun T hT => rhoOf_step fo bpk nkeys front q delta T hs hT) hq1sub hfG hq1gt
    have hget : get_threshold fo bpk delta nkeys (front :: q) = some res := by
      simp only [List.length_cons] at hrho hres
      have hm : fo.le (fo.rho delta (fo.mpSz bpk nkeys (q.length + 1))) fo.dblMax = true := by
        rw [← hrho]
        exact hmax front hfG
      simp only [get_threshold, List.length_cons, thresholdLoop, hm, if_true]
      rw [hres, hrho]
    refine ⟨res, hget, ?_, ?_, ?_⟩
    · rcases h1 with h | h
      · rw [h]
        exact hfG
      · exact hq1sub res h
    · intro T2 hT2
      rcases mem_front_or_dropWhile hT2 with h | h
      · rw [h]
        exact h2
      · exact h3 T2 h
    · intro T2 hT2 hle2
      rcases mem_front_or_dropWhile hT2 with h | h
      · rw [h] at hle2 ⊢
        exact h5 hle2
      · exact h4 T2 h hle2

/-- Witness of **C17** (amended): the candidates `94, 95` of `CDFModel(72, 2, skipKeys)`
with `Δ = 5`; the minimiser is `94`. -/
theorem threshold_selection_witness :
    get_threshold exactFloat (76, 2) 5 8 [94, 95] = some 94 ∧
    ∃ T, get_threshold exactFloat (76, 2) 5 8 [94, 95] = some T ∧ T ∈ [94, 95] ∧
      (∀ T2 ∈ [94, 95], exactFloat.le (rhoOf exactFloat (76, 2) 8 [94, 95] 5 T)
        (rhoOf exactFloat (76, 2) 8 [94, 95] 5 T2) = true) ∧
      (∀ T2 ∈ [94, 95], exactFloat.le (rhoOf exactFloat (76, 2) 8 [94, 95] 5 T2)
        (rhoOf exactFloat (76, 2) 8 [94, 95] 5 T) = true → T2 ≤ T) :=
  ⟨by decide,
    threshold_selection exactFloat (76, 2) 8 [94, 95] 5 (by decide) (by decide) (by decide)
      (by decide) (by decide) (by decide)⟩

/-! ## Equal-spaced keys -/

theorem heapStep_all_eq {M d : Nat} {h h2 : List Nat} (hh : ∀ x ∈ h, x = d)
    (hstep : heapStep M h d = some h2) : ∀ x ∈ h2, x = d := by
  have hpush : ∀ l : List Nat, (∀ x ∈ l, x = d) → ∀ x ∈ heapPush d l, x = d := by
    intro l hl x hx
    rcases List.mem_cons.mp ((heapPush_perm d l).mem_iff.mp hx) with h | h
    · exact h
    · exact hl x h
  unfold heapStep at hstep
  split at hstep
  · split at hstep
    · simp at hstep
    · rename_i top rest hge
      split at hstep
      · simp only [Option.some.injEq] at hstep
        rw [← hstep]
        exact hh
      · simp only [Option.some.injEq] at hstep
        rw [← hstep]
        exact hpush rest (fun x hx => hh x (List.mem_cons_of_mem _ hx))
  · simp only [Option.some.injEq] at hstep
    rw [← hstep]
    exact hpush h hh

theorem heapLoop_all_eq {M d : Nat} (ds : List Nat) (hds : ∀ x ∈ ds, x = d) :
    ∀ (h h2 : List Nat), (∀ x ∈ h, x = d) → heapLoop M h ds = some h2 → ∀ x ∈ h2, x = d := by
  induction ds with
  | nil =>
    intro h h2 hh hloop
    simp only [heapLoop, Option.some.injEq] at hloop
    rw [← hloop]
    exact hh
  | cons g gs ih =>
    intro h h2 hh hloop
    have hg : g = d := hds g (by simp)
    subst hg
    unfold heapLoop at hloop
    split at hloop
    · simp at hloop
    · rename_i h1 hstep
      exact ih (fun x hx => hds x (List.mem_cons_of_mem _ hx)) h1 h2
        (heapStep_all_eq hh hstep) hloop

theorem CDFModel_new_none_of_equal_gaps (fo : FloatOps) (bpk : fo.Dbl) (B : Nat)
    (keys : List Nat) (d : Nat) (hd : ∀ g ∈ gaps keys, g = d) :
    CDFModel.new fo bpk B keys = none := by
  unfold CDFModel.new
  cases keys with
  | nil => rfl
  | cons k0 rest =>
    simp only
    cases hloop : heapLoop (fo.heapBound bpk (k0 :: rest).length) [] (gaps (k0 :: rest)) with
    | none => rfl
    | some h2 =>
      have hall := heapLoop_all_eq (gaps (k0 :: rest)) hd [] h2 (by simp) hloop
      cases h2 with
      | nil => rfl
      | cons t heap =>
        simp only
        have ht : t = d := hall t (by simp)
        have hnil : heap.dropWhile (fun x => x == t) = [] := by
          rw [List.dropWhile_eq_nil_iff]
          intro x hx
          have := hall x (List.mem_cons_of_mem _ hx)
          simp [this, ht]
        rw [hnil]
        rfl

/-- **C21**, evaluated at its failing input. For the equal-spaced keys
`K = {10, 11, 12, 13, 14}` every adjacent gap is `1`, and whatever the budget, the block
size and the floating-point results are, the constructor yields no model: with `M = 0`
(`b = 10`) it takes `top()` of an empty heap; with `M ≥ 1` (`b = 40` gives `M = 1`) the
heap holds only ones, the candidate queue is empty and `get_threshold` takes `front()` of
an empty queue. No single-interval model is produced, and no filter. -/
theorem equal_spaced_keys_no_model (fo : FloatOps) (bs : BitSetOps) (bpk : fo.Dbl)
    (B : Nat) :
    gaps evenKeys = [1, 1, 1, 1] ∧
    exactFloat.heapBound (10, 1) evenKeys.length = 0 ∧
    heapLoop 0 [] (gaps evenKeys) = none ∧
    exactFloat.heapBound (40, 1) evenKeys.length = 1 ∧
    heapLoop 1 [] (gaps evenKeys) = some [1] ∧
    get_threshold fo (fo.remainBpk bpk B) (sub64 (sub64 14 10) 0) evenKeys.length [] = none ∧
    CDFModel.new exactFloat (40, 1) 4 evenKeys = none ∧
    CDFModel.new fo bpk B evenKeys = none ∧
    Oasis.new fo bs bpk B evenKeys = none := by
  have h1 : ∀ (b2 : fo.Dbl) (B2 : Nat), CDFModel.new fo b2 B2 evenKeys = none :=
    fun b2 B2 => CDFModel_new_none_of_equal_gaps fo b2 B2 evenKeys 1 (by decide)
  refine ⟨by decide, by decide, by decide, by decide, by decide, rfl, by decide, h1 bpk B, ?_⟩
  unfold Oasis.new
  simp only
  rw [h1]

/-! ## A built model whose position list is empty -/

/-- **C22**, evaluated at its failing input. `CDFModel(96, 4, {1, 2, 100, 101})` (`M = 2`,
threshold `98`) builds the model with the intervals `[1, 2]` and `[100, 101]`; every key is
a begin or an end, so `get_locations` returns the empty list, and `build_block_list` reads
`keys_pos[0]` of an empty vector: whatever the bitset is, no filter results. The same
holds for the three keys `{1, 100, 300}` with `CDFModel(128, 4, ·)`. -/
theorem model_built_positions_empty (bs : BitSetOps) :
    pairKeys.Pairwise (· < ·) ∧ 2 ≤ pairKeys.length ∧
    exactFloat.heapBound (96, 1) pairKeys.length = 2 ∧
    CDFModel.new exactFloat (96, 1) 4 pairKeys = some pairModel ∧
    pairModel.get_locations exactFloat pairKeys = some [] ∧
    build_block_list exactFloat bs 4 pairModel pairKeys = none ∧
    Oasis.new exactFloat bs (96, 1) 4 pairKeys = none ∧
    (CDFModel.new exactFloat (128, 1) 4 [1, 100, 300]).map
      (fun c => (c.begins_, c.ends_, c.get_locations exactFloat [1, 100, 300]))
      = some ([1, 300], [100, 300], some []) := by
  have h1 : CDFModel.new exactFloat (96, 1) 4 pairKeys = some pairModel := by decide
  have h2 : pairModel.get_locations exactFloat pairKeys = some [] := by decide
  have h3 : build_block_list exactFloat bs 4 pairModel pairKeys = none := by
    unfold build_block_list
    rw [h2]
    rfl
  refine ⟨by decide, by decide, by decide, h1, h2, h3, ?_, by decide⟩
  unfold Oasis.new
  have h4 : 4 % 2 ^ 16 = 4 := by decide
  simp only [h4]
  rw [h1]
  simp only
  rw [h3]

end oasis
